import Mathlib

/-!
# BinarySearchTree (victimofamisery/BST): heap model and verification

The C++ tree is a linked structure of `Node`s with `parent`, `left` and `right`
raw pointers.  It is embedded here over an explicit free store: a node pointer
is an address into an arena of cells (or null), every pointer dereference is a
read of the arena that can fault, and each member function is a state
transformer on the arena together with the two data members `_size` and
`_root`.  Loops carry a fuel argument; running out of fuel is a fault of its
own, so that a result `ok` is always a genuine result of the code.
-/

namespace BST

/-- Node pointer: `none` is `nullptr`, `some a` is the address of an arena cell. -/
abbrev Ptr := Option Nat

/-- Transcription of `struct Node`: the key/value pair and the three links. -/
structure Node (K V : Type) where
  keyValuePair : K × V
  parent : Ptr
  left : Ptr
  right : Ptr
deriving DecidableEq, Repr

/-- Ways in which running the code can fail to produce a result. -/
inductive Fault where
  | nullDeref
  | danglingDeref
  | outOfFuel
deriving DecidableEq, Repr

/-- Free store: cell `a` holds a live node, or nothing (never allocated or deleted). -/
structure Heap (K V : Type) where
  cells : List (Option (Node K V))
deriving DecidableEq, Repr

variable {K V : Type}

/-- Content of cell `a`, `none` when no live node is stored there. -/
def Heap.read (m : Heap K V) (a : Nat) : Option (Node K V) :=
  (m.cells.get? a).join

/-- Overwrite the node stored in cell `a`. -/
def Heap.write (m : Heap K V) (a : Nat) (n : Node K V) : Heap K V :=
  ⟨m.cells.set a (some n)⟩

/-- Effect of `new Node(...)`: the node is placed in a fresh cell, whose address is returned. -/
def Heap.alloc (m : Heap K V) (n : Node K V) : Heap K V × Nat :=
  (⟨m.cells ++ [some n]⟩, m.cells.length)

/-- Effect of `delete`: cell `a` no longer holds a node. -/
def Heap.free (m : Heap K V) (a : Nat) : Heap K V :=
  ⟨m.cells.set a none⟩

/-- Dereference `p->...`: faults on the null pointer and on a dead cell. -/
def load (m : Heap K V) : Ptr → Except Fault (Node K V)
  | none => .error .nullDeref
  | some a =>
    match m.read a with
    | none => .error .danglingDeref
    | some n => .ok n

/-- Assignment to a member through a pointer, `p->field = ...`. -/
def update (m : Heap K V) (p : Ptr) (f : Node K V → Node K V) : Except Fault (Heap K V) :=
  match p with
  | none => .error .nullDeref
  | some a =>
    match m.read a with
    | none => .error .danglingDeref
    | some n => .ok (m.write a (f n))

/-- Assignment `p->parent = q`. -/
def setParent (m : Heap K V) (p q : Ptr) : Except Fault (Heap K V) :=
  update m p (fun n => ⟨n.keyValuePair, q, n.left, n.right⟩)

/-- Assignment `p->left = q`. -/
def setLeft (m : Heap K V) (p q : Ptr) : Except Fault (Heap K V) :=
  update m p (fun n => ⟨n.keyValuePair, n.parent, q, n.right⟩)

/-- Assignment `p->right = q`. -/
def setRight (m : Heap K V) (p q : Ptr) : Except Fault (Heap K V) :=
  update m p (fun n => ⟨n.keyValuePair, n.parent, n.left, q⟩)

/-- Data members of `BinarySearchTree`, together with the free store its nodes live in.
`_size` is a `size_t`: the decrement wraps at zero (see `erase`); the increment is not
reduced modulo `2^64`, since a store of distinct live nodes cannot hold that many. -/
structure BinarySearchTree (K V : Type) where
  mem : Heap K V
  _size : Nat
  _root : Ptr
deriving DecidableEq, Repr

/-- Default-constructed tree: `_size = 0`, `_root = nullptr`, nothing allocated. -/
def BinarySearchTree.empty : BinarySearchTree K V := ⟨⟨[]⟩, 0, none⟩

/-- Method `size()`. -/
def BinarySearchTree.size (s : BinarySearchTree K V) : Nat := s._size

/-- Loop `while (node->left) node = node->left;` started at `node`. -/
def leftmost (m : Heap K V) : Nat → Ptr → Except Fault Ptr
  | 0, _ => .error .outOfFuel
  | fuel + 1, node => do
    let n ← load m node
    match n.left with
    | none => pure node
    | some l => leftmost m fuel (some l)

/-- Loop `while (node->parent && node->parent->right == node) node = node->parent;`
followed by `node = node->parent`. -/
def climbFromRight (m : Heap K V) : Nat → Ptr → Except Fault Ptr
  | 0, _ => .error .outOfFuel
  | fuel + 1, node => do
    let n ← load m node
    match n.parent with
    | none => pure n.parent
    | some p => do
      let pn ← load m (some p)
      if pn.right = node then climbFromRight m fuel (some p)
      else pure n.parent

/-- Member function `Node::nextNode`, the step of iterator `++`. -/
def nextNode (m : Heap K V) (fuel : Nat) (this : Ptr) : Except Fault Ptr :=
  match this with
  | none => pure none
  | some a => do
    let n ← load m (some a)
    match n.right with
    | some r => leftmost m fuel (some r)
    | none => climbFromRight m fuel (some a)

section Ordered
variable [LinearOrder K]

/-- Outcome of the part of one iteration of a search loop: leave the loop with a
result, or go on with a new value of `search`. -/
inductive Flow (R : Type) where
  | done : R → Flow R
  | next : Ptr → Flow R

/-- Third `if` of the body of the loop of `_findNode`, `if (key > search->keyValuePair.first)`. -/
def findThirdIf (m : Heap K V) (key : K) (search : Ptr) : Except Fault (Flow Ptr) := do
  let n ← load m search
  if key > n.keyValuePair.1 then
    match n.right with
    | none => pure (.done none)
    | some r => pure (.next (some r))
  else pure (.next search)

/-- One iteration of the loop of `_findNode`: the three `if`s in sequence, the third one
testing whatever node the second one moved to. -/
def findStep (m : Heap K V) (key : K) (search : Ptr) : Except Fault (Flow Ptr) := do
  let n ← load m search
  if key = n.keyValuePair.1 then pure (.done search)
  else if key < n.keyValuePair.1 then
    match n.left with
    | none => pure (.done none)
    | some l => findThirdIf m key (some l)
  else findThirdIf m key search

/-- Loop `while (true)` of `_findNode`. -/
def findLoop (m : Heap K V) (key : K) : Nat → Ptr → Except Fault Ptr
  | 0, _ => .error .outOfFuel
  | fuel + 1, search => do
    match (← findStep m key search) with
    | .done r => pure r
    | .next p => findLoop m key fuel p

/-- Member function `_findNode`. -/
def _findNode (fuel : Nat) (s : BinarySearchTree K V) (key : K) : Except Fault Ptr :=
  match s._root with
  | none => pure none
  | some r => findLoop s.mem key fuel (some r)

/-- Member function `find`: the iterator wraps the pointer returned by `_findNode`. -/
def find (fuel : Nat) (s : BinarySearchTree K V) (key : K) : Except Fault Ptr :=
  _findNode fuel s key

/-- Second `if` of the body of the loop of `insert`, `if (key < search->keyValuePair.first)`. -/
def insertSecondIf (m : Heap K V) (key : K) (value : V) (search : Ptr) :
    Except Fault (Flow (Heap K V)) := do
  let n ← load m search
  if key < n.keyValuePair.1 then
    match n.left with
    | none => do
      let (m1, a) := m.alloc ⟨(key, value), search, none, none⟩
      let m2 ← setLeft m1 search (some a)
      pure (.done m2)
    | some l => pure (.next (some l))
  else pure (.next search)

/-- One iteration of the loop of `insert`: the two `if`s in sequence, the second one
testing whatever node the first one moved to. -/
def insertStep (m : Heap K V) (key : K) (value : V) (search : Ptr) :
    Except Fault (Flow (Heap K V)) := do
  let n ← load m search
  if key ≥ n.keyValuePair.1 then
    match n.right with
    | none => do
      let (m1, a) := m.alloc ⟨(key, value), search, none, none⟩
      let m2 ← setRight m1 search (some a)
      pure (.done m2)
    | some r => insertSecondIf m key value (some r)
  else insertSecondIf m key value search

/-- Loop `while (true)` of `insert`. -/
def insertLoop (key : K) (value : V) : Nat → Heap K V → Ptr → Except Fault (Heap K V)
  | 0, _, _ => .error .outOfFuel
  | fuel + 1, m, search => do
    match (← insertStep m key value search) with
    | .done m2 => pure m2
    | .next p => insertLoop key value fuel m p

/-- Member function `insert`. -/
def insert (fuel : Nat) (s : BinarySearchTree K V) (key : K) (value : V) :
    Except Fault (BinarySearchTree K V) := do
  if s._size = 0 then
    let (m1, a) := s.mem.alloc ⟨(key, value), none, none, none⟩
    pure ⟨m1, s._size + 1, some a⟩
  else
    let m2 ← insertLoop key value fuel s.mem s._root
    pure ⟨m2, s._size + 1, s._root⟩

/-- Member function `_shiftNodes`. -/
def _shiftNodes (s : BinarySearchTree K V) (node1 node2 : Ptr) :
    Except Fault (BinarySearchTree K V) := do
  let n1 ← load s.mem node1
  let s1 ← match n1.parent with
    | none => pure (⟨s.mem, s._size, node2⟩ : BinarySearchTree K V)
    | some p => do
      let pn ← load s.mem (some p)
      if pn.left = node1 then
        let m1 ← setLeft s.mem (some p) node2
        pure ⟨m1, s._size, s._root⟩
      else
        let m1 ← setRight s.mem (some p) node2
        pure ⟨m1, s._size, s._root⟩
  match node2 with
  | none => pure s1
  | some b => do
    let n1 ← load s1.mem node1
    let m2 ← setParent s1.mem (some b) n1.parent
    pure ⟨m2, s1._size, s1._root⟩

/-- Statement `_size--` on a `size_t`. -/
def decSize (n : Nat) : Nat := if n = 0 then 2 ^ 64 - 1 else n - 1

/-- Body of `if (replace->parent != search)` in `erase`:
`_shiftNodes(replace, replace->right); replace->right = search->right;
replace->right->parent = replace;`. -/
def eraseDetach (s : BinarySearchTree K V) (search replace : Ptr) :
    Except Fault (BinarySearchTree K V) := do
  let rn ← load s.mem replace
  let s3 ← _shiftNodes s replace rn.right
  let sn ← load s3.mem search
  let m4 ← setRight s3.mem replace sn.right
  let rn4 ← load m4 replace
  let m5 ← setParent m4 rn4.right replace
  pure ⟨m5, s3._size, s3._root⟩

/-- Statements of `erase` after that `if`:
`_shiftNodes(search, replace); replace->left = search->left;
replace->left->parent = replace;`. -/
def erasePromote (s : BinarySearchTree K V) (search replace : Ptr) :
    Except Fault (BinarySearchTree K V) := do
  let s6 ← _shiftNodes s search replace
  let sn ← load s6.mem search
  let m7 ← setLeft s6.mem replace sn.left
  let rn7 ← load m7 replace
  let m8 ← setParent m7 rn7.left replace
  pure ⟨m8, s6._size, s6._root⟩

/-- Branch of `erase` for a node with two children: promotion of the in-order successor
`replace = search->nextNode()`. -/
def eraseTwoChildren (fuel : Nat) (s : BinarySearchTree K V) (search : Ptr) :
    Except Fault (BinarySearchTree K V) := do
  let replace ← nextNode s.mem fuel search
  let rn ← load s.mem replace
  let s2 ← if rn.parent ≠ search then eraseDetach s search replace else pure s
  erasePromote s2 search replace

/-- Member function `erase`. -/
def erase (fuel : Nat) (s : BinarySearchTree K V) (key : K) :
    Except Fault (BinarySearchTree K V) := do
  let search ← _findNode fuel s key
  let sn ← load s.mem search
  let s1 ← match sn.left with
    | none => _shiftNodes s search sn.right
    | some _ =>
      match sn.right with
      | none => _shiftNodes s search sn.left
      | some _ => eraseTwoChildren fuel s search
  match search with
  | none => pure s1
  | some a => pure ⟨s1.mem.free a, decSize s1._size, s1._root⟩

/-- Member function `begin`. -/
def begin (fuel : Nat) (s : BinarySearchTree K V) : Except Fault Ptr :=
  leftmost s.mem fuel s._root

/-- Member function `end`. -/
def «end» (_s : BinarySearchTree K V) : Ptr := none

/-- Range-based `for` over the tree, as in `main`: from `begin()` step with `++` until
`end()`, collecting the address and the dereferenced pair at each position. -/
def traverseFrom (m : Heap K V) (fuel : Nat) : Nat → Ptr → Except Fault (List (Nat × (K × V)))
  | 0, _ => .error .outOfFuel
  | _ + 1, none => pure []
  | n + 1, some a => do
    let nd ← load m (some a)
    let nx ← nextNode m fuel (some a)
    let rest ← traverseFrom m fuel n nx
    pure ((a, nd.keyValuePair) :: rest)

/-- Whole range-based `for` loop over a tree. -/
def traverse (fuel : Nat) (s : BinarySearchTree K V) : Except Fault (List (Nat × (K × V))) := do
  let b ← begin fuel s
  traverseFrom s.mem fuel fuel b

/-- Loop `while ((*end).first == (*begin).first) end++;` of `equalRange`. -/
def equalRangeLoop (m : Heap K V) (fuel : Nat) (first : Ptr) : Nat → Ptr → Except Fault Ptr
  | 0, _ => .error .outOfFuel
  | n + 1, last => do
    let e ← load m last
    let b ← load m first
    if e.keyValuePair.1 = b.keyValuePair.1 then do
      let nx ← nextNode m fuel last
      equalRangeLoop m fuel first n nx
    else pure last

/-- Member function `equalRange`. -/
def equalRange (fuel : Nat) (s : BinarySearchTree K V) (key : K) : Except Fault (Ptr × Ptr) := do
  let first ← find fuel s key
  let last ← equalRangeLoop s.mem fuel first fuel first
  pure (first, last)

/-- Loop of `min`: `for (auto it = range.first; it < range.second; it++)` with the body
`if ((*it).second < (*min).second) min = it;`.  The loop test applies `operator<` to two
iterators; the header declares no such operator, so the comparison is the parameter
`itLt`. -/
def minLoop [LinearOrder V] (itLt : Ptr → Ptr → Bool) (m : Heap K V) (fuel : Nat) (last : Ptr) :
    Nat → Ptr → Ptr → Except Fault Ptr
  | 0, _, _ => .error .outOfFuel
  | n + 1, it, mn =>
    if itLt it last then do
      let i ← load m it
      let c ← load m mn
      let mn2 := if i.keyValuePair.2 < c.keyValuePair.2 then it else mn
      let nx ← nextNode m fuel it
      minLoop itLt m fuel last n nx mn2
    else pure mn

/-- Member function `min`. -/
def min [LinearOrder V] (itLt : Ptr → Ptr → Bool) (fuel : Nat) (s : BinarySearchTree K V)
    (key : K) : Except Fault Ptr := do
  let range ← equalRange fuel s key
  minLoop itLt s.mem fuel range.2 fuel range.1 range.1

/-- Loop of `max`, as `minLoop` with the body `if ((*it).second > (*max).second) max = it;`. -/
def maxLoop [LinearOrder V] (itLt : Ptr → Ptr → Bool) (m : Heap K V) (fuel : Nat) (last : Ptr) :
    Nat → Ptr → Ptr → Except Fault Ptr
  | 0, _, _ => .error .outOfFuel
  | n + 1, it, mx =>
    if itLt it last then do
      let i ← load m it
      let c ← load m mx
      let mx2 := if i.keyValuePair.2 > c.keyValuePair.2 then it else mx
      let nx ← nextNode m fuel it
      maxLoop itLt m fuel last n nx mx2
    else pure mx

/-- Member function `max`. -/
def max [LinearOrder V] (itLt : Ptr → Ptr → Bool) (fuel : Nat) (s : BinarySearchTree K V)
    (key : K) : Except Fault Ptr := do
  let range ← equalRange fuel s key
  maxLoop itLt s.mem fuel range.2 fuel range.1 range.1

end Ordered

/-- Member function `cbegin`: the same loop as `begin`. -/
def cbegin (fuel : Nat) (s : BinarySearchTree K V) : Except Fault Ptr :=
  leftmost s.mem fuel s._root

/-- Member function `cend`. -/
def cend (_s : BinarySearchTree K V) : Ptr := none

/-- Move constructor `BinarySearchTree(BinarySearchTree&& other)`: the new object and the
object `other` after the call.  `_root = std::move(other._root); _size = std::move(other._size);`
applies `std::move` to a raw pointer and to a `size_t`, which copies them; nothing is
assigned to the members of `other`. -/
def moveConstruct (other : BinarySearchTree K V) : BinarySearchTree K V × BinarySearchTree K V :=
  (⟨other.mem, other._size, other._root⟩, other)

section Ordered

variable [LinearOrder K]

/-- Loop of the copy constructor, `for (auto&& [key, value] : other) insert(key, value);`,
from the position `it` on.  The new object `this` lives in the same store as `other`:
each step reads the pair at `it`, inserts it into `this`, and advances `it` in the
store as `insert` left it. -/
def copyFrom (fuel : Nat) : Nat → BinarySearchTree K V → Ptr →
    Except Fault (BinarySearchTree K V)
  | 0, _, _ => .error .outOfFuel
  | _ + 1, this, none => pure this
  | n + 1, this, some a => do
    let nd ← load this.mem (some a)
    let this2 ← insert fuel this nd.keyValuePair.1 nd.keyValuePair.2
    let nx ← nextNode this2.mem fuel (some a)
    copyFrom fuel n this2 nx

/-- Copy constructor `BinarySearchTree(const BinarySearchTree& other)`: the new object
starts with `_size = 0`, `_root = nullptr` and receives every pair of `other`, taken in
the order of the range-based `for`, that is from `other.begin()` to `other.end()`.  The
header declares `begin` and `end` for non-const objects only; the loop over the const
reference `other` is read as calling them. -/
def copyConstruct (fuel : Nat) (other : BinarySearchTree K V) :
    Except Fault (BinarySearchTree K V) := do
  let b ← begin fuel other
  copyFrom fuel fuel ⟨other.mem, 0, none⟩ b

/-- Class `Map`: a wrapper around one tree `_tree`. -/
structure Map (K V : Type) where
  _tree : BinarySearchTree K V
deriving DecidableEq, Repr

/-- Default-constructed map. -/
def Map.empty : Map K V := ⟨BinarySearchTree.empty⟩

/-- Member function `Map::find`. -/
def Map.find (fuel : Nat) (m : Map K V) (key : K) : Except Fault Ptr :=
  BST.find fuel m._tree key

/-- Member function `Map::insert`.  The test `if (*it)` dereferences the iterator that
`find` returned and converts the `std::pair` to `bool`; the header and the standard
library declare no such conversion, so it is the parameter `truthy`. -/
def Map.insert (truthy : K × V → Bool) (fuel : Nat) (m : Map K V) (key : K) (value : V) :
    Except Fault (Map K V) := do
  let it ← Map.find fuel m key
  let n ← load m._tree.mem it
  if truthy n.keyValuePair then do
    let mem2 ← update m._tree.mem it
      (fun nd => ⟨(nd.keyValuePair.1, value), nd.parent, nd.left, nd.right⟩)
    pure ⟨⟨mem2, m._tree._size, m._tree._root⟩⟩
  else do
    let t2 ← BST.insert fuel m._tree key value
    pure ⟨t2⟩

/-- Member function `Map::erase`. -/
def Map.erase (fuel : Nat) (m : Map K V) (key : K) : Except Fault (Map K V) := do
  let t2 ← BST.erase fuel m._tree key
  pure ⟨t2⟩

/-- Member function `Map::size`. -/
def Map.size (m : Map K V) : Nat := m._tree.size

end Ordered

/-- Class `Set`: a wrapper around a `Map` from the elements to themselves. -/
structure Set (V : Type) where
  _map : Map V V
deriving DecidableEq, Repr

section OrderedSet

variable [LinearOrder V]

/-- Default-constructed set. -/
def Set.empty : Set V := ⟨Map.empty⟩

/-- Member function `Set::insert`. -/
def Set.insert (truthy : V × V → Bool) (fuel : Nat) (s : Set V) (value : V) :
    Except Fault (Set V) := do
  let m2 ← Map.insert truthy fuel s._map value value
  pure ⟨m2⟩

/-- Member function `Set::erase`. -/
def Set.erase (fuel : Nat) (s : Set V) (value : V) : Except Fault (Set V) := do
  let m2 ← Map.erase fuel s._map value
  pure ⟨m2⟩

/-- Member function `Set::find`. -/
def Set.find (fuel : Nat) (s : Set V) (value : V) : Except Fault Ptr :=
  Map.find fuel s._map value

/-- Member function `Set::contains`: `try { find(value); return true; } catch (...)
{ return false; }`.  No function of the header contains a `throw`, so the handler is
never entered: whenever `find` returns, `contains` returns `true`. -/
def Set.contains (fuel : Nat) (s : Set V) (value : V) : Except Fault Bool := do
  let _ ← Set.find fuel s value
  pure true

end OrderedSet

/-- Loop `while (node->right) node = node->right;` started at `node`. -/
def rightmost (m : Heap K V) : Nat → Ptr → Except Fault Ptr
  | 0, _ => .error .outOfFuel
  | fuel + 1, node => do
    let n ← load m node
    match n.right with
    | none => pure node
    | some r => rightmost m fuel (some r)

/-- Loop `while (node->parent && node->parent->left == node) node = node->parent;`
followed by `node = node->parent`. -/
def climbFromLeft (m : Heap K V) : Nat → Ptr → Except Fault Ptr
  | 0, _ => .error .outOfFuel
  | fuel + 1, node => do
    let n ← load m node
    match n.parent with
    | none => pure n.parent
    | some p => do
      let pn ← load m (some p)
      if pn.left = node then climbFromLeft m fuel (some p)
      else pure n.parent

/-- Member function `Node::lastNode`, the step of iterator `--`. -/
def lastNode (m : Heap K V) (fuel : Nat) (this : Ptr) : Except Fault Ptr :=
  match this with
  | none => pure none
  | some a => do
    let n ← load m (some a)
    match n.left with
    | some l => rightmost m fuel (some l)
    | none => climbFromLeft m fuel (some a)

/-! ## Abstract shape of a tree laid out in the store -/

/-- Binary tree of nodes: each node carries the address of its cell and its key/value pair. -/
inductive Shape (K V : Type) where
  | nil : Shape K V
  | node (l : Shape K V) (a : Nat) (kv : K × V) (r : Shape K V) : Shape K V
deriving DecidableEq, Repr

namespace Shape

/-- Pointer to the root node of a shape (null for the empty shape). -/
def rootPtr : Shape K V → Ptr
  | nil => none
  | node _ a _ _ => some a

/-- In-order traversal: left subtree, node, right subtree; addresses with their pairs. -/
def nodes : Shape K V → List (Nat × (K × V))
  | nil => []
  | node l a kv r => l.nodes ++ (a, kv) :: r.nodes

/-- In-order sequence of (key, value) pairs. -/
def inorder (t : Shape K V) : List (K × V) := t.nodes.map Prod.snd

/-- In-order sequence of node addresses. -/
def addrs (t : Shape K V) : List Nat := t.nodes.map Prod.fst

/-- In-order sequence of keys. -/
def keys (t : Shape K V) : List K := t.nodes.map (fun e => e.2.1)

/-- Number of nodes. -/
def size : Shape K V → Nat
  | nil => 0
  | node l _ _ r => l.size + 1 + r.size

/-- Node-order invariant: every key of the left subtree is strictly less than the key of
the node, every key of the right subtree is greater than or equal to it. -/
def Ordered [LinearOrder K] : Shape K V → Prop
  | nil => True
  | node l _ kv r =>
    (∀ x ∈ l.keys, x < kv.1) ∧ (∀ x ∈ r.keys, kv.1 ≤ x) ∧ l.Ordered ∧ r.Ordered

/-- Parent/child link consistency: the cell of every node of the shape holds that node,
its `left` and `right` links point to the roots of its subtrees, and its `parent` link
points to the node above it (`par` for the root of the shape). -/
def laidOut (m : Heap K V) : Ptr → Shape K V → Prop
  | _, nil => True
  | par, node l a kv r =>
    m.read a = some ⟨kv, par, l.rootPtr, r.rootPtr⟩ ∧ laidOut m (some a) l ∧ laidOut m (some a) r

end Shape

/-- Well-formed tree: the store holds the shape `t` below `_root`, with consistent
parent/child links and the root's parent absent; no cell is used twice; the node-order
invariant holds; `_size` is the number of nodes. -/
def WF [LinearOrder K] (s : BinarySearchTree K V) (t : Shape K V) : Prop :=
  s._root = t.rootPtr ∧ t.laidOut s.mem none ∧ t.addrs.Nodup ∧ t.Ordered ∧ s._size = t.size

/-! ## Further definitions used by the statements and proofs -/

namespace Shape

section Ord
variable [LinearOrder K]

/-- Address of the first node, in in-order, whose key is `k`. -/
def firstWithKey (t : Shape K V) (k : K) : Ptr :=
  (t.nodes.find? (fun e => decide (e.2.1 = k))).map Prod.fst

end Ord

end Shape

namespace Shape

/-- Reference descent of the specification of `insert`: at each node go right if
`key >= node.key`, else go left, until an empty slot is found; the new leaf, stored at
address `a`, fills that slot. -/
def insertRef [LinearOrder K] (a : Nat) (k : K) (v : V) : Shape K V → Shape K V
  | nil => node nil a (k, v) nil
  | node l b kv r =>
    if k ≥ kv.1 then node l b kv (insertRef a k v r) else node (insertRef a k v l) b kv r

end Shape

/-- One-hole context of a shape (the path from a subtree up to the root): `left a kv r up`
says that the hole is the left child of the node `a`, whose right subtree is `r` and
whose own context is `up`; `right l a kv up` says that it is the right child. -/
inductive Ctx (K V : Type) where
  | top : Ctx K V
  | left (a : Nat) (kv : K × V) (r : Shape K V) (up : Ctx K V) : Ctx K V
  | right (l : Shape K V) (a : Nat) (kv : K × V) (up : Ctx K V) : Ctx K V

namespace Ctx
open Shape

/-- Shape obtained by plugging `s` into the hole. -/
def fill : Ctx K V → Shape K V → Shape K V
  | top, s => s
  | left a kv r up, s => up.fill (node s a kv r)
  | right l a kv up, s => up.fill (node l a kv s)

/-- Pointer to the node just above the hole. -/
def parent : Ctx K V → Ptr
  | top => none
  | left a _ _ _ => some a
  | right _ a _ _ => some a

/-- Root pointer of the filled shape, given the pointer `h` to the root of the filling. -/
def rootOr : Ctx K V → Ptr → Ptr
  | top, h => h
  | left a _ _ up, _ => up.rootOr (some a)
  | right _ a _ up, _ => up.rootOr (some a)

/-- Nodes of the context that come before the hole in in-order. -/
def before : Ctx K V → List (Nat × (K × V))
  | top => []
  | left _ _ _ up => up.before
  | right l a kv up => up.before ++ (l.nodes ++ [(a, kv)])

/-- Nodes of the context that come after the hole in in-order. -/
def after : Ctx K V → List (Nat × (K × V))
  | top => []
  | left a kv r up => (a, kv) :: r.nodes ++ up.after
  | right _ _ _ up => up.after

/-- All addresses of the nodes of the context. -/
def addrs : Ctx K V → List Nat
  | top => []
  | left a _ r up => a :: (r.addrs ++ up.addrs)
  | right l a _ up => a :: (l.addrs ++ up.addrs)

/-- Number of nodes of the context. -/
def size : Ctx K V → Nat
  | top => 0
  | left _ _ r up => 1 + r.size + up.size
  | right l _ _ up => 1 + l.size + up.size

/-- Number of nodes on the path from the hole to the root. -/
def depth : Ctx K V → Nat
  | top => 0
  | left _ _ _ up => 1 + up.depth
  | right _ _ _ up => 1 + up.depth

/-- Link consistency of a context whose hole is filled by a subtree with root pointer `h`. -/
def laidOut (m : Heap K V) : Ctx K V → Ptr → Prop
  | top, _ => True
  | left a kv r up, h =>
    m.read a = some ⟨kv, up.parent, h, r.rootPtr⟩ ∧ r.laidOut m (some a) ∧ up.laidOut m (some a)
  | right l a kv up, h =>
    m.read a = some ⟨kv, up.parent, l.rootPtr, h⟩ ∧ l.laidOut m (some a) ∧ up.laidOut m (some a)

/-- Key `x` may occur in the hole without breaking the node-order invariant at the
nodes of the path. -/
def admits [LinearOrder K] : Ctx K V → K → Prop
  | top, _ => True
  | left _ kv _ up, x => x < kv.1 ∧ up.admits x
  | right _ _ kv up, x => kv.1 ≤ x ∧ up.admits x

/-- Node-order invariant of everything outside the hole. -/
def Ordered [LinearOrder K] : Ctx K V → Prop
  | top => True
  | left _ kv r up =>
    (∀ x ∈ r.keys, kv.1 ≤ x) ∧ r.Ordered ∧ up.admits kv.1 ∧ (∀ x ∈ r.keys, up.admits x) ∧
      up.Ordered
  | right l _ kv up =>
    (∀ x ∈ l.keys, x < kv.1) ∧ l.Ordered ∧ up.admits kv.1 ∧ (∀ x ∈ l.keys, up.admits x) ∧
      up.Ordered

/-- Context `d` placed inside the hole of the context `c0`. -/
def comp : Ctx K V → Ctx K V → Ctx K V
  | top, c0 => c0
  | left a kv r up, c0 => left a kv r (up.comp c0)
  | right l a kv up, c0 => right l a kv (up.comp c0)

/-- The hole is reached from the root of the context by left links only. -/
def leftSpine : Ctx K V → Prop
  | top => True
  | left _ _ _ up => up.leftSpine
  | right _ _ _ _ => False

end Ctx

section Ord
variable [LinearOrder K]

/-- States of a tree object that a program can reach: start from the default-constructed
tree and apply `insert` and `erase`, each call returning normally. -/
inductive Reachable : BinarySearchTree K V → Prop where
  | empty : Reachable BinarySearchTree.empty
  | insert {s s2 : BinarySearchTree K V} (fuel : Nat) (k : K) (v : V) :
      Reachable s → insert fuel s k v = .ok s2 → Reachable s2
  | erase {s s2 : BinarySearchTree K V} (fuel : Nat) (k : K) :
      Reachable s → erase fuel s k = .ok s2 → Reachable s2

instance Shape.decLaidOut [DecidableEq V] (m : Heap K V) :
    ∀ (par : Ptr) (t : Shape K V), Decidable (t.laidOut m par)
  | _, nil => isTrue trivial
  | par, node l a kv r =>
    have := Shape.decLaidOut m (some a) l
    have := Shape.decLaidOut m (some a) r
    inferInstanceAs (Decidable (m.read a = some ⟨kv, par, l.rootPtr, r.rootPtr⟩ ∧
      l.laidOut m (some a) ∧ r.laidOut m (some a)))

instance Shape.decOrdered : ∀ (t : Shape K V), Decidable t.Ordered
  | nil => isTrue trivial
  | node l _ kv r =>
    have := Shape.decOrdered l
    have := Shape.decOrdered r
    inferInstanceAs (Decidable ((∀ x ∈ l.keys, x < kv.1) ∧ (∀ x ∈ r.keys, kv.1 ≤ x) ∧
      l.Ordered ∧ r.Ordered))

instance decWF [DecidableEq V] (s : BinarySearchTree K V) (t : Shape K V) : Decidable (WF s t) :=
  inferInstanceAs (Decidable (s._root = t.rootPtr ∧ t.laidOut s.mem none ∧ t.addrs.Nodup ∧
    t.Ordered ∧ s._size = t.size))

end Ord

/-- Tree built by `insert` of the keys 5, 3, 8, 6, 7, 5 in this order (value = ten times
the key, the second 5 with value 51): the root has two children, its successor lies two
levels down in the right subtree, and the key 5 occurs twice. -/
def sampleTree : BinarySearchTree Nat Nat :=
  ⟨⟨[some ⟨(5, 50), none, some 1, some 2⟩, some ⟨(3, 30), some 0, none, none⟩,
     some ⟨(8, 80), some 0, some 3, none⟩, some ⟨(6, 60), some 2, some 5, some 4⟩,
     some ⟨(7, 70), some 3, none, none⟩, some ⟨(5, 51), some 3, none, none⟩]⟩, 6, some 0⟩

/-- Shape of `sampleTree`. -/
def sampleShape : Shape Nat Nat :=
  .node (.node .nil 1 (3, 30) .nil) 0 (5, 50)
    (.node (.node (.node .nil 5 (5, 51) .nil) 3 (6, 60) (.node .nil 4 (7, 70) .nil)) 2 (8, 80) .nil)

/-- Tree built by `insert(5, "a")` then `insert(5, "b")` on the empty tree. -/
def pairTree : BinarySearchTree Nat String :=
  ⟨⟨[some ⟨(5, "a"), none, none, some 1⟩, some ⟨(5, "b"), some 0, none, none⟩]⟩, 2, some 0⟩

section Ord
variable [LinearOrder K]

/-- Calls `insert(k, v)` for the pairs of a list, in the order of the list. -/
def insertAll (fuel : Nat) : BinarySearchTree K V → List (K × V) →
    Except Fault (BinarySearchTree K V)
  | s, [] => pure s
  | s, kv :: l => do
    let s2 ← insert fuel s kv.1 kv.2
    insertAll fuel s2 l

/-- Calls `erase(k)` for the keys of a list, in the order of the list. -/
def eraseAll (fuel : Nat) : BinarySearchTree K V → List K → Except Fault (BinarySearchTree K V)
  | s, [] => pure s
  | s, k :: l => do
    let s2 ← erase fuel s k
    eraseAll fuel s2 l

end Ord

/-- State of the object `test` of `main` (src/main.cpp) when the output loop starts: ten
calls of `insert`, then `erase(90)`. -/
def mainTree (fuel : Nat) : Except Fault (BinarySearchTree Int String) := do
  let test : BinarySearchTree Int String := BinarySearchTree.empty
  let test ← insert fuel test 1 "Cat"
  let test ← insert fuel test 2 "Dog"
  let test ← insert fuel test 76 "blade"
  let test ← insert fuel test 66 "sleeve"
  let test ← insert fuel test 83 "fight"
  let test ← insert fuel test 27 "powder"
  let test ← insert fuel test 93 "carbon"
  let test ← insert fuel test 66 "fossil"
  let test ← insert fuel test 90 "sport"
  let test ← insert fuel test 9 "stride"
  erase fuel test 90

/-- Function `main` of the driver: the (key, value) pairs that the range-based `for` over
`test` prints, in the order of printing. -/
def main (fuel : Nat) : Except Fault (List (Int × String)) := do
  let test ← mainTree fuel
  let visited ← traverse fuel test
  pure (visited.map Prod.snd)

/-- Both stores have the same live cells. -/
def SameLive (m m2 : Heap K V) : Prop := ∀ z, (m2.read z).isSome = (m.read z).isSome

/-- Store `m2` has the live cells of `m` and the cell just past the end of `m`. -/
def LiveGrown (m m2 : Heap K V) : Prop :=
  ∀ z, (m2.read z).isSome = ((m.read z).isSome || decide (z = m.cells.length))

/-- Child slot of a node. -/
inductive Side where
  | left
  | right
deriving DecidableEq, Repr

/-- Reference descent of the specification of `insert`, as a search for the slot: at each
node go right if `key >= node.key`, else go left, until an empty slot is found; the
result is the node whose child slot is empty and the side of that slot (nothing for
the empty shape, where the new node becomes the root). -/
def Shape.slotRef [LinearOrder K] (k : K) : Shape K V → Option (Nat × Side)
  | .nil => none
  | .node l b kv r =>
    if k ≥ kv.1 then
      match r with
      | .nil => some (b, Side.right)
      | .node _ _ _ _ => Shape.slotRef k r
    else
      match l with
      | .nil => some (b, Side.left)
      | .node _ _ _ _ => Shape.slotRef k l

/-- Address of the first node, in in-order, whose key is greater than `k`. -/
def Shape.firstGreater [LinearOrder K] (t : Shape K V) (k : K) : Ptr :=
  (t.nodes.find? (fun e => decide (k < e.2.1))).map Prod.fst

/-! ## Lemmas and theorems -/

theorem read_lt {m : Heap K V} {a : Nat} {n : Node K V} (h : m.read a = some n) :
    a < m.cells.length := by
  unfold Heap.read at h
  by_contra hc
  rw [List.get?_eq_none.mpr (by omega)] at h
  simp at h

theorem length_write (m : Heap K V) (a : Nat) (n : Node K V) :
    (m.write a n).cells.length = m.cells.length := by
  simp [Heap.write]

theorem length_free (m : Heap K V) (a : Nat) :
    (m.free a).cells.length = m.cells.length := by
  simp [Heap.free]

theorem length_alloc (m : Heap K V) (n : Node K V) :
    (m.alloc n).1.cells.length = m.cells.length + 1 := by
  simp [Heap.alloc]

theorem read_write_same {m : Heap K V} {a : Nat} (n : Node K V) (h : a < m.cells.length) :
    (m.write a n).read a = some n := by
  simp [Heap.read, Heap.write, List.getElem?_set, h]

theorem read_write_ne {m : Heap K V} {a b : Nat} (n : Node K V) (h : a ≠ b) :
    (m.write a n).read b = m.read b := by
  simp [Heap.read, Heap.write, List.getElem?_set, h]

theorem read_free_same (m : Heap K V) (a : Nat) : (m.free a).read a = none := by
  simp only [Heap.read, Heap.free, List.get?_eq_getElem?, List.getElem?_set]
  by_cases h : a < m.cells.length <;> simp [h]

theorem read_free_ne {m : Heap K V} {a b : Nat} (h : a ≠ b) :
    (m.free a).read b = m.read b := by
  simp [Heap.read, Heap.free, List.getElem?_set, h]

theorem read_alloc_old {m : Heap K V} {b : Nat} (n : Node K V) (h : b < m.cells.length) :
    (m.alloc n).1.read b = m.read b := by
  simp [Heap.read, Heap.alloc, List.getElem?_append_left, h]

theorem read_alloc_new (m : Heap K V) (n : Node K V) :
    (m.alloc n).1.read m.cells.length = some n := by
  simp [Heap.read, Heap.alloc]

@[simp] theorem bind_ok {ε α β : Type} (a : α) (f : α → Except ε β) :
    (Except.ok a >>= f) = f a := rfl

@[simp] theorem bind_error {ε α β : Type} (e : ε) (f : α → Except ε β) :
    (Except.error e >>= f) = Except.error e := rfl

@[simp] theorem pure_eq_ok {ε α : Type} (a : α) : (pure a : Except ε α) = Except.ok a := rfl

theorem load_some {m : Heap K V} {a : Nat} {n : Node K V} (h : m.read a = some n) :
    load m (some a) = .ok n := by
  simp [load, h]

namespace Shape

@[simp] theorem nodes_nil : (nil : Shape K V).nodes = [] := rfl
@[simp] theorem nodes_node (l r : Shape K V) (a : Nat) (kv : K × V) :
    (node l a kv r).nodes = l.nodes ++ (a, kv) :: r.nodes := rfl
@[simp] theorem addrs_nil : (nil : Shape K V).addrs = [] := rfl
@[simp] theorem addrs_node (l r : Shape K V) (a : Nat) (kv : K × V) :
    (node l a kv r).addrs = l.addrs ++ a :: r.addrs := by simp [addrs]
@[simp] theorem keys_nil : (nil : Shape K V).keys = [] := rfl
@[simp] theorem keys_node (l r : Shape K V) (a : Nat) (kv : K × V) :
    (node l a kv r).keys = l.keys ++ kv.1 :: r.keys := by simp [keys]
@[simp] theorem inorder_nil : (nil : Shape K V).inorder = [] := rfl
@[simp] theorem inorder_node (l r : Shape K V) (a : Nat) (kv : K × V) :
    (node l a kv r).inorder = l.inorder ++ kv :: r.inorder := by simp [inorder]
@[simp] theorem rootPtr_nil : (nil : Shape K V).rootPtr = none := rfl
@[simp] theorem rootPtr_node (l r : Shape K V) (a : Nat) (kv : K × V) :
    (node l a kv r).rootPtr = some a := rfl
@[simp] theorem size_nil : (nil : Shape K V).size = 0 := rfl
@[simp] theorem size_node (l r : Shape K V) (a : Nat) (kv : K × V) :
    (node l a kv r).size = l.size + 1 + r.size := rfl

theorem length_nodes (t : Shape K V) : t.nodes.length = t.size := by
  induction t with
  | nil => rfl
  | node l a kv r ihl ihr => simp [ihl, ihr]; omega

theorem length_inorder (t : Shape K V) : t.inorder.length = t.size := by
  simp [inorder, length_nodes]

theorem length_addrs (t : Shape K V) : t.addrs.length = t.size := by
  simp [addrs, length_nodes]

theorem rootPtr_eq_none {t : Shape K V} : t.rootPtr = none ↔ t = nil := by
  cases t <;> simp

theorem mem_keys_of_mem_nodes {t : Shape K V} {e : Nat × (K × V)} (h : e ∈ t.nodes) :
    e.2.1 ∈ t.keys := List.mem_map_of_mem _ h

theorem mem_addrs_of_mem_nodes {t : Shape K V} {e : Nat × (K × V)} (h : e ∈ t.nodes) :
    e.1 ∈ t.addrs := List.mem_map_of_mem _ h

@[simp] theorem laidOut_nil (m : Heap K V) (par : Ptr) : (nil : Shape K V).laidOut m par := trivial

@[simp] theorem laidOut_node (m : Heap K V) (par : Ptr) (l r : Shape K V) (a : Nat) (kv : K × V) :
    (node l a kv r).laidOut m par ↔
      m.read a = some ⟨kv, par, l.rootPtr, r.rootPtr⟩ ∧ l.laidOut m (some a) ∧ r.laidOut m (some a) :=
  Iff.rfl

/-- Frame rule: a layout only depends on the cells of the shape. -/
theorem laidOut_congr {m m2 : Heap K V} {t : Shape K V} :
    ∀ {par : Ptr}, (∀ a ∈ t.addrs, m2.read a = m.read a) → t.laidOut m par → t.laidOut m2 par := by
  induction t with
  | nil => intros; trivial
  | node l a kv r ihl ihr =>
    intro par hfr h
    simp only [laidOut_node] at h ⊢
    refine ⟨?_, ihl (fun x hx => hfr x (by simp [hx])) h.2.1,
      ihr (fun x hx => hfr x (by simp [hx])) h.2.2⟩
    rw [hfr a (by simp)]; exact h.1

theorem laidOut_lt {m : Heap K V} {t : Shape K V} :
    ∀ {par : Ptr}, t.laidOut m par → ∀ a ∈ t.addrs, a < m.cells.length := by
  induction t with
  | nil => intro _ _ a ha; simp at ha
  | node l b kv r ihl ihr =>
    intro par h a ha
    simp only [laidOut_node] at h
    simp only [addrs_node, List.mem_append, List.mem_cons] at ha
    rcases ha with ha | ha | ha
    · exact ihl h.2.1 a ha
    · subst ha; exact read_lt h.1
    · exact ihr h.2.2 a ha

section Ord
variable [LinearOrder K]

@[simp] theorem ordered_nil : (nil : Shape K V).Ordered := trivial
@[simp] theorem ordered_node (l r : Shape K V) (a : Nat) (kv : K × V) :
    (node l a kv r).Ordered ↔
      (∀ x ∈ l.keys, x < kv.1) ∧ (∀ x ∈ r.keys, kv.1 ≤ x) ∧ l.Ordered ∧ r.Ordered := Iff.rfl

theorem find_none_of_keys {t : Shape K V} {k : K} (h : ∀ x ∈ t.keys, x ≠ k) :
    t.nodes.find? (fun e => decide (e.2.1 = k)) = none := by
  rw [List.find?_eq_none]
  intro e he
  simpa using h _ (mem_keys_of_mem_nodes he)

theorem firstWithKey_node_eq {l r : Shape K V} {a : Nat} {kv : K × V} {k : K}
    (hk : kv.1 = k) (hl : ∀ x ∈ l.keys, x < kv.1) :
    (node l a kv r).firstWithKey k = some a := by
  have h1 := find_none_of_keys (t := l) (k := k) (fun x hx => by subst hk; exact (hl x hx).ne)
  simp [firstWithKey, List.find?_append, h1, hk]

theorem firstWithKey_node_lt {l r : Shape K V} {a : Nat} {kv : K × V} {k : K}
    (hk : k < kv.1) (hr : ∀ x ∈ r.keys, kv.1 ≤ x) :
    (node l a kv r).firstWithKey k = l.firstWithKey k := by
  have h1 := find_none_of_keys (t := r) (k := k) (fun x hx => (lt_of_lt_of_le hk (hr x hx)).ne')
  simp only [firstWithKey, nodes_node, List.find?_append, List.find?_cons]
  simp [h1, hk.ne']

theorem firstWithKey_node_gt {l r : Shape K V} {a : Nat} {kv : K × V} {k : K}
    (hk : kv.1 < k) (hl : ∀ x ∈ l.keys, x < kv.1) :
    (node l a kv r).firstWithKey k = r.firstWithKey k := by
  have h1 := find_none_of_keys (t := l) (k := k) (fun x hx => ((hl x hx).trans hk).ne)
  simp only [firstWithKey, nodes_node, List.find?_append, List.find?_cons]
  simp [h1, hk.ne]

end Ord
end Shape
section Ord
variable [LinearOrder K]
open Shape

theorem findLoop_spec (m : Heap K V) (k : K) :
    ∀ (fuel : Nat) (t : Shape K V) (par : Ptr), t.size < fuel → t ≠ nil →
      t.laidOut m par → t.Ordered → findLoop m k fuel t.rootPtr = .ok (t.firstWithKey k) := by
  intro fuel
  induction fuel with
  | zero => intro t par h; omega
  | succ fuel ih =>
    intro t par hsz hne hlay hord
    match t, hne with
    | node l a kv r, _ =>
      simp only [laidOut_node] at hlay
      simp only [ordered_node] at hord
      obtain ⟨hra, hll, hlr⟩ := hlay
      obtain ⟨hol, hor, hordl, hordr⟩ := hord
      simp only [size_node] at hsz
      simp only [findLoop, findStep, rootPtr_node, load_some hra, bind_ok]
      by_cases h1 : k = kv.1
      · simp [h1, firstWithKey_node_eq rfl hol]
      · rcases lt_or_gt_of_ne h1 with h2 | h2
        · simp only [h1, h2, if_true, if_false]
          rw [firstWithKey_node_lt h2 hor]
          match l, hll, hol, hordl, hsz with
          | nil, _, _, _, _ => simp [firstWithKey]
          | node ll b kv2 lr, hll, hol, hordl, hsz =>
            simp only [laidOut_node] at hll
            simp only [ordered_node] at hordl
            simp only [size_node] at hsz
            simp only [rootPtr_node, findThirdIf, load_some hll.1, bind_ok]
            by_cases h3 : k > kv2.1
            · simp only [h3, if_true]
              rw [firstWithKey_node_gt h3 hordl.1]
              match lr, hll.2.2, hordl.2.2.2, hsz with
              | nil, _, _, _ => simp [firstWithKey]
              | node lrl c kv3 lrr, hl3, ho3, hsz =>
                simp only [rootPtr_node, bind_ok, pure_eq_ok]
                exact ih (node lrl c kv3 lrr) (some b) (by simp only [size_node] at hsz ⊢; omega)
                  (by simp) hl3 ho3
            · simp only [h3, if_false, bind_ok, pure_eq_ok]
              have := ih (node ll b kv2 lr) (some a) (by simp only [size_node]; omega) (by simp)
                (by simpa using hll) (by simpa using hordl)
              simpa using this
        · have h4 : ¬ k < kv.1 := not_lt.mpr h2.le
          simp only [h1, h4, if_false, findThirdIf, load_some hra, bind_ok, h2, if_true]
          rw [firstWithKey_node_gt h2 hol]
          match r, hlr, hordr, hsz with
          | nil, _, _, _ => simp [firstWithKey]
          | node rl c kv3 rr, hl3, ho3, hsz =>
            simp only [rootPtr_node, bind_ok, pure_eq_ok]
            exact ih (node rl c kv3 rr) (some a) (by simp only [size_node] at hsz ⊢; omega)
              (by simp) hl3 ho3

end Ord
namespace Shape

theorem rootPtr_insertRef [LinearOrder K] (a : Nat) (k : K) (v : V) {t : Shape K V}
    (h : t ≠ nil) : (t.insertRef a k v).rootPtr = t.rootPtr := by
  cases t with
  | nil => exact absurd rfl h
  | node l b kv r => simp only [insertRef]; split <;> rfl

/-- Replacing the left subtree of a laid-out node by a shape laid out over a store that
differs from the old one only inside that subtree and in fresh cells. -/
theorem laidOut_replace_left {m m2 : Heap K V} {l l2 r : Shape K V} {b : Nat} {kv : K × V}
    {par : Ptr} (h : (node l b kv r).laidOut m par) (hnd : (node l b kv r).addrs.Nodup)
    (h2 : l2.laidOut m2 (some b)) (hroot : l2.rootPtr = l.rootPtr)
    (hfr : ∀ x, x < m.cells.length → x ∉ l.addrs → m2.read x = m.read x) :
    (node l2 b kv r).laidOut m2 par := by
  simp only [laidOut_node] at h ⊢
  simp only [addrs_node, List.nodup_append, List.nodup_cons, List.mem_cons] at hnd
  obtain ⟨_, ⟨hbr, _⟩, hdis⟩ := hnd
  have hb : b ∉ l.addrs := fun hx => hdis hx (List.mem_cons_self _ _)
  refine ⟨?_, h2, ?_⟩
  · rw [hfr b (read_lt h.1) hb, hroot]; exact h.1
  · refine laidOut_congr (fun x hx => ?_) h.2.2
    exact hfr x (laidOut_lt h.2.2 x hx) (fun hxl => hdis hxl (List.mem_cons_of_mem _ hx))

theorem laidOut_replace_right {m m2 : Heap K V} {l r r2 : Shape K V} {b : Nat} {kv : K × V}
    {par : Ptr} (h : (node l b kv r).laidOut m par) (hnd : (node l b kv r).addrs.Nodup)
    (h2 : r2.laidOut m2 (some b)) (hroot : r2.rootPtr = r.rootPtr)
    (hfr : ∀ x, x < m.cells.length → x ∉ r.addrs → m2.read x = m.read x) :
    (node l b kv r2).laidOut m2 par := by
  simp only [laidOut_node] at h ⊢
  simp only [addrs_node, List.nodup_append, List.nodup_cons, List.mem_cons] at hnd
  obtain ⟨_, ⟨hbr, _⟩, hdis⟩ := hnd
  refine ⟨?_, ?_, h2⟩
  · rw [hfr b (read_lt h.1) hbr, hroot]; exact h.1
  · refine laidOut_congr (fun x hx => ?_) h.2.1
    exact hfr x (laidOut_lt h.2.1 x hx) (fun hxr => hdis hx (List.mem_cons_of_mem _ hxr))

/-- Store after `search->left = new Node(key, value, search)` at a node without left child. -/
theorem laidOut_attach_left {m : Heap K V} {r : Shape K V} {b : Nat} {kv : K × V}
    {par : Ptr} (h : (node nil b kv r).laidOut m par) (hnd : (node nil b kv r).addrs.Nodup)
    (e : K × V) :
    ∃ m2, setLeft (m.alloc ⟨e, some b, none, none⟩).1 (some b) (some m.cells.length) = .ok m2 ∧
      (node (node nil m.cells.length e nil) b kv r).laidOut m2 par ∧
      m2.cells.length = m.cells.length + 1 ∧
      ∀ x, x < m.cells.length → x ≠ b → m2.read x = m.read x := by
  simp only [laidOut_node, rootPtr_nil] at h
  have hb := read_lt h.1
  have h1 : (m.alloc ⟨e, some b, none, none⟩).1.read b = some ⟨kv, par, none, r.rootPtr⟩ := by
    rw [read_alloc_old _ hb]; exact h.1
  have hfr : ∀ x, x < m.cells.length → x ≠ b →
      (((m.alloc ⟨e, some b, none, none⟩).1).write b
        ⟨kv, par, some m.cells.length, r.rootPtr⟩).read x = m.read x := by
    intro x hx hxb
    rw [read_write_ne _ (Ne.symm hxb), read_alloc_old _ hx]
  refine ⟨_, by simp only [setLeft, update, h1], ?_, by simp [length_write, length_alloc], hfr⟩
  simp only [laidOut_node, rootPtr_node, rootPtr_nil, laidOut_nil, and_true, true_and]
  simp only [addrs_node, addrs_nil, List.nil_append, List.nodup_cons] at hnd
  refine ⟨read_write_same _ (by rw [length_alloc]; omega), ?_, ?_⟩
  · rw [read_write_ne _ (by omega), read_alloc_new]
  · exact laidOut_congr (fun x hx => hfr x (laidOut_lt h.2.2 x hx)
      (fun hxb => hnd.1 (hxb ▸ hx))) h.2.2

/-- Store after `search->right = new Node(key, value, search)` at a node without right child. -/
theorem laidOut_attach_right {m : Heap K V} {l : Shape K V} {b : Nat} {kv : K × V}
    {par : Ptr} (h : (node l b kv nil).laidOut m par) (hnd : (node l b kv nil).addrs.Nodup)
    (e : K × V) :
    ∃ m2, setRight (m.alloc ⟨e, some b, none, none⟩).1 (some b) (some m.cells.length) = .ok m2 ∧
      (node l b kv (node nil m.cells.length e nil)).laidOut m2 par ∧
      m2.cells.length = m.cells.length + 1 ∧
      ∀ x, x < m.cells.length → x ≠ b → m2.read x = m.read x := by
  simp only [laidOut_node, rootPtr_nil] at h
  have hb := read_lt h.1
  have h1 : (m.alloc ⟨e, some b, none, none⟩).1.read b = some ⟨kv, par, l.rootPtr, none⟩ := by
    rw [read_alloc_old _ hb]; exact h.1
  have hfr : ∀ x, x < m.cells.length → x ≠ b →
      (((m.alloc ⟨e, some b, none, none⟩).1).write b
        ⟨kv, par, l.rootPtr, some m.cells.length⟩).read x = m.read x := by
    intro x hx hxb
    rw [read_write_ne _ (Ne.symm hxb), read_alloc_old _ hx]
  refine ⟨_, by simp only [setRight, update, h1], ?_, by simp [length_write, length_alloc], hfr⟩
  simp only [laidOut_node, rootPtr_node, rootPtr_nil, laidOut_nil, and_true, true_and]
  simp only [addrs_node, addrs_nil, List.nodup_append, List.nodup_cons, List.mem_cons] at hnd
  refine ⟨read_write_same _ (by rw [length_alloc]; omega), ?_, ?_⟩
  · exact laidOut_congr (fun x hx => hfr x (laidOut_lt h.2.1 x hx)
      (fun hxb => hnd.2.2 hx (by simp [hxb]))) h.2.1
  · rw [read_write_ne _ (by omega), read_alloc_new]

end Shape
section Ord
variable [LinearOrder K]
open Shape

theorem insertLoop_spec (k : K) (v : V) (m : Heap K V) :
    ∀ (fuel : Nat) (t : Shape K V) (par : Ptr), t.size < fuel → t ≠ nil →
      t.laidOut m par → t.addrs.Nodup →
      ∃ m2, insertLoop k v fuel m t.rootPtr = .ok m2 ∧
        (t.insertRef m.cells.length k v).laidOut m2 par ∧
        m2.cells.length = m.cells.length + 1 ∧
        ∀ x, x < m.cells.length → x ∉ t.addrs → m2.read x = m.read x := by
  intro fuel
  induction fuel with
  | zero => intro t par h; omega
  | succ fuel ih =>
    intro t par hsz hne hlay hnd
    match t, hne with
    | node l b kv r, _ =>
      have hlay0 := hlay
      have hnd0 := hnd
      simp only [laidOut_node] at hlay
      obtain ⟨hrb, hll, hlr⟩ := hlay
      simp only [size_node] at hsz
      simp only [addrs_node, List.nodup_append, List.nodup_cons] at hnd
      obtain ⟨hndl, ⟨hbr, hndr⟩, hdis⟩ := hnd
      simp only [insertLoop, insertStep, rootPtr_node, load_some hrb, bind_ok]
      by_cases h1 : k ≥ kv.1
      · simp only [h1, if_true, insertRef]
        match r, hlr, hndr, hsz, hlay0, hnd0 with
        | nil, _, _, _, hlay0, hnd0 =>
          obtain ⟨m2, hm2, hl2, hlen, hfr⟩ := laidOut_attach_right hlay0 hnd0 (k, v)
          simp only [rootPtr_nil, Heap.alloc] at hm2 ⊢
          simp only [hm2, bind_ok, pure_eq_ok]
          exact ⟨m2, rfl, hl2, hlen, fun x hx hxt => hfr x hx (fun hxb => hxt (by simp [hxb]))⟩
        | node rl c kv3 rr, hlr, hndr, hsz, hlay0, hnd0 =>
          have hlr0 := hlr
          simp only [laidOut_node] at hlr
          simp only [size_node] at hsz
          simp only [rootPtr_node, insertSecondIf, load_some hlr.1, bind_ok]
          by_cases h2 : k < kv3.1
          · have h2n : ¬ k ≥ kv3.1 := not_le.mpr h2
            simp only [h2, if_true, insertRef, h2n, if_false]
            match rl, hlr, hlr0, hndr, hsz with
            | nil, hlr, hlr0, hndr, hsz =>
              obtain ⟨m2, hm2, hl2, hlen, hfr⟩ := laidOut_attach_left hlr0 hndr (k, v)
              simp only [rootPtr_nil, Heap.alloc] at hm2 ⊢
              simp only [hm2, bind_ok, pure_eq_ok]
              refine ⟨m2, rfl, ?_, hlen, fun x hx hxt => hfr x hx (fun hxb => hxt (by simp [hxb]))⟩
              exact laidOut_replace_right hlay0 hnd0 hl2 rfl
                (fun x hx hxt => hfr x hx (fun hxb => hxt (by simp [hxb])))
            | node rll d kv4 rlr, hlr, hlr0, hndr, hsz =>
              simp only [rootPtr_node, bind_ok, pure_eq_ok]
              have hndrl : (node rll d kv4 rlr).addrs.Nodup := by
                simp only [addrs_node (l := node rll d kv4 rlr), List.nodup_append] at hndr
                exact hndr.1
              obtain ⟨m2, hm2, hl2, hlen, hfr⟩ := ih (node rll d kv4 rlr) (some c)
                (by simp only [size_node] at hsz ⊢; omega) (by simp) hlr.2.1 hndrl
              simp only [rootPtr_node] at hm2
              refine ⟨m2, hm2, ?_, hlen, fun x hx hxt => hfr x hx (fun hxb => hxt ?_)⟩
              · have hrep : (node (insertRef m.cells.length k v (node rll d kv4 rlr)) c kv3
                    rr).laidOut m2 (some b) :=
                  laidOut_replace_left hlr0 hndr hl2 (rootPtr_insertRef _ _ _ (by simp)) hfr
                refine laidOut_replace_right hlay0 hnd0 hrep rfl
                  (fun x hx hxt => hfr x hx (fun hxb => hxt ?_))
                simp only [addrs_node, List.mem_append, List.mem_cons] at hxb ⊢; tauto
              · simp only [addrs_node, List.mem_append, List.mem_cons] at hxb ⊢; tauto
          · have h2n : k ≥ kv3.1 := not_lt.mp h2
            simp only [h2, if_false, bind_ok, pure_eq_ok]
            obtain ⟨m2, hm2, hl2, hlen, hfr⟩ := ih (node rl c kv3 rr) (some b)
              (by simp only [size_node]; omega) (by simp) hlr0 hndr
            simp only [rootPtr_node] at hm2
            refine ⟨m2, hm2, ?_, hlen, fun x hx hxt => hfr x hx (fun hxb => hxt ?_)⟩
            · exact laidOut_replace_right hlay0 hnd0 hl2 (rootPtr_insertRef _ _ _ (by simp)) hfr
            · simp only [addrs_node, List.mem_append, List.mem_cons] at hxb ⊢; tauto
      · have h1n : k < kv.1 := not_le.mp h1
        simp only [h1, if_false, insertRef, insertSecondIf, load_some hrb, bind_ok, h1n, if_true]
        match l, hll, hndl, hsz, hlay0, hnd0 with
        | nil, _, _, _, hlay0, hnd0 =>
          obtain ⟨m2, hm2, hl2, hlen, hfr⟩ := laidOut_attach_left hlay0 hnd0 (k, v)
          simp only [rootPtr_nil, Heap.alloc] at hm2 ⊢
          simp only [hm2, bind_ok, pure_eq_ok]
          exact ⟨m2, rfl, hl2, hlen, fun x hx hxt => hfr x hx (fun hxb => hxt (by simp [hxb]))⟩
        | node ll c kv3 lr, hll, hndl, hsz, hlay0, hnd0 =>
          simp only [rootPtr_node, bind_ok, pure_eq_ok]
          obtain ⟨m2, hm2, hl2, hlen, hfr⟩ := ih (node ll c kv3 lr) (some b)
            (by simp only [size_node] at hsz ⊢; omega) (by simp) hll hndl
          simp only [rootPtr_node] at hm2
          refine ⟨m2, hm2, ?_, hlen, fun x hx hxt => hfr x hx (fun hxb => hxt ?_)⟩
          · exact laidOut_replace_left hlay0 hnd0 hl2 (rootPtr_insertRef _ _ _ (by simp)) hfr
          · simp only [addrs_node, List.mem_append, List.mem_cons] at hxb ⊢; tauto

end Ord
namespace Shape
section Ord
variable [LinearOrder K]

theorem size_insertRef (a : Nat) (k : K) (v : V) (t : Shape K V) :
    (t.insertRef a k v).size = t.size + 1 := by
  induction t with
  | nil => rfl
  | node l b kv r ihl ihr =>
    simp only [insertRef]; split <;> simp only [size_node, ihl, ihr] <;> omega

theorem mem_keys_insertRef (a : Nat) (k : K) (v : V) (t : Shape K V) (x : K) :
    x ∈ (t.insertRef a k v).keys ↔ x = k ∨ x ∈ t.keys := by
  induction t with
  | nil => simp [insertRef]
  | node l b kv r ihl ihr =>
    simp only [insertRef]; split <;>
      simp only [keys_node, List.mem_append, List.mem_cons, ihl, ihr] <;> tauto

theorem mem_addrs_insertRef (a : Nat) (k : K) (v : V) (t : Shape K V) (x : Nat) :
    x ∈ (t.insertRef a k v).addrs ↔ x = a ∨ x ∈ t.addrs := by
  induction t with
  | nil => simp [insertRef]
  | node l b kv r ihl ihr =>
    simp only [insertRef]; split <;>
      simp only [addrs_node, List.mem_append, List.mem_cons, ihl, ihr] <;> tauto

theorem ordered_insertRef (a : Nat) (k : K) (v : V) (t : Shape K V) (h : t.Ordered) :
    (t.insertRef a k v).Ordered := by
  induction t with
  | nil => simp [insertRef]
  | node l b kv r ihl ihr =>
    simp only [ordered_node] at h
    obtain ⟨hl, hr, hol, hor⟩ := h
    simp only [insertRef]
    split
    · rename_i hk
      simp only [ordered_node, mem_keys_insertRef]
      refine ⟨hl, ?_, hol, ihr hor⟩
      rintro x (rfl | hx)
      · exact hk
      · exact hr x hx
    · rename_i hk
      simp only [ordered_node, mem_keys_insertRef]
      refine ⟨?_, hr, ihl hol, hor⟩
      rintro x (rfl | hx)
      · exact not_le.mp hk
      · exact hl x hx

theorem nodup_insertRef (a : Nat) (k : K) (v : V) (t : Shape K V) (h : t.addrs.Nodup)
    (ha : a ∉ t.addrs) : (t.insertRef a k v).addrs.Nodup := by
  induction t with
  | nil => simp [insertRef]
  | node l b kv r ihl ihr =>
    simp only [addrs_node, List.nodup_append, List.nodup_cons, List.mem_append, List.mem_cons,
      not_or] at h ha
    obtain ⟨hl, ⟨hbr, hr⟩, hdis⟩ := h
    obtain ⟨hal, hab, har⟩ := ha
    simp only [insertRef]
    split
    · simp only [addrs_node, List.nodup_append, List.nodup_cons, mem_addrs_insertRef, not_or]
      refine ⟨hl, ⟨⟨fun h => hab h.symm, hbr⟩, ihr hr har⟩, ?_⟩
      intro x hxl hx
      simp only [List.mem_cons, mem_addrs_insertRef] at hx
      rcases hx with rfl | rfl | hx
      · exact hdis hxl (List.mem_cons_self _ _)
      · exact hal hxl
      · exact hdis hxl (List.mem_cons_of_mem _ hx)
    · simp only [addrs_node, List.nodup_append, List.nodup_cons, mem_addrs_insertRef, not_or]
      refine ⟨ihl hl hal, ⟨hbr, hr⟩, ?_⟩
      intro x hxl hx
      simp only [mem_addrs_insertRef] at hxl
      simp only [List.mem_cons] at hx
      rcases hxl with rfl | hxl
      · rcases hx with rfl | hx
        · exact hab rfl
        · exact har hx
      · exact hdis hxl (List.mem_cons.mpr hx)

/-- In-order sequence after the reference insertion: the new entry sits after every
entry with key `≤ k` and before every entry with key `> k`. -/
theorem nodes_insertRef (a : Nat) (k : K) (v : V) (t : Shape K V) (h : t.Ordered) :
    ∃ pre post, t.nodes = pre ++ post ∧ (t.insertRef a k v).nodes = pre ++ (a, (k, v)) :: post ∧
      (∀ e ∈ pre, e.2.1 ≤ k) ∧ (∀ e ∈ post, k < e.2.1) := by
  induction t with
  | nil => exact ⟨[], [], rfl, rfl, by simp, by simp⟩
  | node l b kv r ihl ihr =>
    simp only [ordered_node] at h
    obtain ⟨hl, hr, hol, hor⟩ := h
    simp only [insertRef]
    split
    · rename_i hk
      obtain ⟨pre, post, h1, h2, h3, h4⟩ := ihr hor
      refine ⟨l.nodes ++ (b, kv) :: pre, post, by simp [h1], by simp [h2], ?_, h4⟩
      intro e he
      simp only [List.mem_append, List.mem_cons] at he
      rcases he with he | rfl | he
      · exact ((hl _ (mem_keys_of_mem_nodes he)).le).trans hk
      · exact hk
      · exact h3 e he
    · rename_i hk
      have hk2 : k < kv.1 := not_le.mp hk
      obtain ⟨pre, post, h1, h2, h3, h4⟩ := ihl hol
      refine ⟨pre, post ++ (b, kv) :: r.nodes, by simp [h1], by simp [h2], h3, ?_⟩
      intro e he
      simp only [List.mem_append, List.mem_cons] at he
      rcases he with he | rfl | he
      · exact h4 e he
      · exact hk2
      · exact lt_of_lt_of_le hk2 (hr _ (mem_keys_of_mem_nodes he))

end Ord
end Shape
section Ord
variable [LinearOrder K]
open Shape

theorem WF.size_eq_zero_iff {s : BinarySearchTree K V} {t : Shape K V} (h : WF s t) :
    s._size = 0 ↔ t = nil := by
  rw [h.2.2.2.2]
  cases t <;> simp

/-- Effect of `insert` on a well-formed tree, in terms of the reference descent. -/
theorem insert_spec {s : BinarySearchTree K V} {t : Shape K V} (k : K) (v : V) {fuel : Nat}
    (hwf : WF s t) (hfuel : t.size < fuel) :
    ∃ s2, insert fuel s k v = .ok s2 ∧ WF s2 (t.insertRef s.mem.cells.length k v) ∧
      s2.mem.cells.length = s.mem.cells.length + 1 := by
  obtain ⟨hroot, hlay, hnd, hord, hsz⟩ := hwf
  have hfresh : s.mem.cells.length ∉ t.addrs := fun h => by
    have := laidOut_lt hlay _ h; omega
  have hwf2 : ∀ m2 : Heap K V, (t.insertRef s.mem.cells.length k v).laidOut m2 none →
      ∀ r, r = (t.insertRef s.mem.cells.length k v).rootPtr →
      WF (⟨m2, s._size + 1, r⟩ : BinarySearchTree K V) (t.insertRef s.mem.cells.length k v) :=
    fun m2 h2 r hr => ⟨hr, h2, nodup_insertRef _ _ _ _ hnd hfresh, ordered_insertRef _ _ _ _ hord,
      by simp [size_insertRef, hsz]⟩
  by_cases h0 : t = nil
  · subst h0
    have hs0 : s._size = 0 := by simpa using hsz
    simp only [insert, hs0, if_true, Heap.alloc, pure_eq_ok]
    refine ⟨_, rfl, ?_, by simp⟩
    have := hwf2 ⟨s.mem.cells ++ [some ⟨(k, v), none, none, none⟩]⟩
      (by simp only [insertRef, laidOut_node, rootPtr_nil, laidOut_nil, and_true]
          exact read_alloc_new s.mem _) (some s.mem.cells.length) rfl
    simpa [hs0] using this
  · have hs0 : s._size ≠ 0 := by
      rw [hsz]; cases t with
      | nil => exact absurd rfl h0
      | node l b kv r => simp
    obtain ⟨m2, hm2, hl2, hlen, _⟩ := insertLoop_spec k v s.mem fuel t none hfuel h0 hlay hnd
    simp only [insert, hs0, if_false, hroot, hm2, bind_ok, pure_eq_ok]
    exact ⟨_, rfl, hwf2 m2 hl2 _ (rootPtr_insertRef _ _ _ h0).symm, hlen⟩

end Ord
namespace Ctx
open Shape

theorem nodes_fill (c : Ctx K V) : ∀ s : Shape K V,
    (c.fill s).nodes = c.before ++ s.nodes ++ c.after := by
  induction c with
  | top => intro s; simp [fill, before, after]
  | left a kv r up ih => intro s; simp [fill, before, after, ih]
  | right l a kv up ih => intro s; simp [fill, before, after, ih]

theorem rootPtr_fill (c : Ctx K V) : ∀ s : Shape K V, (c.fill s).rootPtr = c.rootOr s.rootPtr := by
  induction c with
  | top => intro s; rfl
  | left a kv r up ih => intro s; simp [fill, rootOr, ih]
  | right l a kv up ih => intro s; simp [fill, rootOr, ih]

theorem size_fill (c : Ctx K V) : ∀ s : Shape K V, (c.fill s).size = c.size + s.size := by
  induction c with
  | top => intro s; simp [fill, size]
  | left a kv r up ih => intro s; simp [fill, size, ih]; omega
  | right l a kv up ih => intro s; simp [fill, size, ih]; omega

theorem depth_le_size (c : Ctx K V) : c.depth ≤ c.size := by
  induction c with
  | top => simp [depth]
  | left a kv r up ih => simp [depth, size]; omega
  | right l a kv up ih => simp [depth, size]; omega

theorem laidOut_fill (m : Heap K V) (c : Ctx K V) : ∀ s : Shape K V,
    (c.fill s).laidOut m none ↔ c.laidOut m s.rootPtr ∧ s.laidOut m c.parent := by
  induction c with
  | top => intro s; simp [fill, laidOut, parent]
  | left a kv r up ih =>
    intro s; simp only [fill, ih, laidOut, parent, laidOut_node, rootPtr_node]; tauto
  | right l a kv up ih =>
    intro s; simp only [fill, ih, laidOut, parent, laidOut_node, rootPtr_node]; tauto

theorem mem_addrs_fill (c : Ctx K V) : ∀ (s : Shape K V) (x : Nat),
    x ∈ (c.fill s).addrs ↔ x ∈ s.addrs ∨ x ∈ c.addrs := by
  induction c with
  | top => intro s x; simp [fill, addrs]
  | left a kv r up ih =>
    intro s x
    simp only [fill, ih, addrs, addrs_node, List.mem_append, List.mem_cons]; tauto
  | right l a kv up ih =>
    intro s x
    simp only [fill, ih, addrs, addrs_node, List.mem_append, List.mem_cons]; tauto

theorem mem_keys_fill (c : Ctx K V) (s s2 : Shape K V) (h : ∀ x, x ∈ s2.keys → x ∈ s.keys) :
    ∀ x, x ∈ (c.fill s2).keys → x ∈ (c.fill s).keys := by
  intro x
  simp only [Shape.keys, nodes_fill, List.map_append, List.mem_append] at h ⊢
  rintro ((hx | hx) | hx)
  · exact Or.inl (Or.inl hx)
  · exact Or.inl (Or.inr (h x hx))
  · exact Or.inr hx

theorem nodup_fill (c : Ctx K V) : ∀ s : Shape K V,
    (c.fill s).addrs.Nodup ↔ s.addrs.Nodup ∧ c.addrs.Nodup ∧ ∀ x ∈ s.addrs, x ∉ c.addrs := by
  induction c with
  | top => intro s; simp [fill, addrs]
  | left a kv r up ih =>
    intro s
    simp only [fill, ih, addrs, addrs_node, List.nodup_append, List.nodup_cons, List.mem_append,
      List.mem_cons, not_or, List.Disjoint]
    constructor
    · rintro ⟨⟨h1, ⟨h2, h3⟩, h4⟩, h5, h6⟩
      refine ⟨h1, ⟨⟨h2, fun h => (h6 a (Or.inr (Or.inl rfl))) h⟩, h3, h5,
        fun x hx hx2 => h6 x (Or.inr (Or.inr hx)) hx2⟩, fun x hx => ⟨?_, ?_, h6 x (Or.inl hx)⟩⟩
      · rintro rfl; exact h4 hx (Or.inl rfl)
      · exact fun hxr => h4 hx (Or.inr hxr)
    · rintro ⟨h1, ⟨⟨h2, h2b⟩, h3, h5, h7⟩, h6⟩
      refine ⟨⟨h1, ⟨h2, h3⟩, ?_⟩, h5, ?_⟩
      · rintro x hx (rfl | hxr)
        · exact (h6 x hx).1 rfl
        · exact (h6 x hx).2.1 hxr
      · rintro x (hx | rfl | hx)
        · exact (h6 x hx).2.2
        · exact h2b
        · exact fun hx2 => h7 hx hx2
  | right l a kv up ih =>
    intro s
    simp only [fill, ih, addrs, addrs_node, List.nodup_append, List.nodup_cons, List.mem_append,
      List.mem_cons, not_or, List.Disjoint]
    constructor
    · rintro ⟨⟨h1, ⟨h2, h3⟩, h4⟩, h5, h6⟩
      refine ⟨h3, ⟨⟨fun h => h4 h (Or.inl rfl), fun h => (h6 a (Or.inr (Or.inl rfl))) h⟩, h1, h5,
        fun x hx hx2 => h6 x (Or.inl hx) hx2⟩, fun x hx => ⟨?_, ?_, h6 x (Or.inr (Or.inr hx))⟩⟩
      · rintro rfl; exact h2 hx
      · exact fun hxl => h4 hxl (Or.inr hx)
    · rintro ⟨h1, ⟨⟨h2, h2b⟩, h3, h5, h7⟩, h6⟩
      refine ⟨⟨h3, ⟨fun h => (h6 a h).1 rfl, h1⟩, ?_⟩, h5, ?_⟩
      · rintro x hx (rfl | hxr)
        · exact h2 hx
        · exact (h6 x hxr).2.1 hx
      · rintro x (hx | rfl | hx)
        · exact fun hx2 => h7 hx hx2
        · exact h2b
        · exact (h6 x hx).2.2

theorem laidOut_congr_ctx {m m2 : Heap K V} {c : Ctx K V} :
    ∀ {h : Ptr}, (∀ a ∈ c.addrs, m2.read a = m.read a) → c.laidOut m h → c.laidOut m2 h := by
  induction c with
  | top => intros; trivial
  | left a kv r up ih =>
    intro h hfr hl
    simp only [laidOut, addrs, List.mem_cons, List.mem_append] at hl hfr ⊢
    refine ⟨by rw [hfr a (Or.inl rfl)]; exact hl.1,
      Shape.laidOut_congr (fun x hx => hfr x (Or.inr (Or.inl hx))) hl.2.1,
      ih (fun x hx => hfr x (Or.inr (Or.inr hx))) hl.2.2⟩
  | right l a kv up ih =>
    intro h hfr hl
    simp only [laidOut, addrs, List.mem_cons, List.mem_append] at hl hfr ⊢
    refine ⟨by rw [hfr a (Or.inl rfl)]; exact hl.1,
      Shape.laidOut_congr (fun x hx => hfr x (Or.inr (Or.inl hx))) hl.2.1,
      ih (fun x hx => hfr x (Or.inr (Or.inr hx))) hl.2.2⟩

theorem laidOut_lt_ctx {m : Heap K V} {c : Ctx K V} :
    ∀ {h : Ptr}, c.laidOut m h → ∀ a ∈ c.addrs, a < m.cells.length := by
  induction c with
  | top => intro _ _ a ha; simp [addrs] at ha
  | left b kv r up ih =>
    intro h hl a ha
    simp only [laidOut, addrs, List.mem_cons, List.mem_append] at hl ha
    rcases ha with rfl | ha | ha
    · exact read_lt hl.1
    · exact Shape.laidOut_lt hl.2.1 a ha
    · exact ih hl.2.2 a ha
  | right l b kv up ih =>
    intro h hl a ha
    simp only [laidOut, addrs, List.mem_cons, List.mem_append] at hl ha
    rcases ha with rfl | ha | ha
    · exact read_lt hl.1
    · exact Shape.laidOut_lt hl.2.1 a ha
    · exact ih hl.2.2 a ha

theorem ordered_fill [LinearOrder K] (c : Ctx K V) : ∀ s : Shape K V,
    (c.fill s).Ordered ↔ s.Ordered ∧ c.Ordered ∧ ∀ x ∈ s.keys, c.admits x := by
  induction c with
  | top => intro s; simp [fill, Ordered, admits]
  | left a kv r up ih =>
    intro s
    simp only [fill, ih, Ordered, admits, ordered_node, keys_node, List.mem_append, List.mem_cons]
    constructor
    · rintro ⟨⟨h1, h2, h3, h4⟩, h5, h6⟩
      exact ⟨h3, ⟨h2, h4, h6 _ (Or.inr (Or.inl rfl)), fun x hx => h6 x (Or.inr (Or.inr hx)), h5⟩,
        fun x hx => ⟨h1 x hx, h6 x (Or.inl hx)⟩⟩
    · rintro ⟨h3, ⟨h2, h4, h7, h8, h5⟩, h6⟩
      refine ⟨⟨fun x hx => (h6 x hx).1, h2, h3, h4⟩, h5, ?_⟩
      rintro x (hx | rfl | hx)
      · exact (h6 x hx).2
      · exact h7
      · exact h8 x hx
  | right l a kv up ih =>
    intro s
    simp only [fill, ih, Ordered, admits, ordered_node, keys_node, List.mem_append, List.mem_cons]
    constructor
    · rintro ⟨⟨h1, h2, h3, h4⟩, h5, h6⟩
      exact ⟨h4, ⟨h1, h3, h6 _ (Or.inr (Or.inl rfl)), fun x hx => h6 x (Or.inl hx), h5⟩,
        fun x hx => ⟨h2 x hx, h6 x (Or.inr (Or.inr hx))⟩⟩
    · rintro ⟨h3, ⟨h2, h4, h7, h8, h5⟩, h6⟩
      refine ⟨⟨h2, fun x hx => (h6 x hx).1, h4, h3⟩, h5, ?_⟩
      rintro x (hx | rfl | hx)
      · exact h8 x hx
      · exact h7
      · exact (h6 x hx).2

end Ctx
namespace Ctx
open Shape

theorem fill_comp (d c0 : Ctx K V) : ∀ s : Shape K V, (d.comp c0).fill s = c0.fill (d.fill s) := by
  induction d with
  | top => intro s; rfl
  | left a kv r up ih => intro s; simp [comp, fill, ih]
  | right l a kv up ih => intro s; simp [comp, fill, ih]

theorem leftSpine_comp {d c0 : Ctx K V} (hd : d.leftSpine) (hc : c0.leftSpine) :
    (d.comp c0).leftSpine := by
  induction d with
  | top => exact hc
  | left a kv r up ih => exact ih hd
  | right l a kv up ih => exact hd.elim

theorem before_of_leftSpine {d : Ctx K V} (hd : d.leftSpine) : d.before = [] := by
  induction d with
  | top => rfl
  | left a kv r up ih => exact ih hd
  | right l a kv up ih => exact hd.elim

theorem parent_comp_of_ne_top {d : Ctx K V} (c0 : Ctx K V) (hd : d ≠ top) :
    (d.comp c0).parent = d.parent := by
  cases d with
  | top => exact absurd rfl hd
  | left a kv r up => rfl
  | right l a kv up => rfl

theorem rootOr_of_ne_top {d : Ctx K V} (hd : d ≠ top) (h1 h2 : Ptr) :
    d.rootOr h1 = d.rootOr h2 := by
  cases d with
  | top => exact absurd rfl hd
  | left a kv r up => rfl
  | right l a kv up => rfl

theorem fill_ne_nil_of_ne_top {d : Ctx K V} (hd : d ≠ top) : ∀ s : Shape K V, d.fill s ≠ nil := by
  induction d with
  | top => exact absurd rfl hd
  | left a kv r up ih =>
    intro s
    simp only [fill]
    by_cases hu : up = top
    · subst hu; simp [fill]
    · exact ih hu _
  | right l a kv up ih =>
    intro s
    simp only [fill]
    by_cases hu : up = top
    · subst hu; simp [fill]
    · exact ih hu _

theorem parent_eq_none {c : Ctx K V} : c.parent = none ↔ c = top := by
  cases c <;> simp [parent]

end Ctx
namespace Shape
open Ctx

/-- Every node of a shape is the root of a subtree sitting in a context. -/
theorem exists_fill_of_mem_addrs (t : Shape K V) : ∀ x ∈ t.addrs,
    ∃ (c : Ctx K V) (l : Shape K V) (kv : K × V) (r : Shape K V), t = c.fill (node l x kv r) := by
  induction t with
  | nil => intro x hx; simp at hx
  | node l b kv r ihl ihr =>
    intro x hx
    simp only [addrs_node, List.mem_append, List.mem_cons] at hx
    rcases hx with hx | rfl | hx
    · obtain ⟨c, l2, kv2, r2, h⟩ := ihl x hx
      exact ⟨c.comp (Ctx.left b kv r Ctx.top), l2, kv2, r2, by rw [fill_comp, ← h]; rfl⟩
    · exact ⟨Ctx.top, l, kv, r, rfl⟩
    · obtain ⟨c, l2, kv2, r2, h⟩ := ihr x hx
      exact ⟨c.comp (Ctx.right l b kv Ctx.top), l2, kv2, r2, by rw [fill_comp, ← h]; rfl⟩

/-- A non-empty shape is its leftmost node, which has no left child, in a context made
of left links. -/
theorem exists_leftmost (t : Shape K V) (h : t ≠ nil) :
    ∃ (d : Ctx K V) (y : Nat) (kv : K × V) (r : Shape K V),
      t = d.fill (node nil y kv r) ∧ d.leftSpine := by
  induction t with
  | nil => exact absurd rfl h
  | node l b kv r ihl _ =>
    by_cases hl : l = nil
    · subst hl; exact ⟨Ctx.top, b, kv, r, rfl, trivial⟩
    · obtain ⟨d, y, kv2, r2, h1, h2⟩ := ihl hl
      exact ⟨d.comp (Ctx.left b kv r Ctx.top), y, kv2, r2, by rw [fill_comp, ← h1]; rfl,
        leftSpine_comp h2 trivial⟩

end Shape
open Shape

theorem leftmost_spec (m : Heap K V) : ∀ (t : Shape K V) (fuel : Nat) (par : Ptr),
    t.size < fuel → t ≠ nil → t.laidOut m par → leftmost m fuel t.rootPtr = .ok t.addrs.head? := by
  intro t
  induction t with
  | nil => intro _ _ _ h; exact absurd rfl h
  | node l b kv r ihl _ =>
    intro fuel par hsz _ hlay
    simp only [laidOut_node] at hlay
    simp only [size_node] at hsz
    match fuel, hsz with
    | fuel + 1, hsz =>
      simp only [leftmost, rootPtr_node, load_some hlay.1, bind_ok]
      match l, hlay, ihl, hsz with
      | nil, _, _, _ => simp
      | node ll c kv2 lr, hlay, ihl, hsz =>
        simp only [rootPtr_node]
        have := ihl fuel (some b) (by omega) (by simp) hlay.2.1
        simp only [rootPtr_node] at this
        rw [this]
        simp

open Shape

theorem Shape.rootPtr_mem_addrs {t : Shape K V} {x : Nat} (h : t.rootPtr = some x) :
    x ∈ t.addrs := by
  cases t with
  | nil => simp at h
  | node l b kv r => simp only [rootPtr_node, Option.some.injEq] at h; subst h; simp

/-- Second half of `_shiftNodes`: `if (node2) node2->parent = node1->parent`. -/
theorem shiftNodes_tail {m : Heap K V} {x : Nat} {n1 : Node K V} (node2 : Ptr) (sz : Nat)
    (rt : Ptr) (hx : m.read x = some n1)
    (h2 : ∀ b, node2 = some b → ∃ nb, m.read b = some nb) :
    ∃ m2, (match node2 with
        | none => (pure ⟨m, sz, rt⟩ : Except Fault (BinarySearchTree K V))
        | some b => do
          let n1 ← load m (some x)
          let m2 ← setParent m (some b) n1.parent
          pure ⟨m2, sz, rt⟩) = .ok ⟨m2, sz, rt⟩ ∧
      m2.cells.length = m.cells.length ∧
      (∀ y, node2 ≠ some y → m2.read y = m.read y) ∧
      (∀ b nb, node2 = some b → m.read b = some nb →
        m2.read b = some ⟨nb.keyValuePair, n1.parent, nb.left, nb.right⟩) := by
  cases node2 with
  | none => exact ⟨m, rfl, rfl, fun _ _ => rfl, fun b nb h => by simp at h⟩
  | some b =>
    obtain ⟨nb, hb⟩ := h2 b rfl
    refine ⟨m.write b ⟨nb.keyValuePair, n1.parent, nb.left, nb.right⟩, ?_, length_write _ _ _,
      ?_, ?_⟩
    · simp only [load_some hx, bind_ok, setParent, update, hb, pure_eq_ok]
    · intro y hy
      exact read_write_ne _ (fun h => hy (by rw [h]))
    · intro b2 nb2 hb2 hnb2
      simp only [Option.some.injEq] at hb2
      subst hb2
      rw [hb] at hnb2
      simp only [Option.some.injEq] at hnb2
      subst hnb2
      exact read_write_same _ (read_lt hb)

/-- Effect of `_shiftNodes(node1, node2)` when `node1` sits in the hole of the context `c`:
the link that pointed to `node1` (the root pointer, or a child link of the node above)
now points to `node2`, whose parent link is set; nothing else changes. -/
theorem shiftNodes_spec {s : BinarySearchTree K V} {c : Ctx K V} {x : Nat} {n1 : Node K V}
    (node2 : Ptr) (hc : c.laidOut s.mem (some x)) (hx : s.mem.read x = some n1)
    (hpar : n1.parent = c.parent) (hxc : x ∉ c.addrs) (hnd : c.addrs.Nodup)
    (hroot : s._root = c.rootOr (some x))
    (h2 : ∀ b, node2 = some b → b ∉ c.addrs ∧ ∃ nb, s.mem.read b = some nb) :
    ∃ s2, _shiftNodes s (some x) node2 = .ok s2 ∧ s2._size = s._size ∧
      s2._root = c.rootOr node2 ∧ c.laidOut s2.mem node2 ∧
      s2.mem.cells.length = s.mem.cells.length ∧
      (∀ y, y ∉ c.addrs → node2 ≠ some y → s2.mem.read y = s.mem.read y) ∧
      (∀ b nb, node2 = some b → s.mem.read b = some nb →
        s2.mem.read b = some ⟨nb.keyValuePair, c.parent, nb.left, nb.right⟩) := by
  cases c with
  | top =>
    simp only [Ctx.parent] at hpar
    obtain ⟨m2, e, hlen, hfr, hb⟩ := shiftNodes_tail node2 s._size node2 hx
      (fun b hb => (h2 b hb).2)
    refine ⟨⟨m2, s._size, node2⟩, ?_, rfl, rfl, trivial, hlen, fun y _ hy => hfr y hy, ?_⟩
    · simp only [_shiftNodes, load_some hx, bind_ok, hpar, pure_eq_ok] at e ⊢
      exact e
    · intro b nb h1 h3
      rw [hb b nb h1 h3, hpar]; rfl
  | left a kv r up =>
    simp only [Ctx.parent] at hpar
    simp only [Ctx.laidOut] at hc
    simp only [Ctx.addrs, List.mem_cons, List.mem_append, not_or, List.nodup_cons,
      List.nodup_append] at hxc hnd
    obtain ⟨hra, hlr, hlu⟩ := hc
    have hx1 : (s.mem.write a ⟨kv, up.parent, node2, r.rootPtr⟩).read x = some n1 := by
      rw [read_write_ne _ (Ne.symm hxc.1)]; exact hx
    obtain ⟨m2, e, hlen, hfr, hb⟩ := shiftNodes_tail node2 s._size s._root hx1
      (fun b hb => by
        obtain ⟨h3, nb, h4⟩ := h2 b hb
        simp only [Ctx.addrs, List.mem_cons, not_or] at h3
        exact ⟨nb, by rw [read_write_ne _ (Ne.symm h3.1)]; exact h4⟩)
    have hfr2 : ∀ y, y ≠ a → node2 ≠ some y → m2.read y = s.mem.read y := fun y hya hy => by
      rw [hfr y hy, read_write_ne _ (Ne.symm hya)]
    have hn2 : ∀ y, y ∈ r.addrs ++ up.addrs → node2 ≠ some y := fun y hy h => by
      have := (h2 y h).1
      simp only [Ctx.addrs, List.mem_cons, not_or] at this
      exact this.2 hy
    refine ⟨⟨m2, s._size, s._root⟩, ?_, rfl, ?_, ?_, by rw [hlen, length_write], ?_, ?_⟩
    · simp only [_shiftNodes, load_some hx, bind_ok, hpar, load_some hra, if_true, setLeft,
        update, hra, pure_eq_ok]
      exact e
    · rw [hroot]; rfl
    · simp only [Ctx.laidOut]
      refine ⟨?_, Shape.laidOut_congr (fun y hy => ?_) hlr, Ctx.laidOut_congr_ctx (fun y hy => ?_) hlu⟩
      · rw [hfr a (fun h => ((h2 a h).1) (by simp [Ctx.addrs]))]
        exact read_write_same _ (read_lt hra)
      · exact hfr2 y (fun h => hnd.1.1 (by rw [← h]; exact hy))
          (hn2 y (List.mem_append_left _ hy))
      · exact hfr2 y (fun h => hnd.1.2 (by rw [← h]; exact hy))
          (hn2 y (List.mem_append_right _ hy))
    · intro y hy hy2
      simp only [Ctx.addrs, List.mem_cons, not_or] at hy
      exact hfr2 y hy.1 hy2
    · intro b nb h1 h3
      have h4 := (h2 b h1).1
      simp only [Ctx.addrs, List.mem_cons, not_or] at h4
      rw [hb b nb h1 (by rw [read_write_ne _ (Ne.symm h4.1)]; exact h3), hpar]; rfl
  | right l a kv up =>
    simp only [Ctx.parent] at hpar
    simp only [Ctx.laidOut] at hc
    simp only [Ctx.addrs, List.mem_cons, List.mem_append, not_or, List.nodup_cons,
      List.nodup_append] at hxc hnd
    obtain ⟨hra, hll, hlu⟩ := hc
    have hlx : ¬ l.rootPtr = some x := fun h => hxc.2.1 (rootPtr_mem_addrs h)
    have hx1 : (s.mem.write a ⟨kv, up.parent, l.rootPtr, node2⟩).read x = some n1 := by
      rw [read_write_ne _ (Ne.symm hxc.1)]; exact hx
    obtain ⟨m2, e, hlen, hfr, hb⟩ := shiftNodes_tail node2 s._size s._root hx1
      (fun b hb => by
        obtain ⟨h3, nb, h4⟩ := h2 b hb
        simp only [Ctx.addrs, List.mem_cons, not_or] at h3
        exact ⟨nb, by rw [read_write_ne _ (Ne.symm h3.1)]; exact h4⟩)
    have hfr2 : ∀ y, y ≠ a → node2 ≠ some y → m2.read y = s.mem.read y := fun y hya hy => by
      rw [hfr y hy, read_write_ne _ (Ne.symm hya)]
    have hn2 : ∀ y, y ∈ l.addrs ++ up.addrs → node2 ≠ some y := fun y hy h => by
      have := (h2 y h).1
      simp only [Ctx.addrs, List.mem_cons, not_or] at this
      exact this.2 hy
    refine ⟨⟨m2, s._size, s._root⟩, ?_, rfl, ?_, ?_, by rw [hlen, length_write], ?_, ?_⟩
    · simp only [_shiftNodes, load_some hx, bind_ok, hpar, load_some hra, hlx, if_false,
        setRight, update, hra, pure_eq_ok]
      exact e
    · rw [hroot]; rfl
    · simp only [Ctx.laidOut]
      refine ⟨?_, Shape.laidOut_congr (fun y hy => ?_) hll, Ctx.laidOut_congr_ctx (fun y hy => ?_) hlu⟩
      · rw [hfr a (fun h => ((h2 a h).1) (by simp [Ctx.addrs]))]
        exact read_write_same _ (read_lt hra)
      · exact hfr2 y (fun h => hnd.1.1 (by rw [← h]; exact hy))
          (hn2 y (List.mem_append_left _ hy))
      · exact hfr2 y (fun h => hnd.1.2 (by rw [← h]; exact hy))
          (hn2 y (List.mem_append_right _ hy))
    · intro y hy hy2
      simp only [Ctx.addrs, List.mem_cons, not_or] at hy
      exact hfr2 y hy.1 hy2
    · intro b nb h1 h3
      have h4 := (h2 b h1).1
      simp only [Ctx.addrs, List.mem_cons, not_or] at h4
      rw [hb b nb h1 (by rw [read_write_ne _ (Ne.symm h4.1)]; exact h3), hpar]; rfl

open Shape

theorem Shape.nodup_node_iff (l r : Shape K V) (a : Nat) (kv : K × V) :
    (node l a kv r).addrs.Nodup ↔ l.addrs.Nodup ∧ r.addrs.Nodup ∧ a ∉ l.addrs ∧ a ∉ r.addrs ∧
      ∀ z ∈ l.addrs, z ∉ r.addrs := by
  simp only [addrs_node, List.nodup_append, List.nodup_cons, List.Disjoint, List.mem_cons]
  constructor
  · rintro ⟨h1, ⟨h2, h3⟩, h4⟩
    exact ⟨h1, h3, fun h => h4 h (Or.inl rfl), h2, fun z hz hz2 => h4 hz (Or.inr hz2)⟩
  · rintro ⟨h1, h3, h5, h2, h4⟩
    refine ⟨h1, ⟨h2, h3⟩, ?_⟩
    rintro z hz (rfl | hz2)
    · exact h5 hz
    · exact h4 z hz hz2

theorem Shape.mem_addrs_node (l r : Shape K V) (a : Nat) (kv : K × V) (z : Nat) :
    z ∈ (node l a kv r).addrs ↔ z ∈ l.addrs ∨ z = a ∨ z ∈ r.addrs := by
  simp [addrs_node]

theorem Shape.laidOut_reparent {m m2 : Heap K V} {t : Shape K V} {par par2 : Ptr}
    (h : t.laidOut m par) (hnd : t.addrs.Nodup)
    (hfr : ∀ y ∈ t.addrs, t.rootPtr ≠ some y → m2.read y = m.read y)
    (hb : ∀ b nb, t.rootPtr = some b → m.read b = some nb →
      m2.read b = some ⟨nb.keyValuePair, par2, nb.left, nb.right⟩) :
    t.laidOut m2 par2 := by
  cases t with
  | nil => trivial
  | node l b kv r =>
    simp only [laidOut_node] at h ⊢
    rw [nodup_node_iff] at hnd
    obtain ⟨_, _, hbl, hbr, _⟩ := hnd
    have hne : ∀ y, y ≠ b → (node l b kv r).rootPtr ≠ some y := fun y hy h => by
      simp only [rootPtr_node, Option.some.injEq] at h; exact hy h.symm
    refine ⟨by rw [hb b _ rfl h.1], laidOut_congr (fun y hy => ?_) h.2.1,
      laidOut_congr (fun y hy => ?_) h.2.2⟩
    · exact hfr y (by simp [hy]) (hne y (by rintro rfl; exact hbl hy))
    · exact hfr y (by simp [hy]) (hne y (by rintro rfl; exact hbr hy))

theorem Shape.read_rootPtr {m : Heap K V} {t : Shape K V} {par : Ptr} {b : Nat}
    (h : t.laidOut m par) (hb : t.rootPtr = some b) :
    ∃ nb, m.read b = some nb ∧ nb.parent = par := by
  cases t with
  | nil => simp at hb
  | node l a kv r =>
    simp only [rootPtr_node, Option.some.injEq] at hb
    subst hb
    exact ⟨_, h.1, rfl⟩

theorem Ctx.mem_addrs_comp (d c0 : Ctx K V) (x : Nat) :
    x ∈ (d.comp c0).addrs ↔ x ∈ d.addrs ∨ x ∈ c0.addrs := by
  induction d with
  | top => simp [Ctx.comp, Ctx.addrs]
  | left a kv r up ih =>
    simp only [Ctx.comp, Ctx.addrs, List.mem_cons, List.mem_append, ih]; tauto
  | right l a kv up ih =>
    simp only [Ctx.comp, Ctx.addrs, List.mem_cons, List.mem_append, ih]; tauto

theorem Ctx.comp_ne_top (d : Ctx K V) {c0 : Ctx K V} (h : c0 ≠ Ctx.top) : d.comp c0 ≠ Ctx.top := by
  cases d with
  | top => exact h
  | left a kv r up => simp [Ctx.comp]
  | right l a kv up => simp [Ctx.comp]

theorem Ctx.parent_mem_addrs {d : Ctx K V} {p : Nat} (h : d.parent = some p) : p ∈ d.addrs := by
  cases d with
  | top => simp [Ctx.parent] at h
  | left a kv r up =>
    simp only [Ctx.parent, Option.some.injEq] at h; subst h; simp [Ctx.addrs]
  | right l a kv up =>
    simp only [Ctx.parent, Option.some.injEq] at h; subst h; simp [Ctx.addrs]

/-- Removing one entry from the in-order sequence keeps the addresses distinct. -/
theorem Shape.nodup_of_nodes_split {t t2 : Shape K V} {A B : List (Nat × (K × V))}
    {e : Nat × (K × V)} (h1 : t.nodes = A ++ e :: B) (h2 : t2.nodes = A ++ B)
    (hnd : t.addrs.Nodup) : t2.addrs.Nodup ∧ e.1 ∉ t2.addrs := by
  simp only [Shape.addrs, h1, h2, List.map_append, List.map_cons, List.nodup_append,
    List.nodup_cons, List.mem_append, not_or, List.Disjoint, List.mem_cons] at hnd ⊢
  obtain ⟨hA, ⟨heB, hB⟩, hd⟩ := hnd
  exact ⟨⟨hA, hB, fun x hx hx2 => hd hx (Or.inr hx2)⟩, fun h => hd h (Or.inl rfl), heB⟩

/-- Final statements of the two-children branch of `erase`: the successor `y`, already
holding the right subtree `r1`, takes the place of `x` and receives its left subtree. -/
theorem erasePromote_spec {s : BinarySearchTree K V} {c : Ctx K V} {l r1 : Shape K V}
    {x y : Nat} {kv kvy : K × V} {rx py ly : Ptr}
    (hroot : s._root = c.rootOr (some x)) (hc : c.laidOut s.mem (some x))
    (hx : s.mem.read x = some ⟨kv, c.parent, l.rootPtr, rx⟩)
    (hl : l.laidOut s.mem (some x)) (hlne : l ≠ nil)
    (hy : s.mem.read y = some ⟨kvy, py, ly, r1.rootPtr⟩)
    (hr : r1.laidOut s.mem (some y))
    (hnd : (c.fill (node l y kvy r1)).addrs.Nodup)
    (hxn : x ∉ (c.fill (node l y kvy r1)).addrs) :
    ∃ s2, erasePromote s (some x) (some y) = .ok s2 ∧ s2._size = s._size ∧
      s2._root = (c.fill (node l y kvy r1)).rootPtr ∧
      (c.fill (node l y kvy r1)).laidOut s2.mem none ∧
      s2.mem.cells.length = s.mem.cells.length ∧
      ∀ z, z ∉ (c.fill (node l y kvy r1)).addrs → s2.mem.read z = s.mem.read z := by
  rw [Ctx.nodup_fill] at hnd
  obtain ⟨hnd1, hndc, hdis⟩ := hnd
  rw [Ctx.mem_addrs_fill] at hxn
  simp only [mem_addrs_node, not_or] at hxn
  obtain ⟨⟨hxl, hxy, hxr⟩, hxc⟩ := hxn
  rw [nodup_node_iff] at hnd1
  obtain ⟨hndl, hndr, hyl, hyr, hlr⟩ := hnd1
  have hyc : y ∉ c.addrs := hdis y (by simp)
  obtain ⟨s6, e6, hsz6, hroot6, hc6, hlen6, hfr6, hb6⟩ :=
    shiftNodes_spec (some y) hc hx rfl hxc hndc hroot
      (fun b hb => by
        simp only [Option.some.injEq] at hb; subst hb; exact ⟨hyc, _, hy⟩)
  have hne : ∀ z, z ≠ y → some y ≠ some z := fun z hz h => by
    simp only [Option.some.injEq] at h; exact hz h.symm
  have hx6 : s6.mem.read x = some ⟨kv, c.parent, l.rootPtr, rx⟩ := by
    rw [hfr6 x hxc (hne x hxy)]; exact hx
  have hy6 := hb6 y _ rfl hy
  simp only at hy6
  match l, hlne, hl, hx, hx6, hdis, hxl, hndl, hyl, hlr with
  | node ll lb lkv lr, _, hl, hx, hx6, hdis, hxl, hndl, hyl, hlr =>
    simp only [laidOut_node] at hl
    rw [nodup_node_iff] at hndl
    obtain ⟨_, _, hlbll, hlblr, _⟩ := hndl
    have hlbl : lb ∈ (node ll lb lkv lr).addrs := by simp
    have hlby : lb ≠ y := by rintro rfl; exact hyl hlbl
    have hlbc : lb ∉ c.addrs := hdis lb (by simp)
    have hlb6 : s6.mem.read lb = some ⟨lkv, some x, ll.rootPtr, lr.rootPtr⟩ := by
      rw [hfr6 lb hlbc (hne lb hlby)]; exact hl.1
    have hy7 : (s6.mem.write y ⟨kvy, c.parent, some lb, r1.rootPtr⟩).read y =
        some ⟨kvy, c.parent, some lb, r1.rootPtr⟩ := read_write_same _ (read_lt hy6)
    have hlb7 : (s6.mem.write y ⟨kvy, c.parent, some lb, r1.rootPtr⟩).read lb =
        some ⟨lkv, some x, ll.rootPtr, lr.rootPtr⟩ := by
      rw [read_write_ne _ (Ne.symm hlby)]; exact hlb6
    have hfin : ∀ z, z ∉ c.addrs → z ≠ y → z ≠ lb →
        ((s6.mem.write y ⟨kvy, c.parent, some lb, r1.rootPtr⟩).write lb
          ⟨lkv, some y, ll.rootPtr, lr.rootPtr⟩).read z = s.mem.read z := by
      intro z hzc hzy hzlb
      rw [read_write_ne _ (Ne.symm hzlb), read_write_ne _ (Ne.symm hzy), hfr6 z hzc (hne z hzy)]
    have hfinc : ∀ z, z ∈ c.addrs →
        ((s6.mem.write y ⟨kvy, c.parent, some lb, r1.rootPtr⟩).write lb
          ⟨lkv, some y, ll.rootPtr, lr.rootPtr⟩).read z = s6.mem.read z := by
      intro z hz
      rw [read_write_ne _ (by rintro rfl; exact hlbc hz),
        read_write_ne _ (by rintro rfl; exact hyc hz)]
    refine ⟨⟨(s6.mem.write y ⟨kvy, c.parent, some lb, r1.rootPtr⟩).write lb
      ⟨lkv, some y, ll.rootPtr, lr.rootPtr⟩, s6._size, s6._root⟩, ?_, hsz6, ?_, ?_, ?_, ?_⟩
    · simp only [erasePromote, e6, bind_ok, load_some hx6, setLeft, update, hy6, rootPtr_node,
        load_some hy7, setParent, hlb7, pure_eq_ok]
    · simp only [hroot6, Ctx.rootPtr_fill, rootPtr_node]
    · rw [Ctx.laidOut_fill]
      refine ⟨Ctx.laidOut_congr_ctx hfinc hc6, ?_⟩
      simp only [laidOut_node, rootPtr_node]
      refine ⟨?_, ⟨?_, ?_, ?_⟩, ?_⟩
      · rw [read_write_ne _ hlby]; exact hy7
      · exact read_write_same _ (read_lt hlb7)
      · refine laidOut_congr (fun z hz => ?_) hl.2.1
        have hzl : z ∈ (node ll lb lkv lr).addrs := by simp [hz]
        exact hfin z (hdis z (by simp [hz])) (by rintro rfl; exact hyl hzl)
          (by rintro rfl; exact hlbll hz)
      · refine laidOut_congr (fun z hz => ?_) hl.2.2
        have hzl : z ∈ (node ll lb lkv lr).addrs := by simp [hz]
        exact hfin z (hdis z (by simp [hz])) (by rintro rfl; exact hyl hzl)
          (by rintro rfl; exact hlblr hz)
      · refine laidOut_congr (fun z hz => ?_) hr
        exact hfin z (hdis z (by simp [hz])) (by rintro rfl; exact hyr hz)
          (by rintro rfl; exact hlr _ hlbl hz)
    · rw [length_write, length_write, hlen6]
    · intro z hz
      rw [Ctx.mem_addrs_fill] at hz
      simp only [mem_addrs_node, not_or] at hz
      exact hfin z hz.2 hz.1.2.1 hz.1.1.2.1

open Shape

/-- Body of `if (replace->parent != search)`: the successor `y`, which is not the right
child of `x`, is cut out of the right subtree of `x` and becomes the parent of what is
left of that subtree. -/
theorem eraseDetach_spec {s : BinarySearchTree K V} {c d : Ctx K V} {l ry : Shape K V}
    {x y : Nat} {kv kvy : K × V} (hd : d ≠ Ctx.top)
    (hroot : s._root = ((d.comp (Ctx.right l x kv c)).fill (node nil y kvy ry)).rootPtr)
    (hlay : ((d.comp (Ctx.right l x kv c)).fill (node nil y kvy ry)).laidOut s.mem none)
    (hnd : ((d.comp (Ctx.right l x kv c)).fill (node nil y kvy ry)).addrs.Nodup) :
    ∃ s2, eraseDetach s (some x) (some y) = .ok s2 ∧ s2._size = s._size ∧ s2._root = s._root ∧
      (Ctx.right l x kv c).laidOut s2.mem (d.fill ry).rootPtr ∧
      (d.fill ry).laidOut s2.mem (some y) ∧
      (∃ py ly, s2.mem.read y = some ⟨kvy, py, ly, (d.fill ry).rootPtr⟩) ∧
      s2.mem.cells.length = s.mem.cells.length ∧
      ∀ z, z ∉ ((d.comp (Ctx.right l x kv c)).fill (node nil y kvy ry)).addrs →
        s2.mem.read z = s.mem.read z := by
  have hCtop : d.comp (Ctx.right l x kv c) ≠ Ctx.top := Ctx.comp_ne_top d (by simp)
  rw [Ctx.laidOut_fill] at hlay
  obtain ⟨hC, hyn, -, hry⟩ := hlay
  simp only [rootPtr_nil] at hyn
  rw [Ctx.nodup_fill] at hnd
  obtain ⟨hnd1, hndC, hdisC⟩ := hnd
  rw [nodup_node_iff] at hnd1
  obtain ⟨-, hndry, -, hyry, -⟩ := hnd1
  have hyC : y ∉ (d.comp (Ctx.right l x kv c)).addrs := hdisC y (by simp)
  have hryC : ∀ z ∈ ry.addrs, z ∉ (d.comp (Ctx.right l x kv c)).addrs :=
    fun z hz => hdisC z (by simp [hz])
  rw [Ctx.rootPtr_fill] at hroot
  obtain ⟨s3, e3, hsz3, hroot3, hC3, hlen3, hfr3, hb3⟩ :=
    shiftNodes_spec ry.rootPtr hC hyn rfl hyC hndC hroot
      (fun b hb => ⟨hryC b (rootPtr_mem_addrs hb), by
        obtain ⟨nb, h, -⟩ := read_rootPtr hry hb; exact ⟨nb, h⟩⟩)
  have hne : ∀ z, z ∉ ry.addrs → ry.rootPtr ≠ some z :=
    fun z hz h => hz (rootPtr_mem_addrs h)
  have hry3 : ry.laidOut s3.mem (d.comp (Ctx.right l x kv c)).parent :=
    laidOut_reparent hry hndry (fun z hz h => hfr3 z (hryC z hz) h) hb3
  have hfill3 : ((d.comp (Ctx.right l x kv c)).fill ry).laidOut s3.mem none :=
    (Ctx.laidOut_fill _ _ _).mpr ⟨hC3, hry3⟩
  have hndfill : ((d.comp (Ctx.right l x kv c)).fill ry).addrs.Nodup :=
    (Ctx.nodup_fill _ _).mpr ⟨hndry, hndC, hryC⟩
  rw [Ctx.fill_comp] at hfill3 hndfill
  rw [Ctx.laidOut_fill] at hfill3
  rw [Ctx.nodup_fill] at hndfill
  obtain ⟨hc13, hr13⟩ := hfill3
  obtain ⟨hndr1, hndc1, hdis1⟩ := hndfill
  have hy3 : s3.mem.read y = some ⟨kvy, (d.comp (Ctx.right l x kv c)).parent, none, ry.rootPtr⟩ := by
    rw [hfr3 y hyC (hne y hyry)]; exact hyn
  have hyc1 : y ∉ (Ctx.right l x kv c).addrs :=
    fun h => hyC ((Ctx.mem_addrs_comp _ _ _).mpr (Or.inr h))
  have hyr1 : y ∉ (d.fill ry).addrs := by
    rw [Ctx.mem_addrs_fill]
    rintro (h | h)
    · exact hyry h
    · exact hyC ((Ctx.mem_addrs_comp _ _ _).mpr (Or.inl h))
  have hr1ne : d.fill ry ≠ nil := Ctx.fill_ne_nil_of_ne_top hd ry
  have hx3 := hc13.1
  have hsub : ∀ z, z ∈ (d.fill ry).addrs →
      z ∈ ((d.comp (Ctx.right l x kv c)).fill (node nil y kvy ry)).addrs := by
    intro z hz
    rw [Ctx.mem_addrs_fill] at hz ⊢
    rcases hz with hz | hz
    · exact Or.inl (by simp [hz])
    · exact Or.inr ((Ctx.mem_addrs_comp _ _ _).mpr (Or.inl hz))
  generalize d.fill ry = r1 at *
  match r1, hr1ne with
  | node r1l rb rkv r1r, _ =>
    have hrb : rb ∈ (node r1l rb rkv r1r).addrs := by simp
    have hrby : rb ≠ y := by rintro rfl; exact hyr1 hrb
    have hrb3 := hr13.1
    simp only [rootPtr_node, Ctx.parent] at hx3 hrb3
    have hrb4 : (s3.mem.write y ⟨kvy, (d.comp (Ctx.right l x kv c)).parent, none, some rb⟩).read rb
        = some ⟨rkv, some x, r1l.rootPtr, r1r.rootPtr⟩ := by
      rw [read_write_ne _ (Ne.symm hrby)]; exact hrb3
    have hy4 : (s3.mem.write y ⟨kvy, (d.comp (Ctx.right l x kv c)).parent, none, some rb⟩).read y
        = some ⟨kvy, (d.comp (Ctx.right l x kv c)).parent, none, some rb⟩ :=
      read_write_same _ (read_lt hy3)
    have hfr5 : ∀ z, z ≠ y → z ≠ rb →
        ((s3.mem.write y ⟨kvy, (d.comp (Ctx.right l x kv c)).parent, none, some rb⟩).write rb
          ⟨rkv, some y, r1l.rootPtr, r1r.rootPtr⟩).read z = s3.mem.read z := by
      intro z hzy hzrb
      rw [read_write_ne _ (Ne.symm hzrb), read_write_ne _ (Ne.symm hzy)]
    refine ⟨⟨(s3.mem.write y ⟨kvy, (d.comp (Ctx.right l x kv c)).parent, none, some rb⟩).write rb
      ⟨rkv, some y, r1l.rootPtr, r1r.rootPtr⟩, s3._size, s3._root⟩, ?_, hsz3, ?_, ?_, ?_, ?_, ?_, ?_⟩
    · simp only [eraseDetach, load_some hyn, e3, bind_ok, load_some hx3, setRight, update, hy3,
        load_some hy4, setParent, hrb4, pure_eq_ok]
    · rw [hroot3, hroot]; exact Ctx.rootOr_of_ne_top hCtop _ _
    · refine Ctx.laidOut_congr_ctx (fun z hz => hfr5 z ?_ ?_) hc13
      · rintro rfl; exact hyc1 hz
      · rintro rfl; exact hdis1 _ hrb hz
    · refine laidOut_reparent hr13 hndr1 (fun z hz h => hfr5 z ?_ ?_) ?_
      · rintro rfl; exact hyr1 hz
      · rintro rfl; simp at h
      · intro b nb hb hnb
        simp only [rootPtr_node, Option.some.injEq] at hb
        subst hb
        rw [hrb3] at hnb
        simp only [Option.some.injEq] at hnb
        subst hnb
        exact read_write_same _ (read_lt hrb4)
    · exact ⟨_, _, by rw [read_write_ne _ hrby]; exact hy4⟩
    · rw [length_write, length_write, hlen3]
    · intro z hz
      have hz2 := hz
      rw [Ctx.mem_addrs_fill] at hz2
      simp only [mem_addrs_node, not_or] at hz2
      rw [hfr5 z hz2.1.2.1 (by rintro rfl; exact hz (hsub _ hrb)), hfr3 z hz2.2 (hne z hz2.1.2.2)]

open Shape

/-- In-order sequences before and after the promotion of the successor. -/
theorem Ctx.nodes_two_children (c d : Ctx K V) (l ry : Shape K V) (x y : Nat) (kv kvy : K × V)
    (hd : d.leftSpine) :
    (c.fill (node l x kv (d.fill (node nil y kvy ry)))).nodes =
        (c.before ++ l.nodes) ++ (x, kv) :: ((y, kvy) :: (ry.nodes ++ d.after) ++ c.after) ∧
      (c.fill (node l y kvy (d.fill ry))).nodes =
        (c.before ++ l.nodes) ++ ((y, kvy) :: (ry.nodes ++ d.after) ++ c.after) := by
  simp [Ctx.nodes_fill, Ctx.before_of_leftSpine hd]

/-- Two-children branch of `erase`: the in-order successor `y` of `x`, the leftmost node
of the right subtree, replaces `x`. -/
theorem eraseTwoChildren_spec {s : BinarySearchTree K V} {c d : Ctx K V} {l ry : Shape K V}
    {x y : Nat} {kv kvy : K × V} {fuel : Nat} (hd : d.leftSpine) (hlne : l ≠ nil)
    (hroot : s._root = (c.fill (node l x kv (d.fill (node nil y kvy ry)))).rootPtr)
    (hlay : (c.fill (node l x kv (d.fill (node nil y kvy ry)))).laidOut s.mem none)
    (hnd : (c.fill (node l x kv (d.fill (node nil y kvy ry)))).addrs.Nodup)
    (hfuel : (c.fill (node l x kv (d.fill (node nil y kvy ry)))).size < fuel) :
    ∃ s2, eraseTwoChildren fuel s (some x) = .ok s2 ∧ s2._size = s._size ∧
      s2._root = (c.fill (node l y kvy (d.fill ry))).rootPtr ∧
      (c.fill (node l y kvy (d.fill ry))).laidOut s2.mem none ∧
      s2.mem.cells.length = s.mem.cells.length ∧
      ∀ z, z ∉ (c.fill (node l x kv (d.fill (node nil y kvy ry)))).addrs →
        s2.mem.read z = s.mem.read z := by
  obtain ⟨hn1, hn2⟩ := Ctx.nodes_two_children c d l ry x y kv kvy hd
  obtain ⟨hnd2, hxn2⟩ := nodup_of_nodes_split hn1 hn2 hnd
  simp only at hxn2
  have hsub : ∀ z, z ∈ (c.fill (node l y kvy (d.fill ry))).addrs →
      z ∈ (c.fill (node l x kv (d.fill (node nil y kvy ry)))).addrs := by
    intro z hz
    simp only [Shape.addrs, hn1, hn2, List.map_append, List.mem_append, List.map_cons,
      List.mem_cons] at hz ⊢
    tauto
  have hlay0 := hlay
  have hnd0 := hnd
  have hroot0 := hroot
  rw [Ctx.laidOut_fill] at hlay
  obtain ⟨hc, hx, hl, hr⟩ := hlay
  rw [Ctx.nodup_fill, nodup_node_iff] at hnd
  obtain ⟨⟨-, -, -, hxr, -⟩, -, -⟩ := hnd
  have hrne : d.fill (node nil y kvy ry) ≠ nil := by
    intro h
    have := congrArg Shape.size h
    rw [Ctx.size_fill] at this
    simp at this
  have hrsz : (d.fill (node nil y kvy ry)).size < fuel := by
    rw [Ctx.size_fill] at hfuel
    simp only [size_node] at hfuel
    omega
  have hlm := leftmost_spec s.mem _ fuel (some x) hrsz hrne hr
  have hhead : (d.fill (node nil y kvy ry)).addrs.head? = some y := by
    simp [Shape.addrs, Ctx.nodes_fill, Ctx.before_of_leftSpine hd]
  rw [hhead] at hlm
  obtain ⟨rb, hrb⟩ : ∃ rb, (d.fill (node nil y kvy ry)).rootPtr = some rb := by
    cases h : d.fill (node nil y kvy ry) with
    | nil => exact absurd h hrne
    | node _ rb _ _ => exact ⟨rb, rfl⟩
  have hcomp : ∀ s0, c.fill (node l x kv (d.fill s0)) =
      (d.comp (Ctx.right l x kv c)).fill s0 := fun s0 => by rw [Ctx.fill_comp]; rfl
  rw [hcomp] at hlay0 hnd0 hroot0
  have hy := ((Ctx.laidOut_fill _ _ _).mp hlay0).2.1
  have hry := ((Ctx.laidOut_fill _ _ _).mp hlay0).2.2.2
  simp only [rootPtr_nil] at hy
  rw [hrb] at hlm
  have hnext : nextNode s.mem fuel (some x) = .ok (some y) := by
    simp only [nextNode, load_some hx, bind_ok, hrb]
    exact hlm
  rw [Ctx.rootPtr_fill] at hroot
  simp only [rootPtr_node] at hroot
  by_cases hdt : d = Ctx.top
  · subst hdt
    simp only [Ctx.comp, Ctx.parent] at hy
    simp only [Ctx.fill] at hx hxn2 hnd2 hsub ⊢
    obtain ⟨s2, e2, h2⟩ := erasePromote_spec hroot hc hx hl hlne hy hry hnd2 hxn2
    refine ⟨s2, ?_, h2.1, h2.2.1, h2.2.2.1, h2.2.2.2.1, fun z hz => h2.2.2.2.2 z (fun h => hz (hsub z h))⟩
    simp only [eraseTwoChildren, hnext, bind_ok, load_some hy, ne_eq, not_true_eq_false,
      if_false, pure_eq_ok]
    exact e2
  · rw [Ctx.parent_comp_of_ne_top _ hdt] at hy
    have hpx : d.parent ≠ some x := by
      intro h
      have := Ctx.parent_mem_addrs h
      exact hxr ((Ctx.mem_addrs_fill _ _ _).mpr (Or.inr this))
    obtain ⟨s1, e1, hsz1, hroot1, hc1, hr1, ⟨py, ly, hy1⟩, hlen1, hfr1⟩ :=
      eraseDetach_spec hdt hroot0 hlay0 hnd0
    simp only [Ctx.laidOut] at hc1
    obtain ⟨s2, e2, h2⟩ := erasePromote_spec (hroot1.trans hroot) hc1.2.2 hc1.1 hc1.2.1 hlne hy1
      hr1 hnd2 hxn2
    refine ⟨s2, ?_, h2.1.trans hsz1, h2.2.1, h2.2.2.1, h2.2.2.2.1.trans hlen1, fun z hz => ?_⟩
    · simp only [eraseTwoChildren, hnext, bind_ok, load_some hy, ne_eq, hpx, not_false_eq_true,
        if_true, e1]
      exact e2
    · rw [h2.2.2.2.2 z (fun h => hz (hsub z h)), hfr1 z (by rw [← hcomp]; exact hz)]

open Shape

/-- Replacement of the node `x` by one of its subtrees `sub` through `_shiftNodes`. -/
theorem eraseSplice_spec {s : BinarySearchTree K V} {c : Ctx K V} {sub : Shape K V} {x : Nat}
    {n1 : Node K V} (hc : c.laidOut s.mem (some x)) (hx : s.mem.read x = some n1)
    (hpar : n1.parent = c.parent) (hxc : x ∉ c.addrs) (hndc : c.addrs.Nodup)
    (hroot : s._root = c.rootOr (some x)) (hsub : sub.laidOut s.mem (some x))
    (hnds : sub.addrs.Nodup) (hdis : ∀ z ∈ sub.addrs, z ∉ c.addrs) :
    ∃ s2, _shiftNodes s (some x) sub.rootPtr = .ok s2 ∧ s2._size = s._size ∧
      s2._root = (c.fill sub).rootPtr ∧ (c.fill sub).laidOut s2.mem none ∧
      s2.mem.cells.length = s.mem.cells.length ∧
      ∀ z, z ∉ c.addrs → z ∉ sub.addrs → s2.mem.read z = s.mem.read z := by
  obtain ⟨s2, e2, hsz2, hroot2, hc2, hlen2, hfr2, hb2⟩ :=
    shiftNodes_spec sub.rootPtr hc hx hpar hxc hndc hroot
      (fun b hb => ⟨hdis b (rootPtr_mem_addrs hb), by
        obtain ⟨nb, h, -⟩ := read_rootPtr hsub hb; exact ⟨nb, h⟩⟩)
  refine ⟨s2, e2, hsz2, by rw [hroot2, Ctx.rootPtr_fill], ?_, hlen2, fun z hz hz2 =>
    hfr2 z hz (fun h => hz2 (rootPtr_mem_addrs h))⟩
  rw [Ctx.laidOut_fill]
  exact ⟨hc2, laidOut_reparent hsub hnds (fun z hz h => hfr2 z (hdis z hz) h) hb2⟩

/-- In a list with distinct first components, the position of an entry is determined
by its first component. -/
theorem split_unique {α β : Type} : ∀ (as A bs B : List (α × β)) (e e2 : α × β),
    ((as ++ e :: bs).map Prod.fst).Nodup → as ++ e :: bs = A ++ e2 :: B → e.1 = e2.1 →
    as = A ∧ e = e2 ∧ bs = B := by
  intro as
  induction as with
  | nil =>
    intro A bs B e e2 hnd h he
    cases A with
    | nil => simp only [List.nil_append, List.cons.injEq] at h; exact ⟨rfl, h.1, h.2⟩
    | cons a A2 =>
      exfalso
      simp only [List.nil_append, List.cons_append, List.cons.injEq] at h
      obtain ⟨rfl, rfl⟩ := h
      simp only [List.nil_append, List.map_cons, List.map_append, List.nodup_cons,
        List.mem_append, List.mem_cons, List.mem_map] at hnd
      exact hnd.1 (Or.inr (Or.inl he))
  | cons a as2 ih =>
    intro A bs B e e2 hnd h he
    cases A with
    | nil =>
      exfalso
      simp only [List.nil_append, List.cons_append, List.cons.injEq] at h
      obtain ⟨rfl, rfl⟩ := h
      simp only [List.cons_append, List.map_cons, List.map_append, List.nodup_cons,
        List.mem_append, List.mem_cons, List.mem_map] at hnd
      exact hnd.1 (Or.inr (Or.inl he.symm))
    | cons a2 A2 =>
      simp only [List.cons_append, List.cons.injEq] at h
      obtain ⟨rfl, h2⟩ := h
      simp only [List.cons_append, List.map_cons, List.nodup_cons] at hnd
      obtain ⟨h3, h4, h5⟩ := ih A2 bs B e e2 hnd.2 h2 he
      exact ⟨by rw [h3], h4, h5⟩

section Ord
variable [LinearOrder K]

theorem Ctx.after_ge_of_leftSpine {d : Ctx K V} {k : K} (hd : d.leftSpine) (ho : d.Ordered)
    (ha : d.admits k) : ∀ e ∈ d.after, k ≤ e.2.1 := by
  induction d with
  | top => intro e he; simp [Ctx.after] at he
  | left a kv r up ih =>
    simp only [Ctx.Ordered, Ctx.admits, Ctx.leftSpine] at ho ha hd
    intro e he
    simp only [Ctx.after, List.cons_append, List.mem_cons, List.mem_append] at he
    rcases he with rfl | he | he
    · exact ha.1.le
    · exact ha.1.le.trans (ho.1 _ (mem_keys_of_mem_nodes he))
    · exact ih hd ho.2.2.2.2 ha.2 e he
  | right l a kv up ih => exact hd.elim

/-- Body of `erase` between the search and the `delete`, at a node `x` of a well-formed
tree: the store then holds a well-formed shape whose in-order sequence is the old one
without the entry of `x`. -/
theorem erase_branch_spec {s : BinarySearchTree K V} {c : Ctx K V} {l r : Shape K V} {x : Nat}
    {kv : K × V} {fuel : Nat} (hwf : WF s (c.fill (node l x kv r)))
    (hfuel : (c.fill (node l x kv r)).size < fuel) :
    ∃ (s1 : BinarySearchTree K V) (t2 : Shape K V), (match l.rootPtr with
        | none => _shiftNodes s (some x) r.rootPtr
        | some _ =>
          match r.rootPtr with
          | none => _shiftNodes s (some x) l.rootPtr
          | some _ => eraseTwoChildren fuel s (some x)) = .ok s1 ∧
      s1._size = s._size ∧ s1._root = t2.rootPtr ∧ t2.laidOut s1.mem none ∧ t2.Ordered ∧
      (∃ B, (c.fill (node l x kv r)).nodes = (c.before ++ l.nodes) ++ (x, kv) :: B ∧
        t2.nodes = (c.before ++ l.nodes) ++ B) := by
  obtain ⟨hroot, hlay, hnd, hord, hsz⟩ := hwf
  have hlay0 := hlay
  have hnd0 := hnd
  have hroot0 := hroot
  rw [Ctx.laidOut_fill] at hlay
  obtain ⟨hc, hx, hl, hr⟩ := hlay
  rw [Ctx.nodup_fill, nodup_node_iff] at hnd
  obtain ⟨⟨hndl, hndr, hxl, hxr, hlr⟩, hndc, hdis⟩ := hnd
  have hxc : x ∉ c.addrs := hdis x (by simp)
  rw [Ctx.rootPtr_fill] at hroot
  simp only [rootPtr_node] at hroot
  rw [Ctx.ordered_fill] at hord
  obtain ⟨hon, hoc, hadm⟩ := hord
  simp only [ordered_node] at hon
  obtain ⟨hkl, hkr, hol, hor⟩ := hon
  by_cases hl0 : l = nil
  · subst hl0
    obtain ⟨s2, e2, hsz2, hroot2, hlay2, -, -⟩ := eraseSplice_spec hc hx rfl hxc hndc hroot hr
      hndr (fun z hz => hdis z (by simp [hz]))
    refine ⟨s2, c.fill r, by simpa using e2, hsz2, hroot2, hlay2, ?_, r.nodes ++ c.after, ?_, ?_⟩
    · rw [Ctx.ordered_fill]
      exact ⟨hor, hoc, fun k hk => hadm k (by simp [hk])⟩
    · simp [Ctx.nodes_fill]
    · simp [Ctx.nodes_fill]
  · obtain ⟨lb, hlb⟩ : ∃ lb, l.rootPtr = some lb := by
      cases l with
      | nil => exact absurd rfl hl0
      | node _ lb _ _ => exact ⟨lb, rfl⟩
    by_cases hr0 : r = nil
    · subst hr0
      obtain ⟨s2, e2, hsz2, hroot2, hlay2, -, -⟩ := eraseSplice_spec hc hx rfl hxc hndc hroot hl
        hndl (fun z hz => hdis z (by simp [hz]))
      refine ⟨s2, c.fill l, ?_, hsz2, hroot2, hlay2, ?_, c.after, ?_, ?_⟩
      · simp only [hlb, rootPtr_nil]
        rw [← hlb]; exact e2
      · rw [Ctx.ordered_fill]
        exact ⟨hol, hoc, fun k hk => hadm k (by simp [hk])⟩
      · simp [Ctx.nodes_fill]
      · simp [Ctx.nodes_fill]
    · obtain ⟨rb, hrb⟩ : ∃ rb, r.rootPtr = some rb := by
        cases r with
        | nil => exact absurd rfl hr0
        | node _ rb _ _ => exact ⟨rb, rfl⟩
      obtain ⟨d, y, kvy, ry, hrd, hd⟩ := exists_leftmost r hr0
      subst hrd
      obtain ⟨s2, e2, hsz2, hroot2, hlay2, -, -⟩ :=
        eraseTwoChildren_spec hd hl0 hroot0 hlay0 hnd0 hfuel
      obtain ⟨hn1, hn2⟩ := Ctx.nodes_two_children c d l ry x y kv kvy hd
      refine ⟨s2, c.fill (node l y kvy (d.fill ry)), ?_, hsz2, hroot2, hlay2, ?_, _, hn1, hn2⟩
      · simp only [hlb, hrb]; exact e2
      · rw [Ctx.ordered_fill] at hor
        obtain ⟨hory, hod, hadmd⟩ := hor
        simp only [ordered_node] at hory
        have hykv : kv.1 ≤ kvy.1 := hkr _ (by
          simp [Shape.keys, Ctx.nodes_fill])
        rw [Ctx.ordered_fill]
        refine ⟨?_, hoc, ?_⟩
        · simp only [ordered_node]
          refine ⟨fun k hk => lt_of_lt_of_le (hkl k hk) hykv, ?_, hol, ?_⟩
          · intro k hk
            simp only [Shape.keys, Ctx.nodes_fill, Ctx.before_of_leftSpine hd, List.nil_append,
              List.map_append, List.mem_append, List.mem_map] at hk
            rcases hk with ⟨e, he, rfl⟩ | ⟨e, he, rfl⟩
            · exact hory.2.1 _ (mem_keys_of_mem_nodes he)
            · exact Ctx.after_ge_of_leftSpine hd hod (hadmd _ (by simp)) e he
          · rw [Ctx.ordered_fill]
            exact ⟨hory.2.2.2, hod, fun k hk => hadmd k (by simp [hk])⟩
        · intro k hk
          apply hadm
          simp only [keys_node, List.mem_append, List.mem_cons] at hk ⊢
          rcases hk with hk | rfl | hk
          · exact Or.inl hk
          · exact Or.inr (Or.inr (by simp [Shape.keys, Ctx.nodes_fill]))
          · exact Or.inr (Or.inr (Ctx.mem_keys_fill d _ _ (fun k hk => by simp [hk]) k hk))

end Ord
open Shape
section Ord
variable [LinearOrder K]

/-- Result of `_findNode` on a well-formed tree: the first node in in-order with the key. -/
theorem findNode_spec {s : BinarySearchTree K V} {t : Shape K V} (k : K) {fuel : Nat}
    (hwf : WF s t) (hfuel : t.size < fuel) : _findNode fuel s k = .ok (t.firstWithKey k) := by
  obtain ⟨hroot, hlay, -, hord, -⟩ := hwf
  cases t with
  | nil => simp [_findNode, hroot, firstWithKey]
  | node l a kv r =>
    have := findLoop_spec s.mem k fuel (node l a kv r) none hfuel (by simp) hlay hord
    simp only [_findNode, hroot, rootPtr_node] at this ⊢
    exact this

theorem decSize_succ (n : Nat) : decSize (n + 1) = n := by
  simp [decSize]

/-- Effect of `erase` on a well-formed tree that holds the key: exactly the first entry
with that key leaves the in-order sequence. -/
theorem erase_spec {s : BinarySearchTree K V} {t : Shape K V} (k : K) {fuel : Nat}
    (hwf : WF s t) (hk : k ∈ t.keys) (hfuel : t.size < fuel) :
    ∃ (s2 : BinarySearchTree K V) (t2 : Shape K V), erase fuel s k = .ok s2 ∧ WF s2 t2 ∧
      t2.nodes = t.nodes.eraseP (fun e => decide (e.2.1 = k)) ∧ s2._size + 1 = s._size := by
  have hfind := findNode_spec k hwf hfuel
  obtain ⟨e0, he0, hke0⟩ : ∃ e0 ∈ t.nodes, e0.2.1 = k := by
    simpa [Shape.keys] using hk
  have hsome : (t.nodes.find? (fun e => decide (e.2.1 = k))).isSome := by
    rw [List.find?_isSome]; exact ⟨e0, he0, by simpa using hke0⟩
  obtain ⟨e, he⟩ := Option.isSome_iff_exists.mp hsome
  obtain ⟨hpe, as, bs, hsplit, hnot⟩ := List.find?_eq_some.mp he
  have hxmem : e.1 ∈ t.addrs := by
    rw [Shape.addrs, hsplit]; simp
  obtain ⟨c, l, kv, r, rfl⟩ := exists_fill_of_mem_addrs t e.1 hxmem
  obtain ⟨s1, t2, e1, hsz1, hroot1, hlay1, hord1, B, hn1, hn2⟩ := erase_branch_spec hwf hfuel
  obtain ⟨hroot, hlay, hnd, hord, hsz⟩ := hwf
  obtain ⟨has, hee, hbs⟩ := split_unique as (c.before ++ l.nodes) bs B e (e.1, kv)
    (by rw [← hsplit]; exact hnd) (by rw [← hsplit]; exact hn1) rfl
  have hx := ((Ctx.laidOut_fill _ _ _).mp hlay).2.1
  obtain ⟨hnd2, hxn2⟩ := nodup_of_nodes_split hn1 hn2 hnd
  simp only at hxn2
  have hkv : kv.1 = k := by
    rw [hee] at hpe; simpa using hpe
  have herase : (c.fill (node l e.1 kv r)).nodes.eraseP (fun e => decide (e.2.1 = k)) =
      (c.before ++ l.nodes) ++ B := by
    rw [hn1, List.eraseP_append_right _ (by
      intro b hb; rw [← has] at hb; simpa using hnot b hb)]
    rw [List.eraseP_cons_of_pos (by simpa using hkv)]
  have hsize : (c.fill (node l e.1 kv r)).size = t2.size + 1 := by
    rw [← length_nodes, ← length_nodes, hn1, hn2]
    simp only [List.length_append, List.length_cons]
    omega
  refine ⟨⟨s1.mem.free e.1, decSize s1._size, s1._root⟩, t2, ?_, ⟨hroot1, ?_, hnd2, hord1, ?_⟩,
    by rw [hn2, herase], ?_⟩
  · simp only [erase, hfind, firstWithKey, he, Option.map_some', bind_ok, load_some hx]
    rcases hl : l.rootPtr with _ | lb <;> rcases hr : r.rootPtr with _ | rb <;>
      simp only [hl, hr] at e1 ⊢ <;> simp only [e1, bind_ok, pure_eq_ok]
  · exact laidOut_congr (fun z hz => read_free_ne (by rintro rfl; exact hxn2 hz)) hlay1
  · show decSize s1._size = t2.size
    rw [hsz1, hsz, hsize, decSize_succ]
  · show decSize s1._size + 1 = s._size
    rw [hsz1, hsz, hsize, decSize_succ]

end Ord
open Shape

/-- Walk of `nextNode` up the parent links from a node without right child: it stops at
the first node of the path that is reached from its left child. -/
theorem climbFromRight_spec (m : Heap K V) : ∀ (c : Ctx K V) (fuel a : Nat) (n : Node K V),
    m.read a = some n → n.parent = c.parent → c.laidOut m (some a) → a ∉ c.addrs →
    c.addrs.Nodup → c.depth < fuel →
    climbFromRight m fuel (some a) = .ok (c.after.head?.map Prod.fst) := by
  intro c
  induction c with
  | top =>
    intro fuel a n hn hpar _ _ _ hfuel
    match fuel, hfuel with
    | fuel + 1, _ =>
      simp only [Ctx.parent] at hpar
      simp [climbFromRight, load_some hn, hpar, Ctx.after]
  | left b kv r up _ =>
    intro fuel a n hn hpar hc ha hnd hfuel
    match fuel, hfuel with
    | fuel + 1, _ =>
      simp only [Ctx.parent] at hpar
      simp only [Ctx.laidOut] at hc
      simp only [Ctx.addrs, List.mem_cons, List.mem_append, not_or] at ha
      have hne : ¬ r.rootPtr = some a := fun h => ha.2.1 (rootPtr_mem_addrs h)
      simp [climbFromRight, load_some hn, hpar, load_some hc.1, hne, Ctx.after]
  | right l b kv up ih =>
    intro fuel a n hn hpar hc ha hnd hfuel
    match fuel, hfuel with
    | fuel + 1, hfuel =>
      simp only [Ctx.parent] at hpar
      simp only [Ctx.laidOut] at hc
      simp only [Ctx.addrs, List.nodup_cons, List.mem_append, not_or, List.nodup_append] at hnd
      simp only [Ctx.depth] at hfuel
      simp only [climbFromRight, load_some hn, hpar, bind_ok, load_some hc.1, if_true, Ctx.after]
      exact ih fuel b _ hc.1 rfl hc.2.2 hnd.1.2 hnd.2.2.1 (by omega)

theorem Ctx.size_le_fill (c : Ctx K V) (s : Shape K V) : c.depth ≤ (c.fill s).size := by
  rw [Ctx.size_fill]
  have := c.depth_le_size
  omega

/-- Successor step at the node `x` of a laid-out shape: the node that follows `x` in
in-order, the null pointer when `x` is the last one. -/
theorem nextNode_fill {m : Heap K V} {c : Ctx K V} {l r : Shape K V} {x : Nat} {kv : K × V}
    {fuel : Nat} (hlay : (c.fill (node l x kv r)).laidOut m none)
    (hnd : (c.fill (node l x kv r)).addrs.Nodup) (hfuel : (c.fill (node l x kv r)).size < fuel) :
    nextNode m fuel (some x) = .ok ((r.nodes ++ c.after).head?.map Prod.fst) := by
  have hdepth := Ctx.size_le_fill c (node l x kv r)
  have hsize := Ctx.size_fill c (node l x kv r)
  simp only [size_node] at hsize
  rw [Ctx.laidOut_fill] at hlay
  obtain ⟨hc, hx, hl, hr⟩ := hlay
  rw [Ctx.nodup_fill] at hnd
  obtain ⟨-, hndc, hdis⟩ := hnd
  cases r with
  | nil =>
    simp only [nextNode, load_some hx, bind_ok, rootPtr_nil, nodes_nil, List.nil_append]
    exact climbFromRight_spec m c fuel x _ hx rfl hc (hdis x (by simp)) hndc (by omega)
  | node rl rb rkv rr =>
    have := leftmost_spec m (node rl rb rkv rr) fuel (some x) (by omega) (by simp) hr
    simp only [nextNode, load_some hx, bind_ok, rootPtr_node] at this ⊢
    rw [this]
    have hgen : ∀ (L L2 : List (Nat × (K × V))), L ≠ [] →
        (L.map Prod.fst).head? = (L ++ L2).head?.map Prod.fst := by
      intro L L2 h
      cases L with
      | nil => exact absurd rfl h
      | cons a L => simp
    exact congrArg Except.ok (hgen _ _ (by simp))

theorem Shape.read_of_mem_nodes {m : Heap K V} {t : Shape K V} :
    ∀ {par : Ptr}, t.laidOut m par → ∀ e ∈ t.nodes,
      ∃ n, m.read e.1 = some n ∧ n.keyValuePair = e.2 := by
  induction t with
  | nil => intro _ _ e he; simp at he
  | node l b kv r ihl ihr =>
    intro par h e he
    simp only [laidOut_node] at h
    simp only [nodes_node, List.mem_append, List.mem_cons] at he
    rcases he with he | rfl | he
    · exact ihl h.2.1 e he
    · exact ⟨_, h.1, rfl⟩
    · exact ihr h.2.2 e he

/-- Successor step in terms of the in-order sequence alone. -/
theorem nextNode_of_split {m : Heap K V} {t : Shape K V} {fuel : Nat}
    (hlay : t.laidOut m none) (hnd : t.addrs.Nodup) (hfuel : t.size < fuel)
    {A B : List (Nat × (K × V))} {e : Nat × (K × V)} (hsplit : t.nodes = A ++ e :: B) :
    nextNode m fuel (some e.1) = .ok (B.head?.map Prod.fst) := by
  have hmem : e.1 ∈ t.addrs := by rw [Shape.addrs, hsplit]; simp
  obtain ⟨c, l, kv, r, rfl⟩ := exists_fill_of_mem_addrs t e.1 hmem
  have hn : (c.fill (node l e.1 kv r)).nodes =
      (c.before ++ l.nodes) ++ (e.1, kv) :: (r.nodes ++ c.after) := by
    simp [Ctx.nodes_fill]
  obtain ⟨-, -, hB⟩ := split_unique A (c.before ++ l.nodes) B (r.nodes ++ c.after) e (e.1, kv)
    (by rw [← hsplit]; exact hnd) (by rw [← hsplit]; exact hn) rfl
  rw [hB]
  exact nextNode_fill hlay hnd hfuel

/-- Iteration with `++` from a position up to `end()` yields the rest of the in-order
sequence from that position on. -/
theorem traverseFrom_spec {m : Heap K V} {t : Shape K V} {fuel : Nat}
    (hlay : t.laidOut m none) (hnd : t.addrs.Nodup) (hfuel : t.size < fuel) :
    ∀ (B A : List (Nat × (K × V))) (n : Nat), t.nodes = A ++ B → B.length < n →
      traverseFrom m fuel n (B.head?.map Prod.fst) = .ok B := by
  intro B
  induction B with
  | nil =>
    intro A n _ hn
    match n, hn with
    | n + 1, _ => simp [traverseFrom]
  | cons e B ih =>
    intro A n hsplit hn
    match n, hn with
    | n + 1, hn =>
      obtain ⟨nd, hnd1, hnd2⟩ := read_of_mem_nodes hlay e (by rw [hsplit]; simp)
      have hnext := nextNode_of_split hlay hnd hfuel hsplit
      have hrest := ih (A ++ [e]) n (by simp [hsplit]) (by simpa using hn)
      simp only [List.head?_cons, Option.map_some', traverseFrom, load_some hnd1, bind_ok, hnext,
        hrest, pure_eq_ok, hnd2]

open Shape

/-! ## A normal result does not depend on the fuel -/

theorem leftmost_mono (m : Heap K V) : ∀ (fuel : Nat) (p r : Ptr),
    leftmost m fuel p = .ok r → leftmost m (fuel + 1) p = .ok r := by
  intro fuel
  induction fuel with
  | zero => intro p r h; simp [leftmost] at h
  | succ fuel ih =>
    intro p r h
    rw [leftmost] at h ⊢
    cases hl : load m p with
    | error e => simp [hl] at h
    | ok n =>
      simp only [hl, bind_ok] at h ⊢
      cases hn : n.left with
      | none => simpa [hn] using h
      | some l =>
        simp only [hn] at h ⊢
        exact ih _ _ h

theorem climbFromRight_mono (m : Heap K V) : ∀ (fuel : Nat) (p r : Ptr),
    climbFromRight m fuel p = .ok r → climbFromRight m (fuel + 1) p = .ok r := by
  intro fuel
  induction fuel with
  | zero => intro p r h; simp [climbFromRight] at h
  | succ fuel ih =>
    intro p r h
    rw [climbFromRight] at h ⊢
    cases hl : load m p with
    | error e => simp [hl] at h
    | ok n =>
      simp only [hl, bind_ok] at h ⊢
      cases hn : n.parent with
      | none => simpa [hn] using h
      | some q =>
        simp only [hn] at h ⊢
        cases hq : load m (some q) with
        | error e => simp [hq] at h
        | ok pn =>
          simp only [hq, bind_ok] at h ⊢
          by_cases hc : pn.right = p
          · simp only [hc, if_true] at h ⊢
            exact ih _ _ h
          · simpa [hc] using h

theorem nextNode_mono (m : Heap K V) (fuel : Nat) (p r : Ptr)
    (h : nextNode m fuel p = .ok r) : nextNode m (fuel + 1) p = .ok r := by
  cases p with
  | none => simpa [nextNode] using h
  | some a =>
    simp only [nextNode] at h ⊢
    cases hl : load m (some a) with
    | error e => simp [hl] at h
    | ok n =>
      simp only [hl, bind_ok] at h ⊢
      cases hn : n.right with
      | none =>
        simp only [hn] at h ⊢
        exact climbFromRight_mono m _ _ _ h
      | some q =>
        simp only [hn] at h ⊢
        exact leftmost_mono m _ _ _ h

theorem eraseTwoChildren_mono (s s2 : BinarySearchTree K V) (p : Ptr) (fuel : Nat)
    (h : eraseTwoChildren fuel s p = .ok s2) : eraseTwoChildren (fuel + 1) s p = .ok s2 := by
  simp only [eraseTwoChildren] at h ⊢
  cases hl : nextNode s.mem fuel p with
  | error e => simp [hl] at h
  | ok q =>
    rw [nextNode_mono _ _ _ _ hl]
    simpa [hl] using h

section Ord
variable [LinearOrder K]

theorem findLoop_mono (m : Heap K V) (k : K) : ∀ (fuel : Nat) (p r : Ptr),
    findLoop m k fuel p = .ok r → findLoop m k (fuel + 1) p = .ok r := by
  intro fuel
  induction fuel with
  | zero => intro p r h; simp [findLoop] at h
  | succ fuel ih =>
    intro p r h
    rw [findLoop] at h ⊢
    cases hl : findStep m k p with
    | error e => simp [hl] at h
    | ok fl =>
      simp only [hl, bind_ok] at h ⊢
      cases fl with
      | done q => simpa using h
      | next q => exact ih _ _ h

theorem findNode_mono (s : BinarySearchTree K V) (k : K) (fuel : Nat) (r : Ptr)
    (h : _findNode fuel s k = .ok r) : _findNode (fuel + 1) s k = .ok r := by
  simp only [_findNode] at h ⊢
  cases hr : s._root with
  | none => simpa [hr] using h
  | some a =>
    simp only [hr] at h ⊢
    exact findLoop_mono _ _ _ _ _ h

theorem insertLoop_mono (k : K) (v : V) : ∀ (fuel : Nat) (m : Heap K V) (p : Ptr) (r : Heap K V),
    insertLoop k v fuel m p = .ok r → insertLoop k v (fuel + 1) m p = .ok r := by
  intro fuel
  induction fuel with
  | zero => intro m p r h; simp [insertLoop] at h
  | succ fuel ih =>
    intro m p r h
    rw [insertLoop] at h ⊢
    cases hl : insertStep m k v p with
    | error e => simp [hl] at h
    | ok fl =>
      simp only [hl, bind_ok] at h ⊢
      cases fl with
      | done q => simpa using h
      | next q => exact ih _ _ _ h

theorem insert_mono (s s2 : BinarySearchTree K V) (k : K) (v : V) (fuel : Nat)
    (h : insert fuel s k v = .ok s2) : insert (fuel + 1) s k v = .ok s2 := by
  simp only [insert] at h ⊢
  by_cases h0 : s._size = 0
  · simpa [h0] using h
  · simp only [h0, if_false] at h ⊢
    cases hl : insertLoop k v fuel s.mem s._root with
    | error e => simp [hl] at h
    | ok m2 =>
      rw [insertLoop_mono k v fuel _ _ _ hl]
      simpa [hl] using h

theorem erase_mono (s s2 : BinarySearchTree K V) (k : K) (fuel : Nat)
    (h : erase fuel s k = .ok s2) : erase (fuel + 1) s k = .ok s2 := by
  simp only [erase] at h ⊢
  cases hf : _findNode fuel s k with
  | error e => simp [hf] at h
  | ok search =>
    rw [findNode_mono _ _ _ _ hf]
    simp only [hf, bind_ok] at h ⊢
    cases hl : load s.mem search with
    | error e => simp [hl] at h
    | ok sn =>
      simp only [hl, bind_ok] at h ⊢
      cases hsl : sn.left with
      | none => simpa [hsl] using h
      | some a =>
        simp only [hsl] at h ⊢
        cases hsr : sn.right with
        | none => simpa [hsr] using h
        | some b =>
          simp only [hsr] at h ⊢
          cases he : eraseTwoChildren fuel s search with
          | error e => simp [he] at h
          | ok s1 =>
            rw [eraseTwoChildren_mono _ _ _ _ he]
            simpa [he] using h

theorem insert_mono_le {s s2 : BinarySearchTree K V} {k : K} {v : V} {fuel fuel2 : Nat}
    (hle : fuel ≤ fuel2) (h : insert fuel s k v = .ok s2) : insert fuel2 s k v = .ok s2 := by
  induction hle with
  | refl => exact h
  | step _ ih => exact insert_mono _ _ _ _ _ ih

theorem erase_mono_le {s s2 : BinarySearchTree K V} {k : K} {fuel fuel2 : Nat}
    (hle : fuel ≤ fuel2) (h : erase fuel s k = .ok s2) : erase fuel2 s k = .ok s2 := by
  induction hle with
  | refl => exact h
  | step _ ih => exact erase_mono _ _ _ _ ih

end Ord
open Shape

/-- The shape laid out below a given root pointer is determined by the store. -/
theorem Shape.laidOut_unique {m : Heap K V} : ∀ (t t2 : Shape K V) (par par2 : Ptr),
    t.laidOut m par → t2.laidOut m par2 → t.rootPtr = t2.rootPtr → t = t2 := by
  intro t
  induction t with
  | nil =>
    intro t2 _ _ _ _ h
    exact ((rootPtr_eq_none).mp h.symm).symm
  | node l a kv r ihl ihr =>
    intro t2 par par2 h1 h2 h
    cases t2 with
    | nil => simp at h
    | node l2 a2 kv2 r2 =>
      simp only [rootPtr_node, Option.some.injEq] at h
      subst h
      simp only [laidOut_node] at h1 h2
      have := h1.1.symm.trans h2.1
      simp only [Option.some.injEq, Node.mk.injEq] at this
      obtain ⟨rfl, -, hl, hr⟩ := this
      rw [ihl l2 _ _ h1.2.1 h2.2.1 hl, ihr r2 _ _ h1.2.2 h2.2.2 hr]

section Ord
variable [LinearOrder K]

theorem WF.unique {s : BinarySearchTree K V} {t t2 : Shape K V} (h : WF s t) (h2 : WF s t2) :
    t = t2 :=
  laidOut_unique t t2 none none h.2.1 h2.2.1 (h.1.symm.trans h2.1)

theorem WF.empty : WF (BinarySearchTree.empty : BinarySearchTree K V) Shape.nil :=
  ⟨rfl, trivial, List.nodup_nil, trivial, rfl⟩

/-- On a well-formed tree `erase` returns normally only if the key is present. -/
theorem erase_absent {s : BinarySearchTree K V} {t : Shape K V} (k : K) {fuel : Nat}
    (hwf : WF s t) (hk : k ∉ t.keys) (hfuel : t.size < fuel) :
    erase fuel s k = .error .nullDeref := by
  have hfind := findNode_spec k hwf hfuel
  have hnone : t.firstWithKey k = none := by
    simp only [firstWithKey, Option.map_eq_none']
    exact find_none_of_keys (fun x hx h => hk (h ▸ hx))
  simp [erase, hfind, hnone, load]

/-- Invariant of `insert` and `erase`: every reachable state is a well-formed tree. -/
theorem Reachable.wf {s : BinarySearchTree K V} (h : Reachable s) : ∃ t, WF s t := by
  induction h with
  | empty => exact ⟨Shape.nil, WF.empty⟩
  | @insert s s2 fuel k v _ hi ih =>
    obtain ⟨t, hwf⟩ := ih
    obtain ⟨s3, h3, hwf3, -⟩ := insert_spec k v hwf (Nat.lt_succ_of_le (Nat.le_max_right fuel t.size))
    have := insert_mono_le (Nat.le_succ_of_le (Nat.le_max_left fuel t.size)) hi
    rw [this] at h3
    simp only [Except.ok.injEq] at h3
    subst h3
    exact ⟨_, hwf3⟩
  | @erase s s2 fuel k _ he ih =>
    obtain ⟨t, hwf⟩ := ih
    have hbig := erase_mono_le (Nat.le_succ_of_le (Nat.le_max_left fuel t.size)) he
    by_cases hk : k ∈ t.keys
    · obtain ⟨s3, t3, h3, hwf3, -⟩ :=
        erase_spec k hwf hk (Nat.lt_succ_of_le (Nat.le_max_right fuel t.size))
      rw [hbig] at h3
      simp only [Except.ok.injEq] at h3
      subst h3
      exact ⟨_, hwf3⟩
    · rw [erase_absent k hwf hk (Nat.lt_succ_of_le (Nat.le_max_right fuel t.size))] at hbig
      simp at hbig

theorem Shape.pairwise_keys {t : Shape K V} (h : t.Ordered) : t.keys.Pairwise (· ≤ ·) := by
  induction t with
  | nil => simp
  | node l a kv r ihl ihr =>
    simp only [ordered_node] at h
    obtain ⟨hl, hr, hol, hor⟩ := h
    simp only [keys_node, List.pairwise_append, List.pairwise_cons, List.mem_cons]
    refine ⟨ihl hol, ⟨hr, ihr hor⟩, ?_⟩
    rintro x hx y (rfl | hy)
    · exact (hl x hx).le
    · exact (hl x hx).le.trans (hr y hy)

theorem begin_spec {s : BinarySearchTree K V} {t : Shape K V} {fuel : Nat}
    (hwf : WF s t) (hne : t ≠ nil) (hfuel : t.size < fuel) :
    begin fuel s = .ok t.addrs.head? := by
  have := leftmost_spec s.mem t fuel none hfuel hne hwf.2.1
  rw [begin, hwf.1]; exact this

theorem traverse_spec {s : BinarySearchTree K V} {t : Shape K V} {fuel : Nat}
    (hwf : WF s t) (hne : t ≠ nil) (hfuel : t.size < fuel) :
    traverse fuel s = .ok t.nodes := by
  have h1 := begin_spec hwf hne hfuel
  have h2 := traverseFrom_spec hwf.2.1 hwf.2.2.1 hfuel t.nodes [] fuel rfl
    (by rw [length_nodes]; exact hfuel)
  simp only [traverse, h1, bind_ok]
  rw [show t.addrs.head? = t.nodes.head?.map Prod.fst by simp [Shape.addrs, List.head?_map]]
  exact h2

end Ord
open Shape

theorem sampleTree_wf : WF sampleTree sampleShape := by decide

/-- The tree `sampleTree` is what six calls of `insert` on the empty tree produce. -/
theorem sampleTree_built :
    (do
      let s ← insert 1 (BinarySearchTree.empty : BinarySearchTree Nat Nat) 5 50
      let s ← insert 2 s 3 30
      let s ← insert 3 s 8 80
      let s ← insert 4 s 6 60
      let s ← insert 5 s 7 70
      insert 6 s 5 51) = .ok sampleTree := rfl

open Shape

theorem Shape.addrs_eraseP {t : Shape K V} {p : Nat × (K × V) → Bool} {e : Nat × (K × V)}
    (hnd : t.addrs.Nodup) (he : t.nodes.find? p = some e) :
    (t.nodes.eraseP p).map Prod.fst = t.addrs.erase e.1 := by
  obtain ⟨hpe, as, bs, hsplit, hnot⟩ := List.find?_eq_some.mp he
  have hnot2 : ∀ b ∈ as, ¬ p b = true := fun b hb => by simpa using hnot b hb
  rw [Shape.addrs, hsplit] at hnd ⊢
  rw [List.eraseP_append_right _ hnot2, List.eraseP_cons_of_pos hpe]
  simp only [List.map_append, List.map_cons, List.nodup_append, List.nodup_cons,
    List.Disjoint, List.mem_cons] at hnd ⊢
  rw [List.erase_append_right _ (fun h => hnd.2.2 h (Or.inl rfl)), List.erase_cons_head]

section Ord
variable [LinearOrder K]

/-- C1. On a well-formed tree that holds the key `k`, `erase(k)` returns normally; the
resulting tree is well formed, its in-order sequence of (key, value) pairs is the old
one with exactly the first entry of key `k` removed, the removed node is the one that
`find(k)` returns, every other node stays, and `size()` decreases by one. -/
theorem erase_removes_first_entry (s : BinarySearchTree K V) (t : Shape K V) (k : K)
    (fuel : Nat) (hwf : WF s t) (hk : k ∈ t.keys) (hfuel : s.size < fuel) :
    ∃ (s2 : BinarySearchTree K V) (t2 : Shape K V), erase fuel s k = .ok s2 ∧ WF s2 t2 ∧
      t2.inorder = t.inorder.eraseP (fun e => decide (e.1 = k)) ∧
      (∃ x, find fuel s k = .ok (some x) ∧ t2.addrs = t.addrs.erase x) ∧
      s2.size + 1 = s.size := by
  have hfuel2 : t.size < fuel := by rw [← hwf.2.2.2.2]; exact hfuel
  obtain ⟨s2, t2, h1, h2, h3, h4⟩ := erase_spec k hwf hk hfuel2
  refine ⟨s2, t2, h1, h2, ?_, ?_, h4⟩
  · rw [Shape.inorder, h3, Shape.inorder, List.eraseP_map]
    rfl
  · obtain ⟨e0, he0, hke0⟩ : ∃ e0 ∈ t.nodes, e0.2.1 = k := by
      simpa [Shape.keys] using hk
    have hsome : (t.nodes.find? (fun e => decide (e.2.1 = k))).isSome := by
      rw [List.find?_isSome]; exact ⟨e0, he0, by simpa using hke0⟩
    obtain ⟨e, he⟩ := Option.isSome_iff_exists.mp hsome
    refine ⟨e.1, ?_, ?_⟩
    · rw [find, findNode_spec k hwf hfuel2, firstWithKey, he]; rfl
    · rw [Shape.addrs, h3]
      exact addrs_eraseP hwf.2.2.1 he

/-- C2. On a well-formed tree `insert(k, v)` always returns normally; the resulting tree is
well formed, its in-order sequence is the old one with the single pair `(k, v)` placed
after every entry whose key is `≤ k` and before every entry whose key is `> k`, and
`size()` increases by one. -/
theorem insert_after_last_not_greater (s : BinarySearchTree K V) (t : Shape K V) (k : K) (v : V)
    (fuel : Nat) (hwf : WF s t) (hfuel : s.size < fuel) :
    ∃ (s2 : BinarySearchTree K V) (t2 : Shape K V), insert fuel s k v = .ok s2 ∧ WF s2 t2 ∧
      (∃ pre post, t.inorder = pre ++ post ∧ t2.inorder = pre ++ (k, v) :: post ∧
        (∀ e ∈ pre, e.1 ≤ k) ∧ (∀ e ∈ post, k < e.1)) ∧
      s2.size = s.size + 1 := by
  have hfuel2 : t.size < fuel := by rw [← hwf.2.2.2.2]; exact hfuel
  obtain ⟨s2, h1, h2, -⟩ := insert_spec k v hwf hfuel2
  obtain ⟨pre, post, h3, h4, h5, h6⟩ := nodes_insertRef s.mem.cells.length k v t hwf.2.2.2.1
  refine ⟨s2, _, h1, h2, ⟨pre.map Prod.snd, post.map Prod.snd, ?_, ?_, ?_, ?_⟩, ?_⟩
  · simp [Shape.inorder, h3]
  · simp [Shape.inorder, h4]
  · intro e he
    obtain ⟨e2, he2, rfl⟩ := List.mem_map.mp he
    exact h5 e2 he2
  · intro e he
    obtain ⟨e2, he2, rfl⟩ := List.mem_map.mp he
    exact h6 e2 he2
  · show s2._size = s._size + 1
    rw [h2.2.2.2.2, hwf.2.2.2.2, size_insertRef]

/-- C3. On a well-formed tree `find(k)` returns the position of the first entry, in
in-order, whose key is `k`; it returns the end iterator exactly when no entry has
key `k`. -/
theorem find_first_with_key (s : BinarySearchTree K V) (t : Shape K V) (k : K) (fuel : Nat)
    (hwf : WF s t) (hfuel : s.size < fuel) :
    find fuel s k = .ok ((t.nodes.find? (fun e => decide (e.2.1 = k))).map Prod.fst) ∧
      (find fuel s k = .ok («end» s) ↔ ∀ e ∈ t.inorder, e.1 ≠ k) := by
  have hfuel2 : t.size < fuel := by rw [← hwf.2.2.2.2]; exact hfuel
  have h := findNode_spec k hwf hfuel2
  refine ⟨h, ?_⟩
  rw [find, h, firstWithKey, «end»]
  simp only [Except.ok.injEq, Option.map_eq_none', List.find?_eq_none, decide_eq_true_eq,
    Shape.inorder, List.mem_map, ne_eq]
  constructor
  · rintro hx e ⟨e2, he2, rfl⟩
    exact hx e2 he2
  · intro hx e he
    exact hx e.2 ⟨e, he, rfl⟩

/-- C4. Every tree obtained from the empty tree by calls of `insert` and `erase` that
return normally satisfies the node-order invariant (keys of a left subtree strictly
below the key of the node, keys of a right subtree not below it); its in-order key
sequence is non-decreasing, and so is the key sequence that iteration from `begin()`
to `end()` produces. -/
theorem reachable_node_order (s : BinarySearchTree K V) (h : Reachable s) :
    ∃ t : Shape K V, WF s t ∧ t.Ordered ∧ (t.inorder.map Prod.fst).Pairwise (· ≤ ·) ∧
      ∀ fuel, s.size < fuel → s._root ≠ none →
        ∃ l, traverse fuel s = .ok l ∧ l.map Prod.snd = t.inorder ∧
          (l.map (fun e => e.2.1)).Pairwise (· ≤ ·) := by
  obtain ⟨t, hwf⟩ := h.wf
  have hp := pairwise_keys hwf.2.2.2.1
  refine ⟨t, hwf, hwf.2.2.2.1, ?_, ?_⟩
  · simpa [Shape.inorder, Shape.keys] using hp
  · intro fuel hfuel hroot
    have hne : t ≠ nil := fun h => hroot (by rw [hwf.1, h]; rfl)
    exact ⟨t.nodes, traverse_spec hwf hne (by rw [← hwf.2.2.2.2]; exact hfuel), rfl, hp⟩

/-- C5. In every tree obtained from the empty tree by calls of `insert` and `erase` that
return normally, `size()` is the number of nodes below the root, that is the length of
the in-order sequence and of the sequence that iteration produces; `size()` is zero
exactly when the root is absent. -/
theorem reachable_size_counts_nodes (s : BinarySearchTree K V) (h : Reachable s) :
    ∃ t : Shape K V, WF s t ∧ s.size = t.inorder.length ∧ (s.size = 0 ↔ s._root = none) ∧
      ∀ fuel, s.size < fuel → s._root ≠ none →
        ∃ l, traverse fuel s = .ok l ∧ l.length = s.size := by
  obtain ⟨t, hwf⟩ := h.wf
  have hsz : s.size = t.size := hwf.2.2.2.2
  refine ⟨t, hwf, by rw [length_inorder, hsz], ?_, ?_⟩
  · rw [show s.size = s._size from rfl, hwf.size_eq_zero_iff, hwf.1, rootPtr_eq_none]
  · intro fuel hfuel hroot
    have hne : t ≠ nil := fun h => hroot (by rw [hwf.1, h]; rfl)
    exact ⟨t.nodes, traverse_spec hwf hne (by rw [← hsz]; exact hfuel),
      by rw [length_nodes, hsz]⟩

/-- C6. On a non-empty well-formed tree `begin()` is the first node of the in-order
sequence; for every node the successor step `nextNode`, which only follows
`parent`, `left` and `right` links, yields the node that comes next in in-order, and the
absent node after the last one; iteration from `begin()` with `++` up to `end()` visits
exactly the in-order sequence, `size()` elements, each address once. -/
theorem iteration_follows_inorder (s : BinarySearchTree K V) (t : Shape K V) (fuel : Nat)
    (hwf : WF s t) (hne : s._root ≠ none) (hfuel : s.size < fuel) :
    begin fuel s = .ok t.addrs.head? ∧ t.addrs.head? ≠ none ∧
      (∀ A e B, t.nodes = A ++ e :: B →
        nextNode s.mem fuel (some e.1) = .ok (B.head?.map Prod.fst)) ∧
      traverse fuel s = .ok t.nodes ∧ t.nodes.map Prod.snd = t.inorder ∧
      t.nodes.length = s.size ∧ (t.nodes.map Prod.fst).Nodup := by
  have hfuel2 : t.size < fuel := by rw [← hwf.2.2.2.2]; exact hfuel
  have hne2 : t ≠ nil := fun h => hne (by rw [hwf.1, h]; rfl)
  refine ⟨begin_spec hwf hne2 hfuel2, ?_, fun A e B h =>
    nextNode_of_split hwf.2.1 hwf.2.2.1 hfuel2 h, traverse_spec hwf hne2 hfuel2, rfl, ?_,
    hwf.2.2.1⟩
  · cases t with
    | nil => exact absurd rfl hne2
    | node l a kv r => cases hl : l.addrs <;> simp [hl]
  · rw [length_nodes]; exact hwf.2.2.2.2.symm

end Ord
open Shape

theorem pairTree_reachable : Reachable pairTree :=
  Reachable.insert 2 5 "b"
    (@Reachable.insert Nat String _ BinarySearchTree.empty
      ⟨⟨[some ⟨(5, "a"), none, none, none⟩]⟩, 1, some 0⟩ 1 5 "a" Reachable.empty rfl) rfl

/-- Witness of C1: erasing the key 5 from `sampleTree`, whose root holds the first 5 and
has its successor two levels down. -/
theorem erase_removes_first_entry_witness :
    WF sampleTree sampleShape ∧ 5 ∈ sampleShape.keys ∧ sampleTree.size < 7 ∧
      ∃ (s2 : BinarySearchTree Nat Nat) (t2 : Shape Nat Nat),
        erase 7 sampleTree 5 = .ok s2 ∧ WF s2 t2 ∧
        t2.inorder = sampleShape.inorder.eraseP (fun e => decide (e.1 = 5)) ∧
        (∃ x, find 7 sampleTree 5 = .ok (some x) ∧ t2.addrs = sampleShape.addrs.erase x) ∧
        s2.size + 1 = sampleTree.size :=
  ⟨sampleTree_wf, by decide, by decide,
    erase_removes_first_entry sampleTree sampleShape 5 7 sampleTree_wf (by decide) (by decide)⟩

/-- Witness of C2: inserting a third entry of key 5 into `sampleTree`. -/
theorem insert_after_last_not_greater_witness :
    WF sampleTree sampleShape ∧ sampleTree.size < 7 ∧
      ∃ (s2 : BinarySearchTree Nat Nat) (t2 : Shape Nat Nat),
        insert 7 sampleTree 5 52 = .ok s2 ∧ WF s2 t2 ∧
        (∃ pre post, sampleShape.inorder = pre ++ post ∧ t2.inorder = pre ++ (5, 52) :: post ∧
          (∀ e ∈ pre, e.1 ≤ 5) ∧ (∀ e ∈ post, 5 < e.1)) ∧
        s2.size = sampleTree.size + 1 :=
  ⟨sampleTree_wf, by decide,
    insert_after_last_not_greater sampleTree sampleShape 5 52 7 sampleTree_wf (by decide)⟩

/-- Witness of C3: looking up the duplicated key 5 in `sampleTree`. -/
theorem find_first_with_key_witness :
    WF sampleTree sampleShape ∧ sampleTree.size < 7 ∧
      (find 7 sampleTree 5 =
          .ok ((sampleShape.nodes.find? (fun e => decide (e.2.1 = 5))).map Prod.fst) ∧
        (find 7 sampleTree 5 = .ok («end» sampleTree) ↔ ∀ e ∈ sampleShape.inorder, e.1 ≠ 5)) :=
  ⟨sampleTree_wf, by decide, find_first_with_key sampleTree sampleShape 5 7 sampleTree_wf (by decide)⟩

/-- Witness of C4: the tree reached by two insertions of the key 5. -/
theorem reachable_node_order_witness :
    Reachable pairTree ∧
      ∃ t : Shape Nat String, WF pairTree t ∧ t.Ordered ∧
        (t.inorder.map Prod.fst).Pairwise (· ≤ ·) ∧
        ∀ fuel, pairTree.size < fuel → pairTree._root ≠ none →
          ∃ l, traverse fuel pairTree = .ok l ∧ l.map Prod.snd = t.inorder ∧
            (l.map (fun e => e.2.1)).Pairwise (· ≤ ·) :=
  ⟨pairTree_reachable, reachable_node_order pairTree pairTree_reachable⟩

/-- Witness of C5: the tree reached by two insertions of the key 5. -/
theorem reachable_size_counts_nodes_witness :
    Reachable pairTree ∧
      ∃ t : Shape Nat String, WF pairTree t ∧ pairTree.size = t.inorder.length ∧
        (pairTree.size = 0 ↔ pairTree._root = none) ∧
        ∀ fuel, pairTree.size < fuel → pairTree._root ≠ none →
          ∃ l, traverse fuel pairTree = .ok l ∧ l.length = pairTree.size :=
  ⟨pairTree_reachable, reachable_size_counts_nodes pairTree pairTree_reachable⟩

/-- Witness of C6: iteration over `sampleTree`. -/
theorem iteration_follows_inorder_witness :
    WF sampleTree sampleShape ∧ sampleTree._root ≠ none ∧ sampleTree.size < 7 ∧
      (begin 7 sampleTree = .ok sampleShape.addrs.head? ∧ sampleShape.addrs.head? ≠ none ∧
        (∀ A e B, sampleShape.nodes = A ++ e :: B →
          nextNode sampleTree.mem 7 (some e.1) = .ok (B.head?.map Prod.fst)) ∧
        traverse 7 sampleTree = .ok sampleShape.nodes ∧
        sampleShape.nodes.map Prod.snd = sampleShape.inorder ∧
        sampleShape.nodes.length = sampleTree.size ∧
        (sampleShape.nodes.map Prod.fst).Nodup) :=
  ⟨sampleTree_wf, by decide, by decide,
    iteration_follows_inorder sampleTree sampleShape 7 sampleTree_wf (by decide) (by decide)⟩

/-- C7 (defect). `erase` of a key that the tree does not hold dereferences the null
pointer returned by `_findNode` (`search->left`) instead of failing with `NotFound`:
on the empty tree, and on `sampleTree` (keys 3, 5, 5, 6, 7, 8) with the key 4. -/
theorem erase_absent_key_null_deref :
    (∀ fuel, erase fuel (BinarySearchTree.empty : BinarySearchTree Nat Nat) 5
        = .error .nullDeref) ∧
      (∀ fuel, erase (fuel + 1) sampleTree 4 = .error .nullDeref) :=
  ⟨fun _ => rfl, fun _ => rfl⟩

/-- C8 (defect). After `insert(5, "a")` and `insert(5, "b")` on the empty tree `size()` is
2, but `equalRange(5)` does not return: its scan `while ((*end).first == (*begin).first)`
steps past the last node and dereferences the end iterator. -/
theorem equalRange_largest_key_null_deref :
    (do
        let s ← insert 1 (BinarySearchTree.empty : BinarySearchTree Nat String) 5 "a"
        insert 2 s 5 "b") = .ok pairTree ∧
      pairTree.size = 2 ∧
      (∀ fuel, find (fuel + 1) pairTree 5 = .ok (some 0)) ∧
      (∀ fuel, equalRange (fuel + 3) pairTree 5 = .error .nullDeref) :=
  ⟨rfl, rfl, fun _ => rfl, fun _ => rfl⟩

/-- C9 (defect). `equalRange` of a key that the tree does not hold dereferences the end
iterator returned by `find`: on the empty tree, and on `sampleTree` with the key 50
(larger than every key) and with the key 4 (between two keys). -/
theorem equalRange_absent_key_null_deref :
    (∀ fuel, equalRange (fuel + 1) (BinarySearchTree.empty : BinarySearchTree Nat Nat) 50
        = .error .nullDeref) ∧
      (∀ fuel, equalRange (fuel + 2) sampleTree 50 = .error .nullDeref) ∧
      (∀ fuel, equalRange (fuel + 1) sampleTree 4 = .error .nullDeref) :=
  ⟨fun _ => rfl, fun _ => rfl, fun _ => rfl⟩

/-- C10 (defect). `min(k)` and `max(k)` start with `equalRange(k)`; for the largest key of
the tree (8 in `sampleTree`, a key held by one entry only) that call dereferences the end
iterator, whatever the comparison of iterators is taken to be. -/
theorem min_max_largest_key_null_deref :
    (∀ (itLt : Ptr → Ptr → Bool) (fuel : Nat),
        min itLt (fuel + 2) sampleTree 8 = .error .nullDeref) ∧
      (∀ (itLt : Ptr → Ptr → Bool) (fuel : Nat),
        max itLt (fuel + 2) sampleTree 8 = .error .nullDeref) :=
  ⟨fun _ _ => rfl, fun _ _ => rfl⟩

open Shape

/-! ## Live cells: what `insert` and `erase` allocate and delete -/

theorem bind_eq_ok {ε α β : Type} {x : Except ε α} {f : α → Except ε β} {b : β}
    (h : (x >>= f) = .ok b) : ∃ a, x = .ok a ∧ f a = .ok b := by
  cases x with
  | error e => simp at h
  | ok a => exact ⟨a, rfl, by simpa using h⟩

theorem SameLive.refl (m : Heap K V) : SameLive m m := fun _ => rfl

theorem SameLive.trans {m m2 m3 : Heap K V} (h1 : SameLive m m2) (h2 : SameLive m2 m3) :
    SameLive m m3 := fun z => (h2 z).trans (h1 z)

theorem update_sameLive {m m2 : Heap K V} {p : Ptr} {f : Node K V → Node K V}
    (h : update m p f = .ok m2) : SameLive m m2 := by
  intro z
  cases p with
  | none => simp [update] at h
  | some a =>
    simp only [update] at h
    cases hr : m.read a with
    | none => simp [hr] at h
    | some n =>
      simp only [hr, Except.ok.injEq] at h
      subst h
      by_cases hz : a = z
      · subst hz; rw [read_write_same _ (read_lt hr), hr]; rfl
      · rw [read_write_ne _ hz]

theorem shiftNodes_tail_sameLive {y s2 : BinarySearchTree K V} {node1 node2 : Ptr}
    (h : (match node2 with
      | none => (pure y : Except Fault (BinarySearchTree K V))
      | some b => do
        let n1 ← load y.mem node1
        let m2 ← setParent y.mem (some b) n1.parent
        pure ⟨m2, y._size, y._root⟩) = .ok s2) : SameLive y.mem s2.mem := by
  cases node2 with
  | none =>
    simp only [pure_eq_ok, Except.ok.injEq] at h
    subst h; exact SameLive.refl _
  | some b =>
    simp only at h
    obtain ⟨n1b, -, h⟩ := bind_eq_ok h
    obtain ⟨m2, hm2, h⟩ := bind_eq_ok h
    simp only [pure_eq_ok, Except.ok.injEq] at h
    subst h; exact update_sameLive hm2

theorem shiftNodes_sameLive {s s2 : BinarySearchTree K V} {node1 node2 : Ptr}
    (h : _shiftNodes s node1 node2 = .ok s2) : SameLive s.mem s2.mem := by
  simp only [_shiftNodes] at h
  obtain ⟨n1, -, h⟩ := bind_eq_ok h
  cases hp : n1.parent with
  | none =>
    simp only [hp, pure_eq_ok, bind_ok] at h
    exact shiftNodes_tail_sameLive (y := ⟨s.mem, s._size, node2⟩) h
  | some p =>
    simp only [hp] at h
    obtain ⟨pn, -, h⟩ := bind_eq_ok h
    by_cases hc : pn.left = node1
    · simp only [hc, if_true] at h
      obtain ⟨m1, hm1, h⟩ := bind_eq_ok h
      simp only [pure_eq_ok, bind_ok] at h
      exact (update_sameLive hm1).trans
        (shiftNodes_tail_sameLive (y := ⟨m1, s._size, s._root⟩) h)
    · simp only [hc, if_false] at h
      obtain ⟨m1, hm1, h⟩ := bind_eq_ok h
      simp only [pure_eq_ok, bind_ok] at h
      exact (update_sameLive hm1).trans
        (shiftNodes_tail_sameLive (y := ⟨m1, s._size, s._root⟩) h)

theorem eraseDetach_sameLive {s s2 : BinarySearchTree K V} {search replace : Ptr}
    (h : eraseDetach s search replace = .ok s2) : SameLive s.mem s2.mem := by
  simp only [eraseDetach] at h
  obtain ⟨rn, -, h⟩ := bind_eq_ok h
  obtain ⟨s3, hs3, h⟩ := bind_eq_ok h
  obtain ⟨sn, -, h⟩ := bind_eq_ok h
  obtain ⟨m4, hm4, h⟩ := bind_eq_ok h
  obtain ⟨rn4, -, h⟩ := bind_eq_ok h
  obtain ⟨m5, hm5, h⟩ := bind_eq_ok h
  simp only [pure_eq_ok, Except.ok.injEq] at h
  subst h
  exact (shiftNodes_sameLive hs3).trans ((update_sameLive hm4).trans (update_sameLive hm5))

theorem erasePromote_sameLive {s s2 : BinarySearchTree K V} {search replace : Ptr}
    (h : erasePromote s search replace = .ok s2) : SameLive s.mem s2.mem := by
  simp only [erasePromote] at h
  obtain ⟨s6, hs6, h⟩ := bind_eq_ok h
  obtain ⟨sn, -, h⟩ := bind_eq_ok h
  obtain ⟨m7, hm7, h⟩ := bind_eq_ok h
  obtain ⟨rn7, -, h⟩ := bind_eq_ok h
  obtain ⟨m8, hm8, h⟩ := bind_eq_ok h
  simp only [pure_eq_ok, Except.ok.injEq] at h
  subst h
  exact (shiftNodes_sameLive hs6).trans ((update_sameLive hm7).trans (update_sameLive hm8))

theorem eraseTwoChildren_sameLive {s s2 : BinarySearchTree K V} {search : Ptr} {fuel : Nat}
    (h : eraseTwoChildren fuel s search = .ok s2) : SameLive s.mem s2.mem := by
  simp only [eraseTwoChildren] at h
  obtain ⟨replace, -, h⟩ := bind_eq_ok h
  obtain ⟨rn, -, h⟩ := bind_eq_ok h
  by_cases hc : rn.parent ≠ search
  · rw [if_pos hc] at h
    obtain ⟨s1, hs1, h⟩ := bind_eq_ok h
    exact (eraseDetach_sameLive hs1).trans (erasePromote_sameLive h)
  · rw [if_neg hc] at h
    simp only [pure_eq_ok, bind_ok] at h
    exact erasePromote_sameLive h

section Ord
variable [LinearOrder K]

/-- The only effect of `erase` on the set of live cells is the `delete` of the node that
`_findNode` returned. -/
theorem erase_live {s s2 : BinarySearchTree K V} {k : K} {fuel : Nat}
    (h : erase fuel s k = .ok s2) :
    ∃ x, _findNode fuel s k = .ok (some x) ∧ s2.mem.read x = none ∧
      ∀ z, z ≠ x → (s2.mem.read z).isSome = (s.mem.read z).isSome := by
  simp only [erase] at h
  obtain ⟨search, hsearch, h⟩ := bind_eq_ok h
  obtain ⟨sn, hsn, h⟩ := bind_eq_ok h
  cases search with
  | none => simp [load] at hsn
  | some x =>
    have key : ∀ s1 : BinarySearchTree K V, SameLive s.mem s1.mem →
        (pure ⟨s1.mem.free x, decSize s1._size, s1._root⟩ :
          Except Fault (BinarySearchTree K V)) = .ok s2 →
        s2.mem.read x = none ∧
          ∀ z, z ≠ x → (s2.mem.read z).isSome = (s.mem.read z).isSome := by
      intro s1 h1 h
      simp only [pure_eq_ok, Except.ok.injEq] at h
      subst h
      refine ⟨read_free_same _ _, fun z hz => ?_⟩
      rw [read_free_ne (Ne.symm hz)]
      exact h1 z
    refine ⟨x, hsearch, ?_⟩
    cases hl : sn.left with
    | none =>
      simp only [hl] at h
      obtain ⟨s1, hs1, h⟩ := bind_eq_ok h
      exact key s1 (shiftNodes_sameLive hs1) h
    | some a =>
      simp only [hl] at h
      cases hr : sn.right with
      | none =>
        simp only [hr] at h
        obtain ⟨s1, hs1, h⟩ := bind_eq_ok h
        exact key s1 (shiftNodes_sameLive hs1) h
      | some b =>
        simp only [hr] at h
        obtain ⟨s1, hs1, h⟩ := bind_eq_ok h
        exact key s1 (eraseTwoChildren_sameLive hs1) h

end Ord

open Shape

theorem read_ge {m : Heap K V} {a : Nat} (h : m.cells.length ≤ a) : m.read a = none := by
  unfold Heap.read
  rw [List.get?_eq_none.mpr h]
  rfl

theorem alloc_liveGrown (m : Heap K V) (n : Node K V) : LiveGrown m (m.alloc n).1 := by
  intro z
  rcases Nat.lt_trichotomy z m.cells.length with h | h | h
  · rw [read_alloc_old _ h]; simp [h.ne]
  · subst h; rw [read_alloc_new]; simp
  · rw [read_ge (by rw [length_alloc]; omega), read_ge (Nat.le_of_lt h)]
    simp [h.ne']

theorem LiveGrown.sameLive {m m1 m2 : Heap K V} (h1 : LiveGrown m m1) (h2 : SameLive m1 m2) :
    LiveGrown m m2 := fun z => (h2 z).trans (h1 z)

section Ord
variable [LinearOrder K]

theorem insertSecondIf_live {m m2 : Heap K V} {k : K} {v : V} {search : Ptr}
    (h : insertSecondIf m k v search = .ok (.done m2)) : LiveGrown m m2 := by
  simp only [insertSecondIf] at h
  obtain ⟨n, -, h⟩ := bind_eq_ok h
  by_cases hc : k < n.keyValuePair.1
  · rw [if_pos hc] at h
    cases hl : n.left with
    | none =>
      simp only [hl] at h
      obtain ⟨m3, hm3, h⟩ := bind_eq_ok h
      simp only [pure_eq_ok, Except.ok.injEq, Flow.done.injEq] at h
      subst h
      exact (alloc_liveGrown m _).sameLive (update_sameLive hm3)
    | some l => simp [hl] at h
  · rw [if_neg hc] at h
    simp at h

theorem insertStep_live {m m2 : Heap K V} {k : K} {v : V} {search : Ptr}
    (h : insertStep m k v search = .ok (.done m2)) : LiveGrown m m2 := by
  simp only [insertStep] at h
  obtain ⟨n, -, h⟩ := bind_eq_ok h
  by_cases hc : k ≥ n.keyValuePair.1
  · rw [if_pos hc] at h
    cases hr : n.right with
    | none =>
      simp only [hr] at h
      obtain ⟨m3, hm3, h⟩ := bind_eq_ok h
      simp only [pure_eq_ok, Except.ok.injEq, Flow.done.injEq] at h
      subst h
      exact (alloc_liveGrown m _).sameLive (update_sameLive hm3)
    | some r =>
      simp only [hr] at h
      exact insertSecondIf_live h
  · rw [if_neg hc] at h
    exact insertSecondIf_live h

theorem insertLoop_live (k : K) (v : V) : ∀ (fuel : Nat) (m m2 : Heap K V) (p : Ptr),
    insertLoop k v fuel m p = .ok m2 → LiveGrown m m2 := by
  intro fuel
  induction fuel with
  | zero => intro m m2 p h; simp [insertLoop] at h
  | succ fuel ih =>
    intro m m2 p h
    rw [insertLoop] at h
    obtain ⟨fl, hfl, h⟩ := bind_eq_ok h
    cases fl with
    | done q =>
      simp only [pure_eq_ok, Except.ok.injEq] at h
      subst h
      exact insertStep_live hfl
    | next q => exact ih _ _ _ h

/-- The only effect of `insert` on the set of live cells is the allocation of one cell. -/
theorem insert_live {s s2 : BinarySearchTree K V} {k : K} {v : V} {fuel : Nat}
    (h : insert fuel s k v = .ok s2) : LiveGrown s.mem s2.mem := by
  simp only [insert] at h
  by_cases h0 : s._size = 0
  · rw [if_pos h0] at h
    simp only [pure_eq_ok, Except.ok.injEq] at h
    subst h
    exact alloc_liveGrown _ _
  · rw [if_neg h0] at h
    obtain ⟨m2, hm2, h⟩ := bind_eq_ok h
    simp only [pure_eq_ok, Except.ok.injEq] at h
    subst h
    exact insertLoop_live k v fuel _ _ _ hm2

end Ord

open Shape

theorem Ctx.rootOr_mem {c : Ctx K V} (hc : c ≠ Ctx.top) :
    ∃ b ∈ c.addrs, ∀ h : Ptr, c.rootOr h = some b := by
  induction c with
  | top => exact absurd rfl hc
  | left a kv r up ih =>
    by_cases hu : up = Ctx.top
    · subst hu; exact ⟨a, by simp [Ctx.addrs], fun _ => rfl⟩
    · obtain ⟨b, hb, h⟩ := ih hu
      exact ⟨b, by simp [Ctx.addrs, hb], fun _ => h _⟩
  | right l a kv up ih =>
    by_cases hu : up = Ctx.top
    · subst hu; exact ⟨a, by simp [Ctx.addrs], fun _ => rfl⟩
    · obtain ⟨b, hb, h⟩ := ih hu
      exact ⟨b, by simp [Ctx.addrs, hb], fun _ => h _⟩

/-- Links of one node of a shape laid out below the root pointer `root`: its children
point back to it, the node its parent link names holds it as a child, and its parent
link is null exactly when it is the root. -/
theorem Shape.links_of_mem {m : Heap K V} {t : Shape K V} {a : Nat} {n : Node K V}
    (hlay : t.laidOut m none) (hnd : t.addrs.Nodup) (ha : a ∈ t.addrs) (hn : m.read a = some n) :
    (∀ b, n.left = some b → ∃ nb, m.read b = some nb ∧ nb.parent = some a) ∧
      (∀ b, n.right = some b → ∃ nb, m.read b = some nb ∧ nb.parent = some a) ∧
      (∀ p, n.parent = some p → p ∈ t.addrs ∧
        ∃ np, m.read p = some np ∧ (np.left = some a ∨ np.right = some a)) ∧
      (n.parent = none ↔ t.rootPtr = some a) := by
  obtain ⟨c, l, kv, r, rfl⟩ := exists_fill_of_mem_addrs t a ha
  rw [Ctx.laidOut_fill] at hlay
  obtain ⟨hc, hx, hl, hr⟩ := hlay
  rw [Ctx.nodup_fill] at hnd
  have hac : a ∉ c.addrs := hnd.2.2 a (by simp)
  rw [hx] at hn
  simp only [Option.some.injEq] at hn
  subst hn
  refine ⟨fun b hb => read_rootPtr hl hb, fun b hb => read_rootPtr hr hb, ?_, ?_⟩
  · intro p hp
    simp only at hp
    refine ⟨(Ctx.mem_addrs_fill _ _ _).mpr (Or.inr (Ctx.parent_mem_addrs hp)), ?_⟩
    cases c with
    | top => simp [Ctx.parent] at hp
    | left b kvb rb up =>
      simp only [Ctx.parent, Option.some.injEq] at hp
      subst hp
      exact ⟨_, hc.1, Or.inl rfl⟩
    | right lb b kvb up =>
      simp only [Ctx.parent, Option.some.injEq] at hp
      subst hp
      exact ⟨_, hc.1, Or.inr rfl⟩
  · simp only [Ctx.rootPtr_fill, rootPtr_node]
    constructor
    · intro h
      rw [Ctx.parent_eq_none.mp h]; rfl
    · intro h
      by_cases hct : c = Ctx.top
      · rw [hct]; rfl
      · obtain ⟨b, hb, hb2⟩ := Ctx.rootOr_mem hct
        rw [hb2] at h
        simp only [Option.some.injEq] at h
        subst h
        exact absurd hb hac

section Ord
variable [LinearOrder K]

/-- Variant of the effect of `erase` that names the removed cell. -/
theorem erase_spec_addrs {s : BinarySearchTree K V} {t : Shape K V} (k : K) {fuel : Nat}
    (hwf : WF s t) (hk : k ∈ t.keys) (hfuel : t.size < fuel) :
    ∃ (s2 : BinarySearchTree K V) (t2 : Shape K V) (x : Nat), erase fuel s k = .ok s2 ∧
      WF s2 t2 ∧ _findNode fuel s k = .ok (some x) ∧ t2.addrs = t.addrs.erase x ∧
      t2.nodes = t.nodes.eraseP (fun e => decide (e.2.1 = k)) := by
  obtain ⟨s2, t2, h1, h2, h3, -⟩ := erase_spec k hwf hk hfuel
  obtain ⟨e0, he0, hke0⟩ : ∃ e0 ∈ t.nodes, e0.2.1 = k := by
    simpa [Shape.keys] using hk
  have hsome : (t.nodes.find? (fun e => decide (e.2.1 = k))).isSome := by
    rw [List.find?_isSome]; exact ⟨e0, he0, by simpa using hke0⟩
  obtain ⟨e, he⟩ := Option.isSome_iff_exists.mp hsome
  refine ⟨s2, t2, e.1, h1, h2, ?_, ?_, h3⟩
  · rw [findNode_spec k hwf hfuel, firstWithKey, he]; rfl
  · rw [Shape.addrs, h3]
    exact addrs_eraseP hwf.2.2.1 he

/-- In a reachable state the live cells of the store are exactly the nodes of the tree. -/
theorem Reachable.live {s : BinarySearchTree K V} (h : Reachable s) :
    ∃ t : Shape K V, WF s t ∧ ∀ a, (s.mem.read a).isSome = true ↔ a ∈ t.addrs := by
  induction h with
  | empty =>
    refine ⟨Shape.nil, WF.empty, fun a => ?_⟩
    simp [BinarySearchTree.empty, Heap.read]
  | @insert s s2 fuel k v _ hi ih =>
    obtain ⟨t, hwf, hlive⟩ := ih
    obtain ⟨s3, h3, hwf3, -⟩ :=
      insert_spec k v hwf (Nat.lt_succ_of_le (Nat.le_max_right fuel t.size))
    have := insert_mono_le (Nat.le_succ_of_le (Nat.le_max_left fuel t.size)) hi
    rw [this] at h3
    simp only [Except.ok.injEq] at h3
    subst h3
    refine ⟨_, hwf3, fun a => ?_⟩
    rw [insert_live hi a, mem_addrs_insertRef, Bool.or_eq_true, hlive a, decide_eq_true_eq]
    tauto
  | @erase s s2 fuel k _ he ih =>
    obtain ⟨t, hwf, hlive⟩ := ih
    have hbig := erase_mono_le (Nat.le_succ_of_le (Nat.le_max_left fuel t.size)) he
    by_cases hk : k ∈ t.keys
    · obtain ⟨s3, t3, x, h3, hwf3, hx, haddrs, -⟩ :=
        erase_spec_addrs k hwf hk (Nat.lt_succ_of_le (Nat.le_max_right fuel t.size))
      rw [hbig] at h3
      simp only [Except.ok.injEq] at h3
      subst h3
      obtain ⟨x2, hx2, hdead, hsame⟩ := erase_live hbig
      rw [hx] at hx2
      simp only [Except.ok.injEq, Option.some.injEq] at hx2
      subst hx2
      refine ⟨t3, hwf3, fun a => ?_⟩
      rw [haddrs, hwf.2.2.1.mem_erase_iff]
      by_cases hax : a = x
      · subst hax; simp [hdead]
      · rw [hsame a hax, hlive a]; simp [hax]
    · rw [erase_absent k hwf hk (Nat.lt_succ_of_le (Nat.le_max_right fuel t.size))] at hbig
      simp at hbig

end Ord

open Shape

theorem Shape.length_keys (t : Shape K V) : t.keys.length = t.size := by
  simp [Shape.keys, length_nodes]

theorem Shape.eq_nil_of_keys {t : Shape K V} (h : t.keys = []) : t = nil := by
  cases t with
  | nil => rfl
  | node l a kv r => simp at h

section Ord
variable [LinearOrder K]

theorem map_key_eraseP (k : K) : ∀ l : List (Nat × (K × V)),
    (l.eraseP (fun e => decide (e.2.1 = k))).map (fun e => e.2.1) =
      (l.map (fun e => e.2.1)).erase k := by
  intro l
  induction l with
  | nil => rfl
  | cons e l ih =>
    by_cases h : e.2.1 = k
    · rw [List.eraseP_cons_of_pos (by simpa using h)]
      simp [h]
    · rw [List.eraseP_cons_of_neg (by simpa using h), List.map_cons, List.map_cons, ih,
        List.erase_cons_tail (by simpa using h)]

theorem Shape.keys_insertRef_perm (a : Nat) (k : K) (v : V) (t : Shape K V) (h : t.Ordered) :
    (t.insertRef a k v).keys.Perm (k :: t.keys) := by
  obtain ⟨pre, post, h1, h2, -, -⟩ := nodes_insertRef a k v t h
  simp only [Shape.keys, h1, h2, List.map_append, List.map_cons]
  exact List.perm_middle

/-- A run of `insert` calls on a well-formed tree returns normally and adds the keys. -/
theorem insertAll_spec (fuel : Nat) : ∀ (l : List (K × V)) (s : BinarySearchTree K V)
    (t : Shape K V), WF s t → t.size + l.length ≤ fuel →
    ∃ (s1 : BinarySearchTree K V) (t1 : Shape K V), insertAll fuel s l = .ok s1 ∧ WF s1 t1 ∧
      t1.keys.Perm (t.keys ++ l.map Prod.fst) ∧ t1.size = t.size + l.length := by
  intro l
  induction l with
  | nil =>
    intro s t hwf _
    exact ⟨s, t, rfl, hwf, by simp, by simp⟩
  | cons kv l ih =>
    intro s t hwf hfuel
    simp only [List.length_cons] at hfuel
    obtain ⟨s2, h2, hwf2, -⟩ := insert_spec kv.1 kv.2 hwf (by omega : t.size < fuel)
    obtain ⟨s1, t1, h1, hwf1, hperm, hsz⟩ := ih s2 _ hwf2
      (by rw [size_insertRef]; omega)
    refine ⟨s1, t1, by simp only [insertAll, h2, bind_ok, h1], hwf1, ?_, ?_⟩
    · refine hperm.trans ?_
      have := keys_insertRef_perm s.mem.cells.length kv.1 kv.2 t hwf.2.2.2.1
      refine (List.Perm.append_right _ this).trans ?_
      simp only [List.map_cons, List.cons_append]
      exact List.perm_middle.symm
    · rw [hsz, size_insertRef, List.length_cons]; omega

/-- Erasing, in any order, the keys that a well-formed tree holds returns normally at
every step and leaves the empty tree. -/
theorem eraseAll_spec (fuel : Nat) : ∀ (ks : List K) (s : BinarySearchTree K V) (t : Shape K V),
    WF s t → ks.Perm t.keys → t.size < fuel →
    ∃ s2 : BinarySearchTree K V, eraseAll fuel s ks = .ok s2 ∧ WF s2 Shape.nil := by
  intro ks
  induction ks with
  | nil =>
    intro s t hwf hperm _
    have : t = nil := eq_nil_of_keys (List.Perm.nil_eq hperm).symm
    subst this
    exact ⟨s, rfl, hwf⟩
  | cons k ks ih =>
    intro s t hwf hperm hfuel
    have hk : k ∈ t.keys := hperm.subset (List.mem_cons_self _ _)
    obtain ⟨s2, t2, h2, hwf2, hnodes, hsz⟩ := erase_spec k hwf hk hfuel
    have hkeys : t2.keys = t.keys.erase k := by
      rw [Shape.keys, hnodes, map_key_eraseP]; rfl
    have hperm2 : ks.Perm t2.keys := by
      rw [hkeys]
      have := hperm.erase k
      simpa using this
    have hsz2 : t2.size < fuel := by
      have h1 := hwf2.2.2.2.2
      have h0 := hwf.2.2.2.2
      omega
    obtain ⟨s3, h3, hwf3⟩ := ih s2 t2 hwf2 hperm2 hsz2
    exact ⟨s3, by simp only [eraseAll, h2, bind_ok, h3], hwf3⟩

end Ord

open Shape

section Ord
variable [LinearOrder K]

/-- Link consistency of a reachable state: every live cell is a node of the tree below
`_root`, and the links of each node agree with those of its neighbours. -/
theorem Reachable.links {s : BinarySearchTree K V} (h : Reachable s) :
    ∃ t : Shape K V, WF s t ∧ ∀ a n, s.mem.read a = some n →
      a ∈ t.addrs ∧
      (∀ b, n.left = some b → ∃ nb, s.mem.read b = some nb ∧ nb.parent = some a) ∧
      (∀ b, n.right = some b → ∃ nb, s.mem.read b = some nb ∧ nb.parent = some a) ∧
      (∀ p, n.parent = some p →
        ∃ np, s.mem.read p = some np ∧ (np.left = some a ∨ np.right = some a)) ∧
      (n.parent = none ↔ s._root = some a) := by
  obtain ⟨t, hwf, hlive⟩ := h.live
  refine ⟨t, hwf, fun a n hn => ?_⟩
  have ha : a ∈ t.addrs := (hlive a).mp (by rw [hn]; rfl)
  obtain ⟨h1, h2, h3, h4⟩ := links_of_mem hwf.2.1 hwf.2.2.1 ha hn
  exact ⟨ha, h1, h2, fun p hp => (h3 p hp).2, by rw [hwf.1]; exact h4⟩

/-- C13. For every list of pairs inserted one by one into the empty tree and every order
in which the inserted keys are then erased one by one, every call returns normally
and the result is the empty tree: `size()` is 0 and the root is absent. -/
theorem insert_then_erase_all_empties (l : List (K × V)) (ks : List K) (fuel : Nat)
    (hperm : ks.Perm (l.map Prod.fst)) (hfuel : l.length < fuel) :
    ∃ s1 s2 : BinarySearchTree K V,
      insertAll fuel BinarySearchTree.empty l = .ok s1 ∧ s1.size = l.length ∧
      eraseAll fuel s1 ks = .ok s2 ∧ s2.size = 0 ∧ s2._root = none := by
  obtain ⟨s1, t1, h1, hwf1, hp1, hsz1⟩ :=
    insertAll_spec fuel l BinarySearchTree.empty Shape.nil WF.empty
      (by simp only [size_nil]; omega)
  simp only [keys_nil, List.nil_append, size_nil, Nat.zero_add] at hp1 hsz1
  obtain ⟨s2, h2, hwf2⟩ := eraseAll_spec fuel ks s1 t1 hwf1 (hperm.trans hp1.symm)
    (by omega)
  exact ⟨s1, s2, h1, hwf1.2.2.2.2.trans hsz1, h2, hwf2.2.2.2.2, hwf2.1⟩

/-- C20. In every tree obtained from the empty tree by calls of `insert` and `erase` that
return normally the links are consistent: every live node is a node of the tree below
the root, each child that a node names has its parent link pointing back to that node,
the node that a parent link names holds the node as a child, and exactly the root has an
absent parent; after an `erase` the removed node is dead and no remaining node has a
parent, left or right link that refers to it. -/
theorem reachable_links_consistent (s : BinarySearchTree K V) (h : Reachable s) :
    (∃ t : Shape K V, WF s t ∧ ∀ a n, s.mem.read a = some n →
      a ∈ t.addrs ∧
      (∀ b, n.left = some b → ∃ nb, s.mem.read b = some nb ∧ nb.parent = some a) ∧
      (∀ b, n.right = some b → ∃ nb, s.mem.read b = some nb ∧ nb.parent = some a) ∧
      (∀ p, n.parent = some p →
        ∃ np, s.mem.read p = some np ∧ (np.left = some a ∨ np.right = some a)) ∧
      (n.parent = none ↔ s._root = some a)) ∧
    ∀ (fuel : Nat) (k : K) (s2 : BinarySearchTree K V), erase fuel s k = .ok s2 →
      ∃ x, find fuel s k = .ok (some x) ∧ s2.mem.read x = none ∧
        ∀ a n, s2.mem.read a = some n →
          n.parent ≠ some x ∧ n.left ≠ some x ∧ n.right ≠ some x := by
  refine ⟨h.links, fun fuel k s2 he => ?_⟩
  obtain ⟨x, hfind, hdead, -⟩ := erase_live he
  obtain ⟨t2, -, hl2⟩ := (Reachable.erase fuel k h he).links
  refine ⟨x, hfind, hdead, fun a n hn => ?_⟩
  obtain ⟨-, h1, h2, h3, -⟩ := hl2 a n hn
  refine ⟨fun hp => ?_, fun hp => ?_, fun hp => ?_⟩
  · obtain ⟨np, hnp, -⟩ := h3 x hp
    rw [hdead] at hnp; simp at hnp
  · obtain ⟨nb, hnb, -⟩ := h1 x hp
    rw [hdead] at hnb; simp at hnb
  · obtain ⟨nb, hnb, -⟩ := h2 x hp
    rw [hdead] at hnb; simp at hnb

end Ord

/-- Witness of C13: four pairs, two of them with the key 5, erased in another order. -/
theorem insert_then_erase_all_empties_witness :
    [5, 8, 5, 3].Perm (([(5, 50), (3, 30), (8, 80), (5, 51)] : List (Nat × Nat)).map Prod.fst) ∧
      ([(5, 50), (3, 30), (8, 80), (5, 51)] : List (Nat × Nat)).length < 5 ∧
      ∃ s1 s2 : BinarySearchTree Nat Nat,
        insertAll 5 BinarySearchTree.empty [(5, 50), (3, 30), (8, 80), (5, 51)] = .ok s1 ∧
        s1.size = ([(5, 50), (3, 30), (8, 80), (5, 51)] : List (Nat × Nat)).length ∧
        eraseAll 5 s1 [5, 8, 5, 3] = .ok s2 ∧ s2.size = 0 ∧ s2._root = none :=
  ⟨by decide, by decide,
    insert_then_erase_all_empties [(5, 50), (3, 30), (8, 80), (5, 51)] [5, 8, 5, 3] 5
      (by decide) (by decide)⟩

/-- Witness of C20: the tree reached by two insertions of the key 5. -/
theorem reachable_links_consistent_witness :
    Reachable pairTree ∧
      ((∃ t : Shape Nat String, WF pairTree t ∧ ∀ a n, pairTree.mem.read a = some n →
        a ∈ t.addrs ∧
        (∀ b, n.left = some b → ∃ nb, pairTree.mem.read b = some nb ∧ nb.parent = some a) ∧
        (∀ b, n.right = some b → ∃ nb, pairTree.mem.read b = some nb ∧ nb.parent = some a) ∧
        (∀ p, n.parent = some p →
          ∃ np, pairTree.mem.read p = some np ∧ (np.left = some a ∨ np.right = some a)) ∧
        (n.parent = none ↔ pairTree._root = some a)) ∧
      ∀ (fuel : Nat) (k : Nat) (s2 : BinarySearchTree Nat String),
        erase fuel pairTree k = .ok s2 →
        ∃ x, find fuel pairTree k = .ok (some x) ∧ s2.mem.read x = none ∧
          ∀ a n, s2.mem.read a = some n →
            n.parent ≠ some x ∧ n.left ≠ some x ∧ n.right ≠ some x) :=
  ⟨pairTree_reachable, reachable_links_consistent pairTree pairTree_reachable⟩

/-- C11 (defect). `min(k)` and `max(k)` for a key that the tree does not hold do not fail
with `NotFound`: they call `equalRange(k)`, which dereferences the end iterator returned
by `find`; on `sampleTree` (keys 3, 5, 5, 6, 7, 8) with the key 50 and on the empty tree,
whatever the comparison of iterators is taken to be. -/
theorem min_max_absent_key_null_deref :
    (∀ (itLt : Ptr → Ptr → Bool) (fuel : Nat),
        min itLt (fuel + 2) sampleTree 50 = .error .nullDeref ∧
        max itLt (fuel + 2) sampleTree 50 = .error .nullDeref) ∧
      (∀ (itLt : Ptr → Ptr → Bool) (fuel : Nat),
        min itLt (fuel + 1) (BinarySearchTree.empty : BinarySearchTree Nat Nat) 50
          = .error .nullDeref ∧
        max itLt (fuel + 1) (BinarySearchTree.empty : BinarySearchTree Nat Nat) 50
          = .error .nullDeref) :=
  ⟨fun _ _ => ⟨rfl, rfl⟩, fun _ _ => ⟨rfl, rfl⟩⟩

/-- C12 (defect). On the empty tree `begin()` and `cbegin()` do not return the end iterator:
their loop `while (search->left)` starts at the null `_root` and dereferences it. -/
theorem begin_empty_null_deref :
    (∀ fuel, begin (fuel + 1) (BinarySearchTree.empty : BinarySearchTree Nat Nat)
        = .error .nullDeref) ∧
      (∀ fuel, cbegin (fuel + 1) (BinarySearchTree.empty : BinarySearchTree Nat Nat)
        = .error .nullDeref) ∧
      «end» (BinarySearchTree.empty : BinarySearchTree Nat Nat) = none ∧
      cend (BinarySearchTree.empty : BinarySearchTree Nat Nat) = none :=
  ⟨fun _ => rfl, fun _ => rfl, rfl, rfl⟩

/-- C14 (defect). Copy construction from the empty tree does not yield an empty copy: the
range-based `for` starts with `other.begin()`, which dereferences the null root.  From
the non-empty `sampleTree` the copy has the same size and in-order sequence, in fresh
cells, and the source is still laid out as before. -/
theorem copy_of_empty_null_deref :
    (∀ fuel, copyConstruct (fuel + 1) (BinarySearchTree.empty : BinarySearchTree Nat Nat)
        = .error .nullDeref) ∧
      ∃ c : BinarySearchTree Nat Nat, copyConstruct 7 sampleTree = .ok c ∧ c.size = 6 ∧
        (traverse 7 c).map (List.map Prod.snd) = .ok sampleShape.inorder ∧
        traverse 7 ⟨c.mem, sampleTree._size, sampleTree._root⟩ = .ok sampleShape.nodes :=
  ⟨fun _ => rfl, _, rfl, rfl, rfl, rfl⟩

/-- C15 (defect). The move constructor copies root and size into the new object but leaves
the source as it was: after the move the source still has its root and its size, so
every node is reachable from both objects (on `sampleTree`: root cell 0, size 6). -/
theorem move_leaves_source_unchanged :
    (∀ other : BinarySearchTree Nat Nat,
        (moveConstruct other).1._root = other._root ∧
        (moveConstruct other).1.size = other.size ∧ (moveConstruct other).2 = other) ∧
      (moveConstruct sampleTree).2._root = some 0 ∧ (moveConstruct sampleTree).2.size = 6 ∧
      (moveConstruct sampleTree).1._root = (moveConstruct sampleTree).2._root :=
  ⟨fun _ => ⟨rfl, rfl, rfl⟩, rfl, rfl, rfl⟩

/-- C16 (defect). `Map::insert` of a key that the map does not hold dereferences the end
iterator returned by `find` in its test `if (*it)`; the first `insert(3, "x")` on the
empty map already does so, whatever the conversion of a pair to `bool` is taken to be. -/
theorem map_insert_absent_key_null_deref :
    ∀ (truthy : Nat × String → Bool) (fuel : Nat),
      Map.find fuel (Map.empty : Map Nat String) 3 = .ok none ∧
      Map.insert truthy fuel (Map.empty : Map Nat String) 3 "x" = .error .nullDeref :=
  fun _ _ => ⟨rfl, rfl⟩

/-- C17 (defect). `Set::contains` returns `true` on the empty set, although `find` returns
the end iterator there: `find` signals absence by its result, never by an exception,
so the `catch` branch that returns `false` is never taken. -/
theorem set_contains_true_on_empty :
    ∀ (fuel x : Nat),
      Set.find fuel (Set.empty : Set Nat) x = .ok none ∧
      Set.contains fuel (Set.empty : Set Nat) x = .ok true :=
  fun _ _ => ⟨rfl, rfl⟩

/-- C18. Scenario A, the driver `main`: after the ten insertions and `erase(90)` the
iteration from `begin()` to `end()` yields the keys 1, 2, 9, 27, 66, 66, 76, 83, 93 with
the values Cat, Dog, stride, powder, sleeve, fossil, blade, fight, carbon, and
`size()` is 9. -/
theorem main_prints_scenario_a :
    ∀ fuel, main (fuel + 10) = .ok [(1, "Cat"), (2, "Dog"), (9, "stride"), (27, "powder"),
        (66, "sleeve"), (66, "fossil"), (76, "blade"), (83, "fight"), (93, "carbon")] ∧
      (mainTree (fuel + 10)).map BinarySearchTree.size = .ok 9 :=
  fun _ => ⟨rfl, rfl⟩

/-- C19 (defect). `erase(5)` on the tree holding `(5, "a")` and `(5, "b")` removes only the
first entry: afterwards `find(5)` still returns a node and `size()` is 1, not 0, whereas
the header comment on `erase` says that all elements with the key are deleted. -/
theorem erase_keeps_other_duplicates :
    pairTree.size = 2 ∧
      ∀ fuel, erase (fuel + 1) pairTree 5 =
          .ok ⟨⟨[none, some ⟨(5, "b"), none, none, none⟩]⟩, 1, some 1⟩ ∧
        find (fuel + 1) (⟨⟨[none, some ⟨(5, "b"), none, none, none⟩]⟩, 1, some 1⟩ :
          BinarySearchTree Nat String) 5 = .ok (some 1) :=
  ⟨rfl, fun _ => ⟨rfl, rfl⟩⟩
open Shape

theorem rightmost_spec (m : Heap K V) : ∀ (t : Shape K V) (fuel : Nat) (par : Ptr),
    t.size < fuel → t ≠ nil → t.laidOut m par →
    rightmost m fuel t.rootPtr = .ok t.addrs.getLast? := by
  intro t
  induction t with
  | nil => intro _ _ _ h; exact absurd rfl h
  | node l b kv r _ ihr =>
    intro fuel par hsz _ hlay
    simp only [laidOut_node] at hlay
    simp only [size_node] at hsz
    match fuel, hsz with
    | fuel + 1, hsz =>
      simp only [rightmost, rootPtr_node, load_some hlay.1, bind_ok]
      match r, hlay, ihr, hsz with
      | nil, _, _, _ => simp
      | node rl c kv2 rr, hlay, ihr, hsz =>
        simp only [rootPtr_node]
        have := ihr fuel (some b) (by omega) (by simp) hlay.2.2
        simp only [rootPtr_node] at this
        rw [this]
        have h2 : (node l b kv (node rl c kv2 rr)).addrs =
            (l.addrs ++ [b]) ++ (node rl c kv2 rr).addrs := by simp
        rw [h2, List.getLast?_append_of_ne_nil _ (by simp)]

theorem climbFromLeft_spec (m : Heap K V) : ∀ (c : Ctx K V) (fuel a : Nat) (n : Node K V),
    m.read a = some n → n.parent = c.parent → c.laidOut m (some a) → a ∉ c.addrs →
    c.addrs.Nodup → c.depth < fuel →
    climbFromLeft m fuel (some a) = .ok (c.before.getLast?.map Prod.fst) := by
  intro c
  induction c with
  | top =>
    intro fuel a n hn hpar _ _ _ hfuel
    match fuel, hfuel with
    | fuel + 1, _ =>
      simp only [Ctx.parent] at hpar
      simp [climbFromLeft, load_some hn, hpar, Ctx.before]
  | right l b kv up _ =>
    intro fuel a n hn hpar hc ha hnd hfuel
    match fuel, hfuel with
    | fuel + 1, _ =>
      simp only [Ctx.parent] at hpar
      simp only [Ctx.laidOut] at hc
      simp only [Ctx.addrs, List.mem_cons, List.mem_append, not_or] at ha
      have hne : ¬ l.rootPtr = some a := fun h => ha.2.1 (rootPtr_mem_addrs h)
      simp [climbFromLeft, load_some hn, hpar, load_some hc.1, hne, Ctx.before,
        List.getLast?_append]
  | left b kv r up ih =>
    intro fuel a n hn hpar hc ha hnd hfuel
    match fuel, hfuel with
    | fuel + 1, hfuel =>
      simp only [Ctx.parent] at hpar
      simp only [Ctx.laidOut] at hc
      simp only [Ctx.addrs, List.nodup_cons, List.mem_append, not_or, List.nodup_append] at hnd
      simp only [Ctx.depth] at hfuel
      simp only [climbFromLeft, load_some hn, hpar, bind_ok, load_some hc.1, if_true, Ctx.before]
      exact ih fuel b _ hc.1 rfl hc.2.2 hnd.1.2 hnd.2.2.1 (by omega)

/-- Predecessor step at the node `x` of a laid-out shape: the node that precedes `x` in
in-order, the null pointer when `x` is the first one. -/
theorem lastNode_fill {m : Heap K V} {c : Ctx K V} {l r : Shape K V} {x : Nat} {kv : K × V}
    {fuel : Nat} (hlay : (c.fill (node l x kv r)).laidOut m none)
    (hnd : (c.fill (node l x kv r)).addrs.Nodup) (hfuel : (c.fill (node l x kv r)).size < fuel) :
    lastNode m fuel (some x) = .ok ((c.before ++ l.nodes).getLast?.map Prod.fst) := by
  have hdepth := Ctx.size_le_fill c (node l x kv r)
  have hsize := Ctx.size_fill c (node l x kv r)
  simp only [size_node] at hsize
  rw [Ctx.laidOut_fill] at hlay
  obtain ⟨hc, hx, hl, hr⟩ := hlay
  rw [Ctx.nodup_fill] at hnd
  obtain ⟨-, hndc, hdis⟩ := hnd
  cases l with
  | nil =>
    simp only [lastNode, load_some hx, bind_ok, rootPtr_nil, nodes_nil, List.append_nil]
    exact climbFromLeft_spec m c fuel x _ hx rfl hc (hdis x (by simp)) hndc (by omega)
  | node ll lb lkv lr =>
    have := rightmost_spec m (node ll lb lkv lr) fuel (some x) (by omega) (by simp) hl
    simp only [lastNode, load_some hx, bind_ok, rootPtr_node] at this ⊢
    rw [this]
    have hgen : ∀ (L L2 : List (Nat × (K × V))), L ≠ [] →
        (L.map Prod.fst).getLast? = (L2 ++ L).getLast?.map Prod.fst := by
      intro L L2 h
      rw [List.getLast?_append_of_ne_nil _ h, List.getLast?_map]
    exact congrArg Except.ok (hgen _ _ (by simp))

/-- Predecessor step in terms of the in-order sequence alone. -/
theorem lastNode_of_split {m : Heap K V} {t : Shape K V} {fuel : Nat}
    (hlay : t.laidOut m none) (hnd : t.addrs.Nodup) (hfuel : t.size < fuel)
    {A B : List (Nat × (K × V))} {e : Nat × (K × V)} (hsplit : t.nodes = A ++ e :: B) :
    lastNode m fuel (some e.1) = .ok (A.getLast?.map Prod.fst) := by
  have hmem : e.1 ∈ t.addrs := by rw [Shape.addrs, hsplit]; simp
  obtain ⟨c, l, kv, r, rfl⟩ := exists_fill_of_mem_addrs t e.1 hmem
  have hn : (c.fill (node l e.1 kv r)).nodes =
      (c.before ++ l.nodes) ++ (e.1, kv) :: (r.nodes ++ c.after) := by
    simp [Ctx.nodes_fill]
  obtain ⟨hA, -, -⟩ := split_unique A (c.before ++ l.nodes) B (r.nodes ++ c.after) e (e.1, kv)
    (by rw [← hsplit]; exact hnd) (by rw [← hsplit]; exact hn) rfl
  rw [hA]
  exact lastNode_fill hlay hnd hfuel

section Ord
variable [LinearOrder K]

/-- C21. On a well-formed tree the predecessor step `lastNode` (iterator `--`) mirrors
the successor step `nextNode`: at every node it returns the node that comes
immediately before it in the in-order sequence, and the absent node at the first one;
hence `lastNode` after `nextNode` gives back every node that is not the last one, and
`nextNode` after `lastNode` gives back every node that is not the first one. -/
theorem lastNode_mirrors_nextNode (s : BinarySearchTree K V) (t : Shape K V) (fuel : Nat)
    (hwf : WF s t) (hfuel : s.size < fuel) :
    (∀ A e B, t.nodes = A ++ e :: B →
        lastNode s.mem fuel (some e.1) = .ok (A.getLast?.map Prod.fst)) ∧
      (∀ B e, t.nodes = [] ++ e :: B → lastNode s.mem fuel (some e.1) = .ok none) ∧
      (∀ A e e2 B, t.nodes = A ++ e :: e2 :: B →
        (nextNode s.mem fuel (some e.1) >>= lastNode s.mem fuel) = .ok (some e.1)) ∧
      (∀ A e0 e B, t.nodes = A ++ e0 :: e :: B →
        (lastNode s.mem fuel (some e.1) >>= nextNode s.mem fuel) = .ok (some e.1)) := by
  have hfuel2 : t.size < fuel := by rw [← hwf.2.2.2.2]; exact hfuel
  refine ⟨fun A e B h => lastNode_of_split hwf.2.1 hwf.2.2.1 hfuel2 h,
    fun B e h => lastNode_of_split hwf.2.1 hwf.2.2.1 hfuel2 h, ?_, ?_⟩
  · intro A e e2 B h
    rw [nextNode_of_split hwf.2.1 hwf.2.2.1 hfuel2 h]
    have h2 : t.nodes = (A ++ [e]) ++ e2 :: B := by simp [h]
    have := lastNode_of_split hwf.2.1 hwf.2.2.1 hfuel2 h2
    simpa using this
  · intro A e0 e B h
    have h2 : t.nodes = (A ++ [e0]) ++ e :: B := by simp [h]
    rw [lastNode_of_split hwf.2.1 hwf.2.2.1 hfuel2 h2]
    have := nextNode_of_split hwf.2.1 hwf.2.2.1 hfuel2 h
    simpa using this

end Ord

/-- Witness of C21: the predecessor step on `sampleTree`, whose in-order sequence of
addresses is 1, 0, 5, 3, 4, 2. -/
theorem lastNode_mirrors_nextNode_witness :
    WF sampleTree sampleShape ∧ sampleTree.size < 7 ∧
      (∀ A e B, sampleShape.nodes = A ++ e :: B →
        lastNode sampleTree.mem 7 (some e.1) = .ok (A.getLast?.map Prod.fst)) ∧
      (∀ B e, sampleShape.nodes = [] ++ e :: B →
        lastNode sampleTree.mem 7 (some e.1) = .ok none) ∧
      (∀ A e e2 B, sampleShape.nodes = A ++ e :: e2 :: B →
        (nextNode sampleTree.mem 7 (some e.1) >>= lastNode sampleTree.mem 7)
          = .ok (some e.1)) ∧
      (∀ A e0 e B, sampleShape.nodes = A ++ e0 :: e :: B →
        (lastNode sampleTree.mem 7 (some e.1) >>= nextNode sampleTree.mem 7)
          = .ok (some e.1)) :=
  ⟨sampleTree_wf, by decide,
    lastNode_mirrors_nextNode sampleTree sampleShape 7 sampleTree_wf (by decide)⟩

/-- The predecessor step evaluated at every node of `sampleTree`: in-order the addresses
are 1, 0, 5, 3, 4, 2, and `--` at the absent node stays at the absent node. -/
theorem lastNode_sampleTree :
    lastNode sampleTree.mem 7 (some 1) = .ok none ∧
      lastNode sampleTree.mem 7 (some 0) = .ok (some 1) ∧
      lastNode sampleTree.mem 7 (some 5) = .ok (some 0) ∧
      lastNode sampleTree.mem 7 (some 3) = .ok (some 5) ∧
      lastNode sampleTree.mem 7 (some 4) = .ok (some 3) ∧
      lastNode sampleTree.mem 7 (some 2) = .ok (some 4) ∧
      lastNode sampleTree.mem 7 none = .ok none :=
  ⟨rfl, rfl, rfl, rfl, rfl, rfl, rfl⟩
open Shape

/-- The cells of a shape are determined by its layout: two stores that lay out the same
shape below the same parent agree on its cells. -/
theorem Shape.read_eq_of_laidOut {m m2 : Heap K V} : ∀ (t : Shape K V) (par : Ptr),
    t.laidOut m par → t.laidOut m2 par → ∀ z ∈ t.addrs, m2.read z = m.read z := by
  intro t
  induction t with
  | nil => intro _ _ _ z hz; simp at hz
  | node l b kv r ihl ihr =>
    intro par h1 h2 z hz
    simp only [laidOut_node] at h1 h2
    simp only [addrs_node, List.mem_append, List.mem_cons] at hz
    rcases hz with hz | rfl | hz
    · exact ihl _ h1.2.1 h2.2.1 z hz
    · rw [h1.1, h2.1]
    · exact ihr _ h1.2.2 h2.2.2 z hz

section Ord
variable [LinearOrder K]

/-- The store that lays out the result of the reference descent differs from the store
of the original shape exactly at the slot that the descent finds: the new leaf has the
slot's node as its parent, and that node's child link on the slot's side, empty before,
points to the new leaf. -/
theorem Shape.slot_of_insertRef (k : K) (v : V) (m m2 : Heap K V) (a : Nat) :
    ∀ (t : Shape K V) (par : Ptr), t ≠ nil → t.laidOut m par →
      (t.insertRef a k v).laidOut m2 par →
      ∃ (p : Nat) (side : Side) (np : Node K V), t.slotRef k = some (p, side) ∧
        p ∈ t.addrs ∧ m.read p = some np ∧
        (side = Side.left → np.left = none ∧ m2.read p = some { np with left := some a }) ∧
        (side = Side.right → np.right = none ∧ m2.read p = some { np with right := some a }) ∧
        m2.read a = some ⟨(k, v), some p, none, none⟩ ∧
        ∀ z ∈ t.addrs, z ≠ p → m2.read z = m.read z := by
  intro t
  induction t with
  | nil => intro _ h; exact absurd rfl h
  | node l b kv r ihl ihr =>
    intro par _ h1 h2
    simp only [laidOut_node] at h1
    by_cases hk : k ≥ kv.1
    · simp only [insertRef, hk, if_true, laidOut_node] at h2
      cases r with
      | nil =>
        simp only [insertRef, laidOut_node, rootPtr_node, rootPtr_nil, laidOut_nil,
          and_true] at h2 h1
        refine ⟨b, Side.right, _, by simp [slotRef, hk], by simp, h1.1,
          (fun h => nomatch h), fun _ => ⟨rfl, h2.1⟩, h2.2.2, ?_⟩
        intro z hz hzb
        simp only [addrs_node, addrs_nil, List.mem_append, List.mem_cons,
          List.not_mem_nil, or_false] at hz
        rcases hz with hz | hz
        · exact read_eq_of_laidOut l _ h1.2 h2.2.1 z hz
        · exact absurd hz hzb
      | node rl c kv2 rr =>
        obtain ⟨p, side, np, hs, hp, hr, hL, hR, ha, hfr⟩ :=
          ihr (some b) (by simp) h1.2.2 h2.2.2
        refine ⟨p, side, np, by simpa [slotRef, hk] using hs, by
          simp only [addrs_node, List.mem_append, List.mem_cons] at hp ⊢; tauto,
          hr, hL, hR, ha, ?_⟩
        intro z hz hzp
        rw [addrs_node] at hz
        simp only [List.mem_append, List.mem_cons] at hz
        rcases hz with hz | rfl | hz
        · exact read_eq_of_laidOut l _ h1.2.1 h2.2.1 z hz
        · rw [h1.1, h2.1, rootPtr_insertRef _ _ _ (by simp)]
        · exact hfr z hz hzp
    · simp only [insertRef, hk, if_false, laidOut_node] at h2
      cases l with
      | nil =>
        simp only [insertRef, laidOut_node, rootPtr_node, rootPtr_nil, laidOut_nil,
          true_and] at h2 h1
        refine ⟨b, Side.left, _, by simp [slotRef, hk], by simp, h1.1,
          fun _ => ⟨rfl, h2.1⟩, (fun h => nomatch h), h2.2.1.1, ?_⟩
        intro z hz hzb
        simp only [addrs_node, addrs_nil, List.mem_append, List.mem_cons,
          List.not_mem_nil, false_or] at hz
        rcases hz with hz | hz
        · exact absurd hz hzb
        · exact read_eq_of_laidOut r _ h1.2 h2.2.2 z hz
      | node ll c kv2 lr =>
        obtain ⟨p, side, np, hs, hp, hr, hL, hR, ha, hfr⟩ :=
          ihl (some b) (by simp) h1.2.1 h2.2.1
        refine ⟨p, side, np, by simpa [slotRef, hk] using hs, by
          simp only [addrs_node, List.mem_append, List.mem_cons] at hp ⊢; tauto,
          hr, hL, hR, ha, ?_⟩
        intro z hz hzp
        rw [addrs_node] at hz
        simp only [List.mem_append, List.mem_cons] at hz
        rcases hz with hz | rfl | hz
        · exact hfr z hz hzp
        · rw [h1.1, h2.1, rootPtr_insertRef _ _ _ (by simp)]
        · exact read_eq_of_laidOut r _ h1.2.2 h2.2.2 z hz

/-- C22. On a non-empty well-formed tree the loop of `insert`, whose two tests are
separate `if`s, returns for every key as soon as the fuel exceeds the size, and does what
the reference descent "go right if `key >= node.key`, else go left, until an empty slot
is found" prescribes: the new cell, allocated at the end of the store, has the node of
the slot found by that descent as its parent; that node's child link on the side of the
slot, empty before, points to the new cell; no other cell and not the root pointer
change; and the store lays out the shape produced by the reference descent. -/
theorem insert_loop_follows_reference_descent (s : BinarySearchTree K V) (t : Shape K V)
    (k : K) (v : V) (fuel : Nat) (hwf : WF s t) (hne : s._root ≠ none)
    (hfuel : s.size < fuel) :
    ∃ (s2 : BinarySearchTree K V) (p : Nat) (side : Side) (np : Node K V),
      insert fuel s k v = .ok s2 ∧
      insertLoop k v fuel s.mem s._root = .ok s2.mem ∧
      t.slotRef k = some (p, side) ∧
      s.mem.read p = some np ∧
      (side = Side.left → np.left = none ∧
        s2.mem.read p = some { np with left := some s.mem.cells.length }) ∧
      (side = Side.right → np.right = none ∧
        s2.mem.read p = some { np with right := some s.mem.cells.length }) ∧
      s2.mem.read s.mem.cells.length = some ⟨(k, v), some p, none, none⟩ ∧
      (∀ z, z ≠ p → z ≠ s.mem.cells.length → s2.mem.read z = s.mem.read z) ∧
      s2._root = s._root ∧
      WF s2 (t.insertRef s.mem.cells.length k v) := by
  have hfuel2 : t.size < fuel := by rw [← hwf.2.2.2.2]; exact hfuel
  have hne2 : t ≠ nil := fun h => hne (by rw [hwf.1, h]; rfl)
  obtain ⟨s2, hins, hwf2, -⟩ := insert_spec k v hwf hfuel2
  obtain ⟨hroot, hlay, hnd, hord, hsz⟩ := hwf
  have hs0 : s._size ≠ 0 := by
    rw [hsz]; cases t with
    | nil => exact absurd rfl hne2
    | node l b kv r => simp
  obtain ⟨m2, hm2, hl2, hlen, hframe⟩ := insertLoop_spec k v s.mem fuel t none hfuel2 hne2 hlay hnd
  rw [← hroot] at hm2
  have hins2 : insert fuel s k v = .ok ⟨m2, s._size + 1, s._root⟩ := by
    simp only [insert, hs0, if_false, hm2, bind_ok, pure_eq_ok]
  rw [hins2, Except.ok.injEq] at hins
  subst hins
  obtain ⟨p, side, np, hs, hp, hr, hL, hR, ha, hfr⟩ :=
    slot_of_insertRef k v s.mem m2 s.mem.cells.length t none hne2 hlay hl2
  refine ⟨_, p, side, np, hins2, hm2, hs, hr, hL, hR, ha, ?_, rfl, hwf2⟩
  intro z hzp hza
  by_cases hz : z ∈ t.addrs
  · exact hfr z hz hzp
  · rcases Nat.lt_or_ge z s.mem.cells.length with h | h
    · exact hframe z h hz
    · rw [read_ge h, read_ge (by rw [hlen]; omega)]

end Ord

/-- Witness of C22: inserting a third entry of key 5 into `sampleTree`; the descent
goes right at the root (5), left at 8, left at 6 and finds the empty right slot of the
second 5, stored at address 5. -/
theorem insert_loop_follows_reference_descent_witness :
    WF sampleTree sampleShape ∧ sampleTree._root ≠ none ∧ sampleTree.size < 7 ∧
      sampleShape.slotRef 5 = some (5, Side.right) ∧
      ∃ (s2 : BinarySearchTree Nat Nat) (p : Nat) (side : Side) (np : Node Nat Nat),
        insert 7 sampleTree 5 52 = .ok s2 ∧
        insertLoop 5 52 7 sampleTree.mem sampleTree._root = .ok s2.mem ∧
        sampleShape.slotRef 5 = some (p, side) ∧
        sampleTree.mem.read p = some np ∧
        (side = Side.left → np.left = none ∧
          s2.mem.read p = some { np with left := some sampleTree.mem.cells.length }) ∧
        (side = Side.right → np.right = none ∧
          s2.mem.read p = some { np with right := some sampleTree.mem.cells.length }) ∧
        s2.mem.read sampleTree.mem.cells.length = some ⟨(5, 52), some p, none, none⟩ ∧
        (∀ z, z ≠ p → z ≠ sampleTree.mem.cells.length →
          s2.mem.read z = sampleTree.mem.read z) ∧
        s2._root = sampleTree._root ∧
        WF s2 (sampleShape.insertRef sampleTree.mem.cells.length 5 52) :=
  ⟨sampleTree_wf, by decide, by decide, by decide,
    insert_loop_follows_reference_descent sampleTree sampleShape 5 52 7 sampleTree_wf
      (by decide) (by decide)⟩
open Shape

section Ord
variable [LinearOrder K]

/-- The scan of `equalRange`, started at a node whose key is at least `k` while `first`
holds the key `k`, stops at the first node from there on whose key is greater than `k`,
provided there is one. -/
theorem equalRangeLoop_spec {m : Heap K V} {t : Shape K V} {fuel : Nat}
    (hlay : t.laidOut m none) (hnd : t.addrs.Nodup) (hfuel : t.size < fuel) (k : K)
    (first : Nat) (nf : Node K V) (hf : m.read first = some nf) (hfk : nf.keyValuePair.1 = k) :
    ∀ (B A : List (Nat × (K × V))) (e : Nat × (K × V)) (n : Nat), t.nodes = A ++ e :: B →
      ((e :: B).map (fun x => x.2.1)).Pairwise (· ≤ ·) → k ≤ e.2.1 →
      (∃ g ∈ e :: B, k < g.2.1) → B.length < n →
      equalRangeLoop m fuel (some first) n (some e.1)
        = .ok (((e :: B).find? (fun x => decide (k < x.2.1))).map Prod.fst) := by
  intro B
  induction B with
  | nil =>
    intro A e n hsplit _ hke hg hn
    obtain ⟨g, hgm, hgk⟩ := hg
    simp only [List.mem_singleton] at hgm
    subst hgm
    obtain ⟨ne, hne, hnek⟩ := read_of_mem_nodes hlay g (by rw [hsplit]; simp)
    match n, hn with
    | n + 1, _ =>
      have hneq : ¬ ne.keyValuePair.1 = nf.keyValuePair.1 := by
        rw [hnek, hfk]; exact fun h => absurd hgk (by rw [h]; exact lt_irrefl _)
      simp [equalRangeLoop, load_some hne, load_some hf, hneq, hgk]
  | cons e2 B2 ih =>
    intro A e n hsplit hs hke hg hn
    obtain ⟨ne, hne, hnek⟩ := read_of_mem_nodes hlay e (by rw [hsplit]; simp)
    match n, hn with
    | n + 1, hn =>
      by_cases hek : e.2.1 = k
      · have heq : ne.keyValuePair.1 = nf.keyValuePair.1 := by rw [hnek, hfk, hek]
        have hnext := nextNode_of_split hlay hnd hfuel hsplit
        have hnext : nextNode m fuel (some e.1) = .ok (some e2.1) := hnext
        have hsplit2 : t.nodes = (A ++ [e]) ++ e2 :: B2 := by simp [hsplit]
        have hs2 := hs
        simp only [List.map_cons, List.pairwise_cons] at hs2
        have hke2 : k ≤ e2.2.1 := by
          rw [← hek]; exact hs2.1 _ (by simp)
        have hg2 : ∃ g ∈ e2 :: B2, k < g.2.1 := by
          obtain ⟨g, hgm, hgk⟩ := hg
          rcases List.mem_cons.mp hgm with rfl | hgm
          · exact absurd hgk (by rw [hek]; exact lt_irrefl _)
          · exact ⟨g, hgm, hgk⟩
        have := ih (A ++ [e]) e2 n hsplit2
          (by simp only [List.map_cons, List.pairwise_cons]; exact hs2.2) hke2 hg2
          (by simp only [List.length_cons] at hn; omega)
        have hnot : ¬ k < e.2.1 := by rw [hek]; exact lt_irrefl _
        rw [List.find?_cons_of_neg _ (by simpa using hnot)]
        simp only [equalRangeLoop, load_some hne, load_some hf, bind_ok, heq, if_true, hnext,
          this]
      · have hlt : k < e.2.1 := lt_of_le_of_ne hke (Ne.symm hek)
        have hneq : ¬ ne.keyValuePair.1 = nf.keyValuePair.1 := by rw [hnek, hfk]; exact hek
        simp [equalRangeLoop, load_some hne, load_some hf, hneq, hlt]

/-- C23. On a well-formed tree that holds the key `k` and also a key strictly greater
than `k`, `equalRange(k)` returns normally for every fuel above the size, so its scan
never dereferences the absent position; it returns two present nodes `(first, last)`:
`first` is the first node in in-order with key `k`, `last` is the first node in in-order
with a key greater than `k`; the in-order sequence is the keys less than `k`, then the
run of keys equal to `k` that starts at `first`, then `last`. -/
theorem equalRange_with_greater_key (s : BinarySearchTree K V) (t : Shape K V) (k : K)
    (fuel : Nat) (hwf : WF s t) (hk : k ∈ t.keys) (hg : ∃ g ∈ t.keys, k < g)
    (hfuel : s.size < fuel) :
    ∃ (x y : Nat), equalRange fuel s k = .ok (some x, some y) ∧
      t.firstWithKey k = some x ∧ t.firstGreater k = some y ∧
      ∃ (A R : List (Nat × (K × V))) (g : Nat × (K × V)) (B : List (Nat × (K × V))),
        t.nodes = A ++ R ++ g :: B ∧ (∀ e ∈ A, e.2.1 < k) ∧ (∀ e ∈ R, e.2.1 = k) ∧
        k < g.2.1 ∧ R.head?.map Prod.fst = some x ∧ g.1 = y := by
  have hfuel2 : t.size < fuel := by rw [← hwf.2.2.2.2]; exact hfuel
  have hfindk := findNode_spec k hwf hfuel2
  obtain ⟨hroot, hlay, hnd, hord, hsz⟩ := hwf
  have hsorted : (t.nodes.map (fun e => e.2.1)).Pairwise (· ≤ ·) := pairwise_keys hord
  -- the first entry with key `k`
  have hk2 : ∃ e ∈ t.nodes, e.2.1 = k := by
    simpa [Shape.keys] using hk
  have hsome : (t.nodes.find? (fun e => decide (e.2.1 = k))).isSome = true := by
    rw [List.find?_isSome]
    obtain ⟨e, he, hek⟩ := hk2
    exact ⟨e, he, by simpa using hek⟩
  obtain ⟨e0, hfind⟩ := Option.isSome_iff_exists.mp hsome
  obtain ⟨hp, A, B, hsplit, hA⟩ := List.find?_eq_some.mp hfind
  have hek : e0.2.1 = k := by simpa using hp
  rw [hsplit, List.map_append, List.pairwise_append] at hsorted
  obtain ⟨-, hsB, hAB⟩ := hsorted
  have hAlt : ∀ e ∈ A, e.2.1 < k := by
    intro e he
    have h1 : e.2.1 ≤ k := by
      rw [← hek]
      exact hAB _ (List.mem_map_of_mem _ he) _ (by simp)
    have h2 : e.2.1 ≠ k := by simpa using hA e he
    exact lt_of_le_of_ne h1 h2
  have hgB : ∃ g ∈ e0 :: B, k < g.2.1 := by
    obtain ⟨g, hgm, hgk⟩ := hg
    have : ∃ e ∈ t.nodes, e.2.1 = g := by simpa [Shape.keys] using hgm
    obtain ⟨e, he, heg⟩ := this
    rw [hsplit, List.mem_append] at he
    rcases he with he | he
    · exact absurd (hAlt e he) (by rw [heg]; exact not_lt.mpr (le_of_lt hgk))
    · exact ⟨e, he, by rw [heg]; exact hgk⟩
  obtain ⟨nf, hf, hnf⟩ := read_of_mem_nodes hlay e0 (by rw [hsplit]; simp)
  have hlen : B.length < fuel := by
    have := length_nodes t
    rw [hsplit] at this
    simp only [List.length_append, List.length_cons] at this
    omega
  have hloop := equalRangeLoop_spec hlay hnd hfuel2 k e0.1 nf hf (by rw [hnf, hek]) B A e0 fuel
    hsplit hsB (le_of_eq hek.symm) hgB hlen
  -- the first entry with a key greater than `k`
  have hsome2 : ((e0 :: B).find? (fun e => decide (k < e.2.1))).isSome = true := by
    rw [List.find?_isSome]
    obtain ⟨g, hgm, hgk⟩ := hgB
    exact ⟨g, hgm, by simpa using hgk⟩
  obtain ⟨g0, hfind2⟩ := Option.isSome_iff_exists.mp hsome2
  obtain ⟨hp2, R, B2, hsplit2, hR⟩ := List.find?_eq_some.mp hfind2
  have hg0 : k < g0.2.1 := by simpa using hp2
  have hfirst : t.firstWithKey k = some e0.1 := by
    simp only [firstWithKey, hfind]; rfl
  have hgreater : t.firstGreater k = some g0.1 := by
    have hnone : A.find? (fun e => decide (k < e.2.1)) = none := by
      rw [List.find?_eq_none]
      intro e he
      simpa using le_of_lt (hAlt e he)
    simp only [firstGreater, hsplit, List.find?_append, hnone, Option.none_or, hfind2]; rfl
  refine ⟨e0.1, g0.1, ?_, hfirst, hgreater, A, R, g0, B2, ?_, hAlt, ?_, hg0, ?_, rfl⟩
  · rw [hfind2] at hloop
    have hloop2 : equalRangeLoop s.mem fuel (some e0.1) fuel (some e0.1) = .ok (some g0.1) :=
      hloop
    simp only [equalRange, find, hfindk, hfirst, bind_ok, hloop2, pure_eq_ok]
  · rw [hsplit, hsplit2, List.append_assoc]
  · intro e he
    have hmem : e ∈ e0 :: B := by rw [hsplit2]; simp [he]
    have h1 : k ≤ e.2.1 := by
      rcases List.mem_cons.mp hmem with rfl | hb
      · exact le_of_eq hek.symm
      · rw [← hek]
        simp only [List.map_cons, List.pairwise_cons] at hsB
        exact hsB.1 _ (List.mem_map_of_mem _ hb)
    have h2 : ¬ k < e.2.1 := by simpa using hR e he
    exact le_antisymm (not_lt.mp h2) h1
  · cases R with
    | nil =>
      simp only [List.nil_append, List.cons.injEq] at hsplit2
      exact absurd hg0 (by rw [← hsplit2.1, hek]; exact lt_irrefl _)
    | cons r0 R2 =>
      simp only [List.cons_append, List.cons.injEq] at hsplit2
      simp [hsplit2.1]

end Ord

/-- Witness of C23: `equalRange(5)` on `sampleTree` (in-order keys 3, 5, 5, 6, 7, 8 at
the addresses 1, 0, 5, 3, 4, 2) returns the root, which holds the first 5, and the node
of the key 6. -/
theorem equalRange_with_greater_key_witness :
    WF sampleTree sampleShape ∧ 5 ∈ sampleShape.keys ∧ (∃ g ∈ sampleShape.keys, 5 < g) ∧
      sampleTree.size < 7 ∧ equalRange 7 sampleTree 5 = .ok (some 0, some 3) ∧
      ∃ (x y : Nat), equalRange 7 sampleTree 5 = .ok (some x, some y) ∧
        sampleShape.firstWithKey 5 = some x ∧ sampleShape.firstGreater 5 = some y ∧
        ∃ (A R : List (Nat × (Nat × Nat))) (g : Nat × (Nat × Nat))
          (B : List (Nat × (Nat × Nat))),
          sampleShape.nodes = A ++ R ++ g :: B ∧ (∀ e ∈ A, e.2.1 < 5) ∧
          (∀ e ∈ R, e.2.1 = 5) ∧ 5 < g.2.1 ∧ R.head?.map Prod.fst = some x ∧ g.1 = y :=
  ⟨sampleTree_wf, by decide, ⟨6, by decide, by decide⟩, by decide, rfl,
    equalRange_with_greater_key sampleTree sampleShape 5 7 sampleTree_wf (by decide)
      ⟨6, by decide, by decide⟩ (by decide)⟩

end BST
